import Mathlib

/-!
# mkbfs: a shallow embedding of `host/mkbfs.c`

The image is one flat byte buffer.  The header `bfshdr_t` lives inside it at
byte offset 500, and every directory entry `bfs16dir_t` lives inside it too,
so the embedding keeps a single byte-addressed memory and reads the header
fields back from that memory every time the C code dereferences `header`.

Addresses are byte offsets from the start of the buffer (`mem` in
`bfs_create`); the header pointer is `mem + 500`.  Multi-byte fields are
little-endian, structures have the natural x86 layout:

* `bfshdr_t`  : `bfs` 0..2, `word_size` 3, `n_sectors` 4..7, `sector_size` 8..9,
  `mbr_magic` 10..11                                      (12 bytes)
* `bfs16dir_t`: `name` 0..23, `start` 24..25, `sectors` 26..27,
  `bytes_rem` 28..29, `flags` 30..31                       (32 bytes)

The host side (`readdir`, `isdir`, `opendirat`, `fopenat`, `fread`) is taken
as given: a `Host` answers the three lookups, a `DIR` lists the names still
to be read, a `FILE` holds the bytes still to be delivered.

`bfs16_mkfile` stores file bytes only into sectors it has compared with
`n_sectors`.  `bfs16_mkdir` stores entries without such a test, so its
embedding takes the size of the buffer and has no result (`Fault.oob`) when
a store would leave it; its recursion is bounded by an explicit depth.  Two
ghost lists in its result record the calls it made.

`bfs_create` takes the size as an integer (a C `long`) and stores the sector
count in the 32-bit field; `bfs_mkdir` is the dispatch on the word size.
`mkdir_start` and `child_call` name two parts of `bfs16_mkdir` (what comes
before its second pass, and the call one round of that pass makes) so that
statements can speak of the state between them.
-/

namespace Mkbfs

/-! ## Memory -/

/-- Byte-addressed memory: offset from the start of the image buffer to the
value stored there. -/
abbrev Mem := Nat → Nat

/-- Store one byte. -/
def store8 (m : Mem) (a v : Nat) : Mem :=
  fun x => if x = a then v % 256 else m x

/-- Store a little-endian 16-bit value (the value is truncated to 16 bits, as
an assignment to a `u16` field does). -/
def store16 (m : Mem) (a v : Nat) : Mem :=
  fun x => if x = a then v % 256 else if x = a + 1 then v / 256 % 256 else m x

/-- Store a little-endian 32-bit value. -/
def store32 (m : Mem) (a v : Nat) : Mem :=
  fun x =>
    if x = a then v % 256
    else if x = a + 1 then v / 256 % 256
    else if x = a + 2 then v / 65536 % 256
    else if x = a + 3 then v / 16777216 % 256
    else m x

/-- Load one byte. -/
def load8 (m : Mem) (a : Nat) : Nat := m a % 256

/-- Load a little-endian 16-bit value. -/
def load16 (m : Mem) (a : Nat) : Nat := m a % 256 + 256 * (m (a + 1) % 256)

/-- Load a little-endian 32-bit value. -/
def load32 (m : Mem) (a : Nat) : Nat :=
  m a % 256 + 256 * (m (a + 1) % 256) + 65536 * (m (a + 2) % 256)
    + 16777216 * (m (a + 3) % 256)

/-- Store a run of bytes starting at `a` (what `fread` and `strcpy` do to
their destination). -/
def storeBytes (m : Mem) (a : Nat) (bs : List Nat) : Mem :=
  fun x => if a ≤ x ∧ x < a + bs.length then bs.getD (x - a) 0 else m x

/-! ## Constants of the source -/

def BFS_DIR : Nat := 1
def SUCCESS : Int := 0
def ERR_NODIVIS : Int := -1
def ERR_WORDSIZE : Int := -2
def ERR_LONGNAME : Int := -3
def ERR_NOSPACE : Int := -4
def ERR_FILEIO : Int := -5

/-- Offset of the header inside the buffer (`mem + 500`). -/
def HDR : Nat := 500

/-- The value `sizeof(bfs16dir_t)`. -/
def DIRENT_SIZE : Nat := 32

/-- The value `sizeof(entry->name)`. -/
def NAME_SIZE : Nat := 24

/-- Conversion of a `u32` to the `s32` return type. -/
def toS32 (n : Nat) : Int :=
  if n % 4294967296 < 2147483648 then (n % 4294967296 : Nat)
  else ((n % 4294967296 : Nat) : Int) - 4294967296

/-! ## Header fields, read through the `header` pointer -/

def hdr_word_size (m : Mem) : Nat := load8 m (HDR + 3)
def hdr_n_sectors (m : Mem) : Nat := load32 m (HDR + 4)
def hdr_sector_size (m : Mem) : Nat := load16 m (HDR + 8)
def hdr_mbr_magic (m : Mem) : Nat := load16 m (HDR + 10)

/-- The function `sector_ptr`: `(char *)header - 500 + header->sector_size * i`,
the product taken in 32-bit unsigned arithmetic. -/
def sector_ptr (m : Mem) (i : Nat) : Nat :=
  HDR - 500 + (hdr_sector_size m * i) % 4294967296

/-- The local `sector_size` of both packers: the header's field, with 0
standing for 65536. -/
def eff_sector_size (m : Mem) : Nat :=
  if hdr_sector_size m = 0 then 65536 else hdr_sector_size m

/-! ## Directory entry fields, at an entry address -/

def ent_start (m : Mem) (e : Nat) : Nat := load16 m (e + 24)
def ent_sectors (m : Mem) (e : Nat) : Nat := load16 m (e + 26)
def ent_bytes_rem (m : Mem) (e : Nat) : Nat := load16 m (e + 28)
def ent_flags (m : Mem) (e : Nat) : Nat := load16 m (e + 30)

/-- The four assignments `e->start = ..; e->sectors = ..; e->bytes_rem = ..;
e->flags = ..`, each truncating to the 16-bit field. -/
def ent_set (m : Mem) (e start sectors bytes_rem flags : Nat) : Mem :=
  store16 (store16 (store16 (store16 m (e + 24) start) (e + 26) sectors)
    (e + 28) bytes_rem) (e + 30) flags

/-! ## Host streams -/

/-- A host `FILE *` opened for reading: the bytes not yet delivered, the
number of bytes after which the device fails (if it does), and the two
stream indicators. -/
structure FILE where
  data : List Nat
  fail : Option Nat
  eof : Bool
  err : Bool
deriving Repr

/-- A freshly opened regular file with the given contents and no I/O error. -/
def openFile (bytes : List Nat) : FILE := ⟨bytes, none, false, false⟩

/-- The call `fread(buf, 1, n, src)`: delivers at most `n` bytes into memory at
`buf`; the end-of-file indicator is raised when the stream runs out before
`n` bytes were delivered, the error indicator when the device fails first.
Returns the new memory, the byte count and the new stream. -/
def fread (m : Mem) (buf n : Nat) (src : FILE) : Mem × Nat × FILE :=
  match src.fail with
  | some k =>
    if k < n ∧ k ≤ src.data.length then
      (storeBytes m buf (src.data.take k), k,
        ⟨src.data.drop k, some 0, src.eof, true⟩)
    else
      let got := min n src.data.length
      (storeBytes m buf (src.data.take got), got,
        ⟨src.data.drop got, some (k - got), src.eof || decide (src.data.length < n), src.err⟩)
  | none =>
    let got := min n src.data.length
    (storeBytes m buf (src.data.take got), got,
      ⟨src.data.drop got, none, src.eof || decide (src.data.length < n), src.err⟩)

/-! ## The file packer -/

/-- The loop of `bfs16_mkfile`, one iteration per unit of fuel.  `none` means
the fuel ran out. -/
def mkfile_loop (sector_size start_sector direntry : Nat) :
    Nat → Mem → Nat → FILE → Option (Mem × Int)
  | 0, _, _, _ => none
  | fuel + 1, m, sector, src =>
    if sector < hdr_n_sectors m then
      let buf := sector_ptr m sector
      match fread m buf sector_size src with
      | (m1, bytes_read, src1) =>
        if src1.eof then
          let bytes_read := if bytes_read = sector_size then 0 else bytes_read
          let sector := (sector + 1) % 4294967296
          let n_sectors := (sector + 4294967296 - start_sector) % 4294967296
          some (ent_set m1 direntry start_sector n_sectors bytes_read 0, toS32 n_sectors)
        else if src1.err then
          some (m1, ERR_FILEIO)
        else
          mkfile_loop sector_size start_sector direntry fuel m1
            ((sector + 1) % 4294967296) src1
    else
      some (m, ERR_NOSPACE)

/-- The function `bfs16_mkfile(header, start_sector, src, direntry)` on memory `m`.
The loop counter is a `u32` that strictly increases and stays below the
`u32` field `n_sectors`, so `2^32 + 1` units of fuel are never used up. -/
def bfs16_mkfile (m : Mem) (start_sector : Nat) (src : FILE) (direntry : Nat) :
    Option (Mem × Int) :=
  mkfile_loop (eff_sector_size m) start_sector direntry 4294967297 m start_sector src

/-! ## The directory packer -/

/-- A host `DIR *`: its descriptor and the names `readdir` has yet to yield
(each name is the characters of `d_name` before its terminator). -/
structure DIR where
  fd : Nat
  pending : List (List Nat)

/-- The host file system as the external calls see it: `isdir(path)` (a
`stat` relative to the process's working directory), `opendirat(srcdir, path)`
and `fopenat(srcdir, path, "rb")`, the last two by descriptor, `none` for
`NULL`. -/
structure Host where
  isdir : List Nat → Bool
  opendirat : Nat → List Nat → Option DIR
  fopenat : Nat → List Nat → Option FILE

/-- Why the embedding has no result: the recursion budget ran out, a store or
load fell outside the buffer (undefined behaviour in C), or the listing
pass divided by zero (`sector_size < sizeof(bfs16dir_t)`). -/
inductive Fault
  | nofuel
  | oob
  | divzero
deriving DecidableEq, Repr

/-- How the listing pass ends: all names read, with the running `sector` and
`n_entries`, or an early `return` of an error code. -/
inductive Listed
  | done (sector n_entries : Nat)
  | fail (code : Int)

/-- Ghost record of one call made by the second pass: the name read from the
slot, whether it was packed as a directory, the sector it was given, the
slot naming it, and what the call returned. -/
structure PackRec where
  name : List Nat
  is_dir : Bool
  start_sector : Nat
  entry : Nat
  ret : Int

/-- Result of `bfs16_mkdir`: the memory and the returned value, with two ghost
lists: `kids`, the calls its own second pass made, in order, and `dirs`,
the `(start_sector, parent_entry)` of every `bfs16_mkdir` call that wrote
its slot `.`, itself first. -/
structure Packed where
  mem : Mem
  ret : Int
  kids : List PackRec
  dirs : List (Nat × Option Nat)

/-- Conversion of a wide integer to `int`. -/
def wrapS32 (z : Int) : Int := (z + 2147483648) % 4294967296 - 2147483648

/-- The four assignments `dst->start = src->start; ... dst->flags = src->flags`,
in the source's order, each reading the memory the previous ones left. -/
def ent_copy (m : Mem) (dst src : Nat) : Mem :=
  let m1 := store16 m (dst + 24) (ent_start m src)
  let m2 := store16 m1 (dst + 26) (ent_sectors m1 src)
  let m3 := store16 m2 (dst + 28) (ent_bytes_rem m2 src)
  store16 m3 (dst + 30) (ent_flags m3 src)

/-- The string at address `a`, as `isdir` and `openat` read `entry->name`: the
bytes up to the first zero.  Leaving the buffer is a fault. -/
def readCStr (m : Mem) (size : Nat) : Nat → Nat → Except Fault (List Nat)
  | 0, _ => .error .oob
  | fuel + 1, a =>
    if size ≤ a then .error .oob
    else if load8 m a = 0 then .ok []
    else
      match readCStr m size fuel (a + 1) with
      | .ok cs => .ok (load8 m a :: cs)
      | .error f => .error f

/-- The first pass of `bfs16_mkdir` (the `while (1)` loop over `readdir`):
`entry` is the address of the next free slot, `sector` and `n_entries` the
running counters. -/
def mkdir_list (size sector_size : Nat) :
    List (List Nat) → Mem → Nat → Nat → Nat → Except Fault (Mem × Listed)
  | [], m, _, sector, n_entries => .ok (m, .done sector n_entries)
  | name :: rest, m, entry, sector, n_entries =>
    if name = [46] ∨ name = [46, 46] then
      mkdir_list size sector_size rest m entry sector n_entries
    else if name.length > NAME_SIZE - 1 then
      .ok (m, .fail ERR_LONGNAME)
    else if size < entry + (name.length + 1) then
      .error .oob
    else
      let m1 := storeBytes m entry (name ++ [0])
      if sector_size / DIRENT_SIZE = 0 then
        .error .divzero
      else if (n_entries + 1) % (sector_size / DIRENT_SIZE) = 0 then
        if (sector + 1) % 4294967296 ≥ hdr_n_sectors m1 then
          .ok (m1, .fail ERR_NOSPACE)
        else
          mkdir_list size sector_size rest m1 (entry + DIRENT_SIZE)
            ((sector + 1) % 4294967296) (n_entries + 1)
      else
        mkdir_list size sector_size rest m1 (entry + DIRENT_SIZE) sector (n_entries + 1)

/-- State of the second pass: memory, running `sector`, the error code if a
child failed, and the ghost lists. -/
structure Walk where
  mem : Mem
  sector : Nat
  err : Option Int
  kids : List PackRec
  dirs : List (Nat × Option Nat)

/-- The second pass of `bfs16_mkdir` (the `for` loop over the slots from
`start + 2`): `count` slots remain, `entry` is the current one; `recurse` is
`bfs16_mkdir` itself, one level down. -/
def mkdir_children (size : Nat) (host : Host) (fd start : Nat)
    (recurse : Mem → Nat → DIR → Option Nat → Option Nat → Except Fault Packed) :
    Nat → Nat → Walk → Except Fault Walk
  | 0, _, w => .ok w
  | count + 1, entry, w =>
    match readCStr w.mem size size entry with
    | .error f => .error f
    | .ok name =>
      if host.isdir name then
        match host.opendirat fd name with
        | none => .ok { w with err := some ERR_FILEIO }
        | some dir =>
          match recurse w.mem w.sector dir (some start) (some entry) with
          | .error f => .error f
          | .ok p =>
            if p.ret < 0 then
              .ok { w with mem := p.mem, err := some p.ret }
            else
              mkdir_children size host fd start recurse count (entry + DIRENT_SIZE)
                { mem := p.mem
                  sector := (w.sector + p.ret.toNat) % 4294967296
                  err := none
                  kids := w.kids ++ [⟨name, true, w.sector, entry, p.ret⟩]
                  dirs := w.dirs ++ p.dirs }
      else
        match host.fopenat fd name with
        | none => .ok { w with err := some ERR_FILEIO }
        | some file =>
          match bfs16_mkfile w.mem w.sector file entry with
          | none => .error .nofuel
          | some (m1, advance_by) =>
            if advance_by < 0 then
              .ok { w with mem := m1, err := some advance_by }
            else
              mkdir_children size host fd start recurse count (entry + DIRENT_SIZE)
                { mem := m1
                  sector := (w.sector + advance_by.toNat) % 4294967296
                  err := none
                  kids := w.kids ++ [⟨name, false, w.sector, entry, advance_by⟩]
                  dirs := w.dirs }

/-- The block `if (parent_entry) { ... }`: the four fields of slot `.` copied into
the parent's slot for this directory. -/
def backpatch (size : Nat) (m : Mem) (start : Nat) : Option Nat → Except Fault Mem
  | none => .ok m
  | some pe =>
    if size < pe + DIRENT_SIZE then .error .oob else .ok (ent_copy m pe start)

/-- The block `if (parent) { ... }`: slot 1 named `..` and given the four fields
of the parent's slot `.`. -/
def fill_dotdot (size : Nat) (m : Mem) (start : Nat) : Option Nat → Except Fault Mem
  | none => .ok m
  | some p =>
    if size < start + 2 * DIRENT_SIZE ∨ size < p + DIRENT_SIZE then .error .oob
    else .ok (ent_copy (storeBytes m (start + DIRENT_SIZE) [46, 46, 0]) (start + DIRENT_SIZE) p)

/-- The function `bfs16_mkdir(header, start_sector, srcdir, parent, parent_entry)`
on memory `m`, in a buffer of `size` bytes; `parent` and `parent_entry` are
addresses, `none` for `NULL`.  The first argument bounds the depth of the
recursion. -/
def bfs16_mkdir (size : Nat) (host : Host) :
    Nat → Mem → Nat → DIR → Option Nat → Option Nat → Except Fault Packed
  | 0, _, _, _, _, _ => .error .nofuel
  | depth + 1, m, start_sector, srcdir, parent, parent_entry =>
    let start := sector_ptr m start_sector
    let sector_size := eff_sector_size m
    match mkdir_list size sector_size srcdir.pending m (start + 2 * DIRENT_SIZE)
        start_sector 2 with
    | .error f => .error f
    | .ok (m1, .fail code) => .ok ⟨m1, code, [], []⟩
    | .ok (m1, .done sector0 n_entries) =>
      let n_sectors0 := (sector0 + 4294967296 - start_sector) % 4294967296
      let bytes_rem := wrapS32 ((n_entries * DIRENT_SIZE : Nat) - (n_sectors0 * sector_size : Nat))
      let sector := if bytes_rem ≠ 0 then (sector0 + 1) % 4294967296 else sector0
      let n_sectors := if bytes_rem ≠ 0 then (n_sectors0 + 1) % 4294967296 else n_sectors0
      if size < start + DIRENT_SIZE then .error .oob
      else
        let m2 := ent_set (storeBytes m1 start [46, 0]) start start_sector n_sectors
          (bytes_rem % 65536).toNat BFS_DIR
        match backpatch size m2 start parent_entry with
        | .error f => .error f
        | .ok m3 =>
          match fill_dotdot size m3 start parent with
          | .error f => .error f
          | .ok m4 =>
            match mkdir_children size host srcdir.fd start (bfs16_mkdir size host depth)
                (n_entries - 2) (start + 2 * DIRENT_SIZE)
                ⟨m4, sector, none, [], [(start_sector, parent_entry)]⟩ with
            | .error f => .error f
            | .ok w =>
              match w.err with
              | some code => .ok ⟨w.mem, code, w.kids, w.dirs⟩
              | none =>
                .ok ⟨w.mem, toS32 ((w.sector + 4294967296 - start_sector) % 4294967296),
                  w.kids, w.dirs⟩

/-! ## Image initialiser -/

/-- The function `bfs_create(mem, size, sector_size, word_size)`; `size` is a C
`long`, `sector_size` a `u16`, `word_size` a `u8`.  A zero `sector_size`
makes the `%` undefined in C; the embedding is only used with a non-zero
one. -/
def bfs_create (m : Mem) (size : Int) (sector_size word_size : Nat) : Mem × Int :=
  if Int.tmod size sector_size ≠ 0 then (m, ERR_NODIVIS)
  else if word_size ≠ 16 ∧ word_size ≠ 32 then (m, ERR_WORDSIZE)
  else
    let m1 := store8 m (HDR + 3) word_size
    let m2 := store32 m1 (HDR + 4) (Int.toNat (Int.emod (Int.tdiv size sector_size) 4294967296))
    let m3 := store16 m2 (HDR + 8) sector_size
    let m4 := store16 m3 (HDR + 10) 0xaa55
    (m4, SUCCESS)

/-- An all-zero buffer. -/
def zeroMem : Mem := fun _ => 0

/-! ## Concrete images used by the examples -/

/-- A ten-sector image with 512-byte sectors, as `bfs_create` leaves it. -/
def floppy10 : Mem := (bfs_create zeroMem (10 * 512) 512 16).1

/-- An image of 65537 sectors of 512 bytes. -/
def bigImage : Mem := (bfs_create zeroMem (65537 * 512) 512 16).1

/-- A one-sector image with 512-byte sectors. -/
def oneSector : Mem := (bfs_create zeroMem 512 512 16).1

/-- A 513-byte file whose bytes 504..509 spell `n_sectors = 2`,
`sector_size = 0`. -/
def headerShapedFile : List Nat :=
  List.replicate 504 0 ++ [2, 0, 0, 0, 0, 0, 0, 0] ++ [0]

/-- The length the spec's round-trip rule reconstructs from a file entry:
`sectors * sector_size` when `bytes_rem == 0` and `sectors > 0`, otherwise
`(sectors - 1) * sector_size + bytes_rem`. -/
def spec_length (sector_size sectors bytes_rem : Nat) : Nat :=
  if bytes_rem = 0 ∧ 0 < sectors then sectors * sector_size
  else (sectors - 1) * sector_size + bytes_rem

/-! ## Predicates used by the statements -/

/-- Memory `m'` agrees with `m` at every address below `lo`, except possibly in
the four fields (bytes 24..31) of the entry at `e`. -/
def Frame (lo : Nat) (e : Option Nat) (m m' : Mem) : Prop :=
  ∀ x, x < lo → (∀ a, e = some a → x < a + 24 ∨ a + 32 ≤ x) → m' x = m x

/-- The names the listing pass keeps: all but `.` and `..`. -/
def real_names (names : List (List Nat)) : List (List Nat) :=
  names.filter (fun nm => ¬ (nm = [46] ∨ nm = [46, 46]))

/-- The entries at `a` and `b` hold the same four fields. -/
def SameFields (m : Mem) (a b : Nat) : Prop :=
  ent_start m a = ent_start m b ∧ ent_sectors m a = ent_sectors m b ∧
  ent_bytes_rem m a = ent_bytes_rem m b ∧ ent_flags m a = ent_flags m b

/-- What C5 asks of one packed directory, given as `(start_sector, parent_entry)`:
its slot `.` (at the start of its first sector, `S * start_sector`) records
its start sector and the directory flag, and the slot naming it in its
parent, if any, holds the same four fields. -/
def DirOK (S : Nat) (m : Mem) (rec : Nat × Option Nat) : Prop :=
  ent_start m (S * rec.1) = rec.1 ∧ ent_flags m (S * rec.1) = BFS_DIR ∧
  ∀ a, rec.2 = some a → SameFields m a (S * rec.1)

/-- The calls of a second pass follow one another without gaps: the first is
given sector `sec` and slot `e`, each next one the sector where the previous
one ended and the next slot; each consumed at least one sector. -/
def Chained : Nat → Nat → List PackRec → Prop
  | _, _, [] => True
  | sec, e, r :: rs =>
    r.start_sector = sec ∧ r.entry = e ∧ 1 ≤ r.ret ∧
    Chained (sec + r.ret.toNat) (e + 32) rs

/-- Sum of the values the calls of a second pass returned. -/
def span (kids : List PackRec) : Nat := (kids.map (fun r => r.ret.toNat)).sum

/-- The names are C strings of characters: no byte is zero or above 255. -/
def ValidNames (names : List (List Nat)) : Prop :=
  ∀ nm ∈ names, ∀ b ∈ nm, 0 < b ∧ b < 256

/-- Where the record of a packed directory keeps its entries, seen from the
call that packed it: its slot `.` lies in `[lo, hi)`, and the slot naming it
is either the caller's `pe` or lies in `[lo, hi)` too. -/
def RecIn (S lo hi : Nat) (pe : Option Nat) (rec : Nat × Option Nat) : Prop :=
  lo ≤ S * rec.1 ∧ S * rec.1 + 32 ≤ hi ∧
  ∀ a, rec.2 = some a → rec.2 = pe ∨ (lo ≤ a ∧ a + 32 ≤ hi)

/-- The same, seen from inside the second pass of the directory at sector `s`
while it is at slot `i` and sector `cur`: the record is the directory's own,
or belongs to sectors already packed; the slot naming it is the caller's, one
of the slots already handled, or lies in sectors already packed. -/
def RecAt (S s ls i cur : Nat) (pe : Option Nat) (rec : Nat × Option Nat) : Prop :=
  (rec.1 = s ∨ (S * (s + ls) ≤ S * rec.1 ∧ S * rec.1 + 32 ≤ S * cur)) ∧
  ∀ a, rec.2 = some a →
    rec.2 = pe ∨ (S * s + 64 ≤ a ∧ a + 32 ≤ S * s + 32 * i) ∨
      (S * (s + ls) ≤ a ∧ a + 32 ≤ S * cur)

/-- Sectors of a listing of `c` children when a sector holds `k` entries. -/
def listing_sectors (k c : Nat) : Nat := (c + 2 + k - 1) / k

/-- What the second pass keeps intact below the first content sector `cb`:
slots 0 and 1 and every name field of the listing at `lb`. -/
def FrameL (lb cb : Nat) (m m' : Mem) : Prop :=
  ∀ x, x < cb → (x < lb + 64 ∨ (x - lb) % 32 < 24) → m' x = m x

/-- What a call of `bfs16_mkdir` at sector `s` leaves behind, in an image with
sector size `S = 32 * k` and `N` sectors: it stored only at or above its
first sector and in the fields of `pe`; and when it succeeded, its footprint,
its slot `.`, the back-patched slot, slot 1 of a root, the chain of its
children and the records of the directories beneath it are as stated. -/
def Post (S N k : Nat) (m : Mem) (s : Nat) (dir : DIR) (parent pe : Option Nat)
    (p : Packed) : Prop :=
  Frame (S * s) pe m p.mem ∧
  (0 ≤ p.ret →
    s + listing_sectors k p.kids.length + span p.kids ≤ N ∧
    p.ret = ((listing_sectors k p.kids.length + span p.kids : Nat) : Int) ∧
    ent_start p.mem (S * s) = s ∧
    ent_sectors p.mem (S * s) = listing_sectors k p.kids.length ∧
    ent_bytes_rem p.mem (S * s) = 32 * ((p.kids.length + 2) % k) ∧
    ent_flags p.mem (S * s) = BFS_DIR ∧
    (∀ a, pe = some a → SameFields p.mem a (S * s)) ∧
    (parent = none → ∀ x, S * s + 32 ≤ x → x < S * s + 64 → p.mem x = m x) ∧
    Chained (s + listing_sectors k p.kids.length) (S * s + 64) p.kids ∧
    (∀ r ∈ p.kids, ent_start p.mem r.entry = r.start_sector) ∧
    (s, pe) ∈ p.dirs ∧
    (∀ rec ∈ p.dirs, DirOK S p.mem rec ∧
      RecIn S (S * s) (S * (s + listing_sectors k p.kids.length + span p.kids)) pe rec) ∧
    p.kids.length = (real_names dir.pending).length ∧
    (ValidNames dir.pending → p.kids.map (fun r => r.name) = real_names dir.pending))

/-- The statement `Post` for every call of a function standing for
`bfs16_mkdir` at some depth. -/
def CallSpec (S N k : Nat)
    (call : Mem → Nat → DIR → Option Nat → Option Nat → Except Fault Packed) : Prop :=
  ∀ m s dir parent pe p, hdr_sector_size m = S → hdr_n_sectors m = N →
    512 ≤ S * s → s ≤ N → (∀ a, pe = some a → 512 ≤ a + 24 ∧ a + 32 ≤ S * s) →
    call m s dir parent pe = .ok p → Post S N k m s dir parent pe p

/-- Invariant of the second pass of the directory at sector `s` (listing of
`ls` sectors) when it reaches slot `i`. -/
def GoodInv (S N s ls : Nat) (pe : Option Nat) (V : Prop) (real : List (List Nat))
    (i : Nat) (w : Walk) : Prop :=
  s + ls + span w.kids = w.sector ∧ w.sector ≤ N ∧ w.kids.length + 2 = i ∧
  (s, pe) ∈ w.dirs ∧
  Chained (s + ls) (S * s + 64) w.kids ∧
  (∀ r ∈ w.kids, ent_start w.mem r.entry = r.start_sector ∧
    S * s + 64 ≤ r.entry ∧ r.entry + 32 ≤ S * s + 32 * i) ∧
  (∀ rec ∈ w.dirs, DirOK S w.mem rec ∧ RecAt S s ls i w.sector pe rec) ∧
  (V → w.kids.map (fun r => r.name) = real.take (i - 2))

/-- The slots from address `e` on hold the given names, each followed by its
terminator, inside a buffer of `size` bytes. -/
def NamesStored (size e : Nat) (m : Mem) (names : List (List Nat)) : Prop :=
  ∀ j nm, names[j]? = some nm →
    nm.length ≤ 23 ∧ e + 32 * j + nm.length + 1 ≤ size ∧
    ∀ t, t ≤ nm.length → m (e + 32 * j + t) = (nm ++ [0]).getD t 0

/-! ## Concrete host trees used by the examples -/

/-- A host with nothing in it. -/
def emptyHost : Host := ⟨fun _ => false, fun _ _ => none, fun _ _ => none⟩

/-- The spec's end-to-end example: the root (descriptor 0) holds an empty
directory `d` (descriptor 1) and a 600-byte file `f`. -/
def demoHost : Host where
  isdir := fun n => n == [100]
  opendirat := fun fd n => if fd = 0 ∧ n = [100] then some ⟨1, [[46], [46, 46]]⟩ else none
  fopenat := fun fd n =>
    if fd = 0 ∧ n = [102] then some (openFile (List.replicate 600 7)) else none

/-- The root directory stream of `demoHost`. -/
def demoRoot : DIR := ⟨0, [[46], [100], [46, 46], [102]]⟩

/-- The root holds a directory `d`, which holds a one-byte file `f`. -/
def nestedHost : Host where
  isdir := fun n => n == [100]
  opendirat := fun fd n => if fd = 0 ∧ n = [100] then some ⟨1, [[102]]⟩ else none
  fopenat := fun fd n => if fd = 1 ∧ n = [102] then some (openFile [7]) else none

/-- The root directory stream of `nestedHost`. -/
def nestedRoot : DIR := ⟨0, [[100]]⟩

/-- A twenty-sector image with 96-byte sectors, as `bfs_create` leaves it. -/
def image96 : Mem := (bfs_create zeroMem (20 * 96) 96 16).1

/-- The root holds a one-byte file `a` and a 320-byte file `b` whose bytes
248..253 spell `n_sectors = 20`, `sector_size = 32`. -/
def twoFilesHost : Host where
  isdir := fun _ => false
  opendirat := fun _ _ => none
  fopenat := fun fd n =>
    if fd = 0 ∧ n = [97] then some (openFile [1])
    else if fd = 0 ∧ n = [98] then
      some (openFile (List.replicate 248 255 ++ [20, 0, 0, 0, 32, 0, 255, 255]
        ++ List.replicate 64 255))
    else none

/-- The root directory stream of `twoFilesHost`. -/
def twoFilesRoot : DIR := ⟨0, [[97], [98]]⟩

/-- The value of a run that ended without a fault. -/
def Packed_get (r : Except Fault Packed) : Packed :=
  match r with
  | .ok p => p
  | .error _ => ⟨zeroMem, 0, [], []⟩

/-- The result of packing `demoHost` from sector 1 of `floppy10`. -/
def demoPacked : Packed :=
  Packed_get (bfs16_mkdir 5120 demoHost 5 floppy10 1 demoRoot none none)

/-- The result of packing the directory `d` of `nestedHost` at sector 2 of
`floppy10`, with its parent's slot `.` at 512 and its own slot at 576. -/
def innerPacked : Packed :=
  Packed_get (bfs16_mkdir 5120 nestedHost 5 floppy10 2 ⟨1, [[102]]⟩ (some 512) (some 576))

/-- The result of packing `nestedHost` from sector 1 of `floppy10`. -/
def nestedPacked : Packed :=
  Packed_get (bfs16_mkdir 5120 nestedHost 5 floppy10 1 nestedRoot none none)

/-- The fields of `bfshdr_t` in the order of the declaration, each with its
size and its alignment in bytes: `char bfs[3]`, `u8 word_size`,
`u32 n_sectors`, `u16 sector_size`, `u16 mbr_magic`. -/
def bfshdr_fields : List (Nat × Nat) := [(3, 1), (1, 1), (4, 4), (2, 2), (2, 2)]

/-- Offsets of the fields of a record under the natural layout: each field
goes to the next multiple of its alignment at or after `pos`. -/
def field_offsets : Nat → List (Nat × Nat) → List Nat
  | _, [] => []
  | pos, (sz, al) :: rest =>
    let off := (pos + al - 1) / al * al
    off :: field_offsets (off + sz) rest

/-- Size of a record under the natural layout: the end of its last field,
rounded up to the largest alignment among the fields. -/
def struct_size (fields : List (Nat × Nat)) : Nat :=
  let stop := (fields.foldl (fun pos f => (pos + f.2 - 1) / f.2 * f.2 + f.1) 0)
  let al := fields.foldl (fun a f => max a f.2) 1
  (stop + al - 1) / al * al

/-- The function `bfs_mkdir(header, start_sector, srcdir, parent, parent_entry)`:
the dispatch on the header's word size.  The branch for word size 32 is
commented out in the source, so every word size other than 16 gives
ERR_WORDSIZE. -/
def bfs_mkdir (size : Nat) (host : Host) (depth : Nat) (m : Mem) (start_sector : Nat)
    (srcdir : DIR) (parent parent_entry : Option Nat) : Except Fault Packed :=
  if hdr_word_size m = 16 then
    bfs16_mkdir size host depth m start_sector srcdir parent parent_entry
  else .ok ⟨m, ERR_WORDSIZE, [], []⟩

/-- A ten-sector image with 512-byte sectors and word size 32, as `bfs_create`
leaves it. -/
def floppy10w32 : Mem := (bfs_create zeroMem (10 * 512) 512 32).1

/-- A 513-byte file whose bytes 504..509 spell `n_sectors = 1`,
`sector_size = 512`. -/
def shrinkingFile : List Nat :=
  List.replicate 504 0 ++ [1, 0, 0, 0, 0, 2, 0, 0] ++ [0]

/-- A two-sector image with 512-byte sectors, as `bfs_create` leaves it. -/
def twoSector : Mem := (bfs_create zeroMem (2 * 512) 512 16).1

/-- The root (descriptor 0) holds one empty directory `d` (descriptor 1). -/
def oneDirHost : Host where
  isdir := fun n => n == [100]
  opendirat := fun fd n => if fd = 0 ∧ n = [100] then some ⟨1, [[46], [46, 46]]⟩ else none
  fopenat := fun _ _ => none

/-- The root directory stream of `oneDirHost`. -/
def oneDirRoot : DIR := ⟨0, [[46], [46, 46], [100]]⟩

/-- The result of packing `oneDirHost` from sector 1 of `twoSector` when the
buffer behind the two-sector image is 2048 bytes long. -/
def overrunPacked : Packed :=
  Packed_get (bfs16_mkdir 2048 oneDirHost 5 twoSector 1 oneDirRoot none none)

/-- The part of `bfs16_mkdir` before its second pass (lines 141 to 192): the
listing pass, slot `.`, the back-patch of the parent's slot and slot `..`.
The result is the memory and error code of a failed listing pass, or the state
in which the second pass starts together with `n_entries`. -/
def mkdir_start (size : Nat) (m : Mem) (start_sector : Nat) (srcdir : DIR)
    (parent parent_entry : Option Nat) : Except Fault ((Mem × Int) ⊕ (Walk × Nat)) :=
  let start := sector_ptr m start_sector
  let sector_size := eff_sector_size m
  match mkdir_list size sector_size srcdir.pending m (start + 2 * DIRENT_SIZE)
      start_sector 2 with
  | .error f => .error f
  | .ok (m1, .fail code) => .ok (.inl (m1, code))
  | .ok (m1, .done sector0 n_entries) =>
    let n_sectors0 := (sector0 + 4294967296 - start_sector) % 4294967296
    let bytes_rem := wrapS32 ((n_entries * DIRENT_SIZE : Nat) - (n_sectors0 * sector_size : Nat))
    let sector := if bytes_rem ≠ 0 then (sector0 + 1) % 4294967296 else sector0
    let n_sectors := if bytes_rem ≠ 0 then (n_sectors0 + 1) % 4294967296 else n_sectors0
    if size < start + DIRENT_SIZE then .error .oob
    else
      let m2 := ent_set (storeBytes m1 start [46, 0]) start start_sector n_sectors
        (bytes_rem % 65536).toNat BFS_DIR
      match backpatch size m2 start parent_entry with
      | .error f => .error f
      | .ok m3 =>
        match fill_dotdot size m3 start parent with
        | .error f => .error f
        | .ok m4 => .ok (.inr (⟨m4, sector, none, [], [(start_sector, parent_entry)]⟩, n_entries))

/-- The call one round of the second pass makes for the slot at `entry`
(lines 195 to 206): the memory it leaves and the value of `advance_by`, with
ERR_FILEIO and the memory as it was when the child cannot be opened. -/
def child_call (size : Nat) (host : Host) (fd start : Nat)
    (recurse : Mem → Nat → DIR → Option Nat → Option Nat → Except Fault Packed)
    (entry : Nat) (w : Walk) : Except Fault (Mem × Int) :=
  match readCStr w.mem size size entry with
  | .error f => .error f
  | .ok name =>
    if host.isdir name then
      match host.opendirat fd name with
      | none => .ok (w.mem, ERR_FILEIO)
      | some dir =>
        match recurse w.mem w.sector dir (some start) (some entry) with
        | .error f => .error f
        | .ok p => .ok (p.mem, p.ret)
    else
      match host.fopenat fd name with
      | none => .ok (w.mem, ERR_FILEIO)
      | some file =>
        match bfs16_mkfile w.mem w.sector file entry with
        | none => .error .nofuel
        | some (m1, advance_by) => .ok (m1, advance_by)

/-- The root (descriptor 0) holds a one-byte file `a`, a directory `d`
(descriptor 1) holding one entry with a 24-character name, and a one-byte
file `c`. -/
def failHost : Host where
  isdir := fun n => n == [100]
  opendirat := fun fd n =>
    if fd = 0 ∧ n = [100] then some ⟨1, [List.replicate 24 120]⟩ else none
  fopenat := fun fd n =>
    if fd = 0 ∧ (n = [97] ∨ n = [99]) then some (openFile [1]) else none

/-- The root directory stream of `failHost`. -/
def failRoot : DIR := ⟨0, [[97], [100], [99]]⟩

/-- The state of a second pass that ended without a fault. -/
def Walk_get (r : Except Fault Walk) : Walk :=
  match r with
  | .ok w => w
  | .error _ => ⟨zeroMem, 0, none, [], []⟩

/-- The state in which a second pass starts, when the first pass completed. -/
def Start_get (r : Except Fault ((Mem × Int) ⊕ (Walk × Nat))) : Walk :=
  match r with
  | .ok (.inr (w, _)) => w
  | _ => ⟨zeroMem, 0, none, [], []⟩

/-- The state in which the second pass over `failRoot` at sector 1 of
`floppy10` starts. -/
def failStart : Walk := Start_get (mkdir_start 5120 floppy10 1 failRoot none none)

/-- The state of that second pass after the child `a`. -/
def failBefore : Walk :=
  Walk_get (mkdir_children 5120 failHost 0 512 (bfs16_mkdir 5120 failHost 4) 1 576 failStart)

/-- The memory the call for the child `d` leaves. -/
def failMem : Mem :=
  match child_call 5120 failHost 0 512 (bfs16_mkdir 5120 failHost 4) 608 failBefore with
  | .ok (mk, _) => mk
  | .error _ => zeroMem

/-- A twenty-sector image with 64-byte sectors, as `bfs_create` leaves it. -/
def image64 : Mem := (bfs_create zeroMem (20 * 64) 64 16).1

/-- The root (descriptor 0) holds a one-byte file `a`. -/
def oneFileHost : Host where
  isdir := fun _ => false
  opendirat := fun _ _ => none
  fopenat := fun fd n => if fd = 0 ∧ n = [97] then some (openFile [1]) else none

/-- The root directory stream of `oneFileHost`. -/
def oneFileRoot : DIR := ⟨0, [[46], [46, 46], [97]]⟩

/-- The result of packing `oneFileHost` from sector 8 of `image64`. -/
def smallSectorPacked : Packed :=
  Packed_get (bfs16_mkdir 1280 oneFileHost 5 image64 8 oneFileRoot none none)

/-- A directory stream listing fourteen one-letter names, `a` to `n`. -/
def fourteenRoot : DIR := ⟨0, (List.range 14).map (fun i => [97 + i])⟩

/-- The state in which the second pass over `fourteenRoot` at sector 1 of
`floppy10` starts. -/
def fourteenStart : Walk := Start_get (mkdir_start 5120 floppy10 1 fourteenRoot none none)

/-- The state in which the second pass over `twoFilesRoot` at sector 5 of
`image96` starts; sector 5 (bytes 480 to 575) holds the header. -/
def overlapStart : Walk := Start_get (mkdir_start 1920 image96 5 twoFilesRoot none none)

/-! ## Memory lemmas -/

theorem storeBytes_append (m : Mem) (a : Nat) (xs ys : List Nat) :
    storeBytes (storeBytes m a xs) (a + xs.length) ys = storeBytes m a (xs ++ ys) := by
  funext x
  simp only [storeBytes, List.length_append]
  by_cases h1 : a + xs.length ≤ x ∧ x < a + xs.length + ys.length
  · rw [if_pos h1, if_pos (by omega)]
    rw [List.getD_append_right _ _ _ _ (by omega)]
    congr 1; omega
  · rw [if_neg h1]
    by_cases h2 : a ≤ x ∧ x < a + xs.length
    · rw [if_pos h2, if_pos (by omega)]
      rw [List.getD_append _ _ _ _ (by omega)]
    · rw [if_neg h2, if_neg (by omega)]

theorem storeBytes_take_drop (m : Mem) (a n : Nat) (xs : List Nat) (h : n ≤ xs.length) :
    storeBytes (storeBytes m a (xs.take n)) (a + n) (xs.drop n) = storeBytes m a xs := by
  have := storeBytes_append m a (xs.take n) (xs.drop n)
  rw [List.length_take, Nat.min_eq_left h, List.take_append_drop] at this
  exact this

theorem load16_storeBytes (m : Mem) (a b : Nat) (bs : List Nat)
    (h : b + 2 ≤ a ∨ a + bs.length ≤ b) :
    load16 (storeBytes m a bs) b = load16 m b := by
  simp only [load16, storeBytes]
  rw [if_neg (by omega), if_neg (by omega)]

theorem load32_storeBytes (m : Mem) (a b : Nat) (bs : List Nat)
    (h : b + 4 ≤ a ∨ a + bs.length ≤ b) :
    load32 (storeBytes m a bs) b = load32 m b := by
  simp only [load32, storeBytes]
  rw [if_neg (by omega), if_neg (by omega), if_neg (by omega), if_neg (by omega)]

/-- The file's sectors, taken as a whole, past the header. -/
theorem hdr_storeBytes (m : Mem) (a : Nat) (bs : List Nat) (h : 512 ≤ a) :
    hdr_sector_size (storeBytes m a bs) = hdr_sector_size m ∧
    hdr_n_sectors (storeBytes m a bs) = hdr_n_sectors m := by
  constructor
  · exact load16_storeBytes m a _ bs (by simp only [HDR]; omega)
  · exact load32_storeBytes m a _ bs (by simp only [HDR]; omega)

theorem mkfile_loop_ok (S N s e : Nat) (hS : 0 < S) (hN : N * S ≤ 4294967296) :
    ∀ (q fuel : Nat) (m : Mem) (sec : Nat) (d : List Nat),
      d.length / S = q → q < fuel →
      hdr_sector_size m = S → hdr_n_sectors m = N →
      sec + q < N → 512 ≤ S * sec →
      mkfile_loop S s e fuel m sec ⟨d, none, false, false⟩ =
        some (ent_set (storeBytes m (S * sec) d) e s
                ((sec + q + 1 + 4294967296 - s) % 4294967296) (d.length % S) 0,
              toS32 ((sec + q + 1 + 4294967296 - s) % 4294967296)) := by
  intro q
  induction q with
  | zero =>
    intro fuel m sec d hq hf h1 h2 h3 h4
    obtain ⟨f, rfl⟩ : ∃ f, fuel = f + 1 := ⟨fuel - 1, by omega⟩
    have hlen : d.length < S := by
      exact (Nat.div_eq_zero_iff hS).mp hq
    have hN' : N < 4294967296 := by
      rw [← h2]; simp only [hdr_n_sectors, load32]; omega
    have hmul : S * sec < 4294967296 := by
      have : S * sec < S * N := Nat.mul_lt_mul_of_pos_left (by omega) hS
      rw [Nat.mul_comm S N] at this; omega
    simp only [mkfile_loop, h2, fread, sector_ptr, h1, HDR]
    rw [if_pos (by omega)]
    simp only [Nat.sub_self, Nat.zero_add, Nat.mod_eq_of_lt hmul,
      Nat.min_eq_right (Nat.le_of_lt hlen), List.take_length]
    simp only [hlen, decide_True, Bool.or_true, if_true, Bool.false_or]
    rw [if_neg (by omega), Nat.mod_eq_of_lt (by omega : sec + 1 < 4294967296),
      Nat.mod_eq_of_lt hlen]
  | succ q ih =>
    intro fuel m sec d hq hf h1 h2 h3 h4
    obtain ⟨f, rfl⟩ : ∃ f, fuel = f + 1 := ⟨fuel - 1, by omega⟩
    have hlen : S ≤ d.length := by
      by_contra hc
      rw [Nat.div_eq_of_lt (by omega)] at hq; omega
    have hN' : N < 4294967296 := by
      rw [← h2]; simp only [hdr_n_sectors, load32]; omega
    have hmul : S * sec < 4294967296 := by
      have : S * sec < S * N := Nat.mul_lt_mul_of_pos_left (by omega) hS
      rw [Nat.mul_comm S N] at this; omega
    have hdrop : (d.drop S).length / S = q := by
      rw [List.length_drop]
      have := Nat.sub_mul_div d.length S 1 (by omega)
      rw [Nat.mul_one] at this
      omega
    have hfr := hdr_storeBytes m (S * sec) (d.take S) h4
    have := ih f (storeBytes m (S * sec) (d.take S)) (sec + 1) (d.drop S) hdrop (by omega)
      (hfr.1.trans h1) (hfr.2.trans h2) (by omega) (by rw [Nat.mul_succ]; omega)
    simp only [mkfile_loop, h2, fread, sector_ptr, h1, HDR]
    rw [if_pos (by omega)]
    simp only [Nat.sub_self, Nat.zero_add, Nat.mod_eq_of_lt hmul,
      Nat.min_eq_left hlen]
    simp only [Nat.not_lt.mpr hlen, decide_False, Bool.or_false, Bool.false_eq_true, if_false]
    rw [Nat.mod_eq_of_lt (by omega : sec + 1 < 4294967296), this]
    rw [Nat.mul_succ, storeBytes_take_drop m (S * sec) S d hlen]
    have e1 : sec + 1 + q + 1 = sec + (q + 1) + 1 := by omega
    have e2 : (d.drop S).length % S = d.length % S := by
      rw [List.length_drop]
      exact (Nat.mod_eq_sub_mod hlen).symm
    rw [e1, e2]


theorem storeBytes_nil (m : Mem) (a : Nat) : storeBytes m a [] = m := by
  funext x; simp [storeBytes]

theorem mkfile_loop_full (S N s e : Nat) (hS : 0 < S) (hN : N * S ≤ 4294967296) :
    ∀ (k fuel : Nat) (m : Mem) (sec : Nat) (d : List Nat),
      N - sec = k → k < fuel → k * S ≤ d.length →
      hdr_sector_size m = S → hdr_n_sectors m = N →
      (sec < N → 512 ≤ S * sec) →
      mkfile_loop S s e fuel m sec ⟨d, none, false, false⟩ =
        some (storeBytes m (S * sec) (d.take (k * S)), ERR_NOSPACE) := by
  intro k
  induction k with
  | zero =>
    intro fuel m sec d hk hf hlen h1 h2 h4
    obtain ⟨f, rfl⟩ : ∃ f, fuel = f + 1 := ⟨fuel - 1, by omega⟩
    simp only [mkfile_loop, h2]
    rw [if_neg (by omega)]
    simp [storeBytes_nil]
  | succ k ih =>
    intro fuel m sec d hk hf hlen h1 h2 h4
    obtain ⟨f, rfl⟩ : ∃ f, fuel = f + 1 := ⟨fuel - 1, by omega⟩
    have hsec : sec < N := by omega
    have h4 := h4 hsec
    have hlen' : S ≤ d.length := by
      rw [Nat.succ_mul] at hlen; omega
    have hN' : N < 4294967296 := by
      rw [← h2]; simp only [hdr_n_sectors, load32]; omega
    have hmul : S * sec < 4294967296 := by
      have : S * sec < S * N := Nat.mul_lt_mul_of_pos_left (by omega) hS
      rw [Nat.mul_comm S N] at this; omega
    have hfr := hdr_storeBytes m (S * sec) (d.take S) h4
    have := ih f (storeBytes m (S * sec) (d.take S)) (sec + 1) (d.drop S) (by omega) (by omega)
      (by rw [List.length_drop, Nat.succ_mul] at *; omega)
      (hfr.1.trans h1) (hfr.2.trans h2) (fun _ => by rw [Nat.mul_succ]; omega)
    simp only [mkfile_loop, h2, fread, sector_ptr, h1, HDR]
    rw [if_pos hsec]
    simp only [Nat.sub_self, Nat.zero_add, Nat.mod_eq_of_lt hmul,
      Nat.min_eq_left hlen']
    simp only [Nat.not_lt.mpr hlen', decide_False, Bool.or_false, Bool.false_eq_true, if_false]
    rw [Nat.mod_eq_of_lt (by omega : sec + 1 < 4294967296), this]
    have e1 : (k + 1) * S = S + k * S := by rw [Nat.succ_mul]; omega
    rw [e1, List.take_add, Nat.mul_succ]
    have := storeBytes_append m (S * sec) (d.take S) ((d.drop S).take (k * S))
    rw [List.length_take, Nat.min_eq_left hlen'] at this
    rw [this]

theorem ent_get_set (m : Mem) (e a b c d : Nat) :
    ent_start (ent_set m e a b c d) e = a % 65536 ∧
    ent_sectors (ent_set m e a b c d) e = b % 65536 ∧
    ent_bytes_rem (ent_set m e a b c d) e = c % 65536 ∧
    ent_flags (ent_set m e a b c d) e = d % 65536 := by
  simp [ent_start, ent_sectors, ent_bytes_rem, ent_flags, ent_set, load16, store16]
  omega

theorem store16_other (m : Mem) (a v x : Nat) (h : x < a ∨ a + 2 ≤ x) :
    store16 m a v x = m x := by
  have h0 : x ≠ a := by omega
  have h1 : x ≠ a + 1 := by omega
  simp only [store16, h0, h1, if_false]

theorem ent_set_other (m : Mem) (e a b c d x : Nat) (h : x < e + 24 ∨ e + 32 ≤ x) :
    ent_set m e a b c d x = m x := by
  unfold ent_set
  rw [store16_other _ _ _ x (by omega), store16_other _ _ _ x (by omega),
    store16_other _ _ _ x (by omega), store16_other _ _ _ x (by omega)]

theorem hdr_n_sectors_lt (m : Mem) : hdr_n_sectors m < 4294967296 := by
  simp only [hdr_n_sectors, load32]; omega

theorem hdr_sector_size_lt (m : Mem) : hdr_sector_size m < 65536 := by
  simp only [hdr_sector_size, load16]; omega

/-- The file packer on a file that fits. -/
theorem bfs16_mkfile_fits (m : Mem) (S N s e : Nat) (data : List Nat)
    (h1 : hdr_sector_size m = S) (h2 : hdr_n_sectors m = N) (hS : 0 < S)
    (hN : N * S ≤ 4294967296) (hfit : s + data.length / S < N) (hhdr : 512 ≤ S * s) :
    bfs16_mkfile m s (openFile data) e =
      some (ent_set (storeBytes m (S * s) data) e s (data.length / S + 1) (data.length % S) 0,
        toS32 (data.length / S + 1)) := by
  have hN' : N < 4294967296 := h2 ▸ hdr_n_sectors_lt m
  have hq : (s + data.length / S + 1 + 4294967296 - s) % 4294967296 = data.length / S + 1 := by
    generalize data.length / S = q at hfit
    rw [show s + q + 1 + 4294967296 - s = q + 1 + 4294967296 by omega,
      Nat.add_mod_right, Nat.mod_eq_of_lt (by omega)]
  have := mkfile_loop_ok S N s e hS hN (data.length / S) 4294967297 m s data rfl (by omega)
    h1 h2 hfit hhdr
  rw [hq] at this
  simp only [bfs16_mkfile, eff_sector_size, h1, if_neg (Nat.pos_iff_ne_zero.mp hS), openFile]
  exact this

/-- The file packer on a file that does not fit. -/
theorem bfs16_mkfile_nospace (m : Mem) (S N s e : Nat) (data : List Nat)
    (h1 : hdr_sector_size m = S) (h2 : hdr_n_sectors m = N) (hS : 0 < S)
    (hN : N * S ≤ 4294967296) (hbig : (N - s) * S ≤ data.length)
    (hhdr : s < N → 512 ≤ S * s) :
    bfs16_mkfile m s (openFile data) e =
      some (storeBytes m (S * s) (data.take ((N - s) * S)), ERR_NOSPACE) := by
  have hN' : N < 4294967296 := h2 ▸ hdr_n_sectors_lt m
  simp only [bfs16_mkfile, eff_sector_size, h1, if_neg (Nat.pos_iff_ne_zero.mp hS), openFile]
  exact mkfile_loop_full S N s e hS hN (N - s) 4294967297 m s data rfl (by omega) hbig h1 h2
    hhdr



theorem ceil_div_of_mod_ne (L S : Nat) (hS : 0 < S) (h : L % S ≠ 0) :
    (L + S - 1) / S = L / S + 1 := by
  have h1 := Nat.div_add_mod L S
  have h2 := Nat.mod_lt L hS
  have e : L + S - 1 = (L % S - 1) + S * (L / S + 1) := by
    rw [Nat.mul_add, Nat.mul_one]; omega
  rw [e, Nat.add_mul_div_left _ _ hS, Nat.div_eq_of_lt (by omega)]
  omega

theorem toS32_small (n : Nat) (h : n < 2147483648) : toS32 n = (n : Int) := by
  unfold toS32
  rw [Nat.mod_eq_of_lt (by omega), if_pos h]

theorem mul_le_u32 (N S : Nat) (hN : N ≤ 65535) (hS : S < 65536) : N * S ≤ 4294967296 := by
  calc N * S ≤ 65535 * 65536 := Nat.mul_le_mul hN (Nat.le_of_lt hS)
    _ ≤ 4294967296 := by norm_num

theorem storeBytes_get (m : Mem) (a i : Nat) (bs : List Nat) (h : i < bs.length) :
    bs[i]? = some (storeBytes m a bs (a + i)) := by
  simp only [storeBytes]
  rw [if_pos (by omega), Nat.add_sub_cancel_left, List.getD_eq_getElem?_getD,
    List.getElem?_eq_getElem h]
  rfl



/-! ## Claims about the file packer -/

/-- C1, as stated, fails: with 512-byte sectors and `start_sector = 0` the first
sector written is the one that holds the header, so a 600-byte file of
zeros overwrites `n_sectors` and the call returns `ERR_NOSPACE` instead of 2,
although 2 sectors were free. -/
theorem bfs16_mkfile_sector0_clobbers_header :
    hdr_sector_size floppy10 = 512 ∧ hdr_n_sectors floppy10 = 10 ∧
    (List.replicate 600 0).length % 512 ≠ 0 ∧
    0 + ((List.replicate 600 0).length + 512 - 1) / 512 ≤ 10 ∧
    (bfs16_mkfile floppy10 0 (openFile (List.replicate 600 0)) 2000).map Prod.snd
      = some ERR_NOSPACE := by
  refine ⟨by decide, by decide, by rw [List.length_replicate]; decide,
    by rw [List.length_replicate]; decide, ?_⟩
  set_option maxRecDepth 100000 in rfl

/-- C1, amended: when the sector size is non-zero, the file's first sector
starts past the header (`sector_size * start_sector >= 512`) and the output
entry's fields lie outside the file's bytes, a file of length `L` with
`L mod S != 0` that fits (`start_sector + ceil(L/S) <= n_sectors <= 65535`)
makes `bfs16_mkfile` return `ceil(L/S)`, record
`(start_sector, ceil(L/S), L mod S, 0)` and leave the file's bytes, in order,
at `sector_ptr(header, start_sector)`. -/
theorem bfs16_mkfile_partial_last_sector (m : Mem) (S N s e : Nat) (data : List Nat)
    (h1 : hdr_sector_size m = S) (h2 : hdr_n_sectors m = N) (hN : N ≤ 65535)
    (hS : S ≠ 0) (hL : data.length % S ≠ 0)
    (hfit : s + (data.length + S - 1) / S ≤ N)
    (hhdr : 512 ≤ S * s)
    (hent : e + 32 ≤ S * s ∨ S * s + data.length ≤ e + 24) :
    ∃ m', bfs16_mkfile m s (openFile data) e
        = some (m', (((data.length + S - 1) / S : Nat) : Int)) ∧
      ent_start m' e = s ∧
      ent_sectors m' e = (data.length + S - 1) / S ∧
      ent_bytes_rem m' e = data.length % S ∧
      ent_flags m' e = 0 ∧
      ∀ i, i < data.length → data[i]? = some (m' (sector_ptr m s + i)) := by
  have hS' : 0 < S := Nat.pos_of_ne_zero hS
  have hS16 : S < 65536 := h1 ▸ hdr_sector_size_lt m
  have hc := ceil_div_of_mod_ne data.length S hS' hL
  rw [hc] at hfit ⊢
  have hmod := Nat.mod_lt data.length hS'
  generalize hq : data.length / S = q at *
  have hmul : S * s < 4294967296 := by
    have : S * s ≤ 65535 * 65535 := Nat.mul_le_mul (by omega) (by omega)
    omega
  have hfits := bfs16_mkfile_fits m S N s e data h1 h2 hS' (mul_le_u32 N S hN hS16)
    (by rw [hq]; omega) hhdr
  rw [hq, toS32_small _ (by omega)] at hfits
  refine ⟨_, hfits, ?_⟩
  obtain ⟨g1, g2, g3, g4⟩ :=
    ent_get_set (storeBytes m (S * s) data) e s (q + 1) (data.length % S) 0
  refine ⟨?_, ?_, ?_, ?_, ?_⟩
  · rw [g1, Nat.mod_eq_of_lt (by omega)]
  · rw [g2, Nat.mod_eq_of_lt (by omega)]
  · rw [g3, Nat.mod_eq_of_lt (by omega)]
  · rw [g4]
  · intro i hi
    have hp : sector_ptr m s = S * s := by
      simp only [sector_ptr, h1, HDR, Nat.sub_self, Nat.zero_add, Nat.mod_eq_of_lt hmul]
    rw [hp, ent_set_other _ _ _ _ _ _ _ (by omega)]
    exact storeBytes_get m (S * s) i data hi

/-- Witness for C1: 600 bytes in 512-byte sectors give 2 sectors and 88 bytes. -/
theorem bfs16_mkfile_partial_last_sector_witness :
    ∃ m', bfs16_mkfile floppy10 1 (openFile (List.replicate 600 7)) 2000 = some (m', 2) ∧
      ent_start m' 2000 = 1 ∧ ent_sectors m' 2000 = 2 ∧ ent_bytes_rem m' 2000 = 88 ∧
      ent_flags m' 2000 = 0 := by
  obtain ⟨m', h, a, b, c, d, _⟩ :=
    bfs16_mkfile_partial_last_sector floppy10 512 10 1 2000 (List.replicate 600 7)
      (by decide) (by decide) (by decide) (by decide)
      (by rw [List.length_replicate]; decide) (by rw [List.length_replicate]; decide)
      (by decide) (by rw [List.length_replicate]; decide)
  simp only [List.length_replicate] at h a b c d
  exact ⟨m', h, a, b, c, d⟩



/-- C2, evaluated on the code: a 512-byte file in 512-byte sectors (an exact
multiple) is packed as 2 sectors with `bytes_rem = 0` and the call returns 2,
one more than `length / sector_size`: the full read does not raise the
end-of-file indicator, so the loop reads once more and counts the empty read
as a sector. -/
theorem bfs16_mkfile_exact_multiple_takes_extra_sector :
    (List.replicate 512 7).length % 512 = 0 ∧
    (bfs16_mkfile floppy10 1 (openFile (List.replicate 512 7)) 2000).map
        (fun r => (r.2, ent_sectors r.1 2000, ent_bytes_rem r.1 2000))
      = some (2, 2, 0) := by
  refine ⟨by rw [List.length_replicate], ?_⟩
  set_option maxRecDepth 100000 in rfl

/-- C3, as stated, fails: an empty file is recorded as 1 sector with
`bytes_rem = 0`, from which the spec's rule reconstructs 512 bytes, not 0. -/
theorem bfs16_mkfile_empty_breaks_round_trip :
    (bfs16_mkfile floppy10 1 (openFile []) 2000).map
        (fun r => (r.2, spec_length (hdr_sector_size floppy10) (ent_sectors r.1 2000)
          (ent_bytes_rem r.1 2000)))
      = some (1, 512) ∧ ([] : List Nat).length ≠ 512 := by
  refine ⟨?_, by decide⟩
  set_option maxRecDepth 100000 in rfl

/-- C3, amended: for a file of length `L` that is empty or has `L mod S != 0`,
packed successfully past the header in an image of at most 65535 sectors
with non-zero sector size, `L == (sectors - 1) * S + bytes_rem`; when the file
is not empty this is what the spec's rule gives. -/
theorem bfs16_mkfile_length_round_trip (m m' : Mem) (S N s e : Nat) (data : List Nat) (r : Int)
    (h1 : hdr_sector_size m = S) (h2 : hdr_n_sectors m = N) (hN : N ≤ 65535)
    (hS : S ≠ 0) (hhdr : 512 ≤ S * s)
    (hL : data.length = 0 ∨ data.length % S ≠ 0)
    (hrun : bfs16_mkfile m s (openFile data) e = some (m', r)) (hr : 0 ≤ r) :
    data.length = (ent_sectors m' e - 1) * S + ent_bytes_rem m' e ∧
    (data.length ≠ 0 →
      data.length = spec_length S (ent_sectors m' e) (ent_bytes_rem m' e)) := by
  have hS' : 0 < S := Nat.pos_of_ne_zero hS
  have hS16 : S < 65536 := h1 ▸ hdr_sector_size_lt m
  have hNS := mul_le_u32 N S hN hS16
  have hmod := Nat.mod_lt data.length hS'
  have hdm := Nat.div_add_mod data.length S
  by_cases hfit : s + data.length / S < N
  · have hfits := bfs16_mkfile_fits m S N s e data h1 h2 hS' hNS hfit hhdr
    rw [hfits] at hrun
    injection hrun with hrun
    injection hrun with hm hr'
    subst hm
    obtain ⟨_, g2, g3, _⟩ :=
      ent_get_set (storeBytes m (S * s) data) e s (data.length / S + 1) (data.length % S) 0
    rw [g2, g3]
    generalize data.length / S = q at *
    rw [Nat.mod_eq_of_lt (by omega), Nat.mod_eq_of_lt (by omega), Nat.add_sub_cancel,
      Nat.mul_comm q S]
    refine ⟨by omega, fun h0 => ?_⟩
    have hne : data.length % S ≠ 0 := hL.resolve_left h0
    rw [spec_length, if_neg (fun h => hne h.1), Nat.add_sub_cancel, Nat.mul_comm q S]
    omega
  · exfalso
    have hbig : (N - s) * S ≤ data.length := by
      have : N - s ≤ data.length / S := by
        generalize data.length / S = q at hfit ⊢; omega
      calc (N - s) * S ≤ (data.length / S) * S := Nat.mul_le_mul_right S this
        _ ≤ data.length := Nat.div_mul_le_self _ _
    have hns := bfs16_mkfile_nospace m S N s e data h1 h2 hS' hNS hbig (fun _ => hhdr)
    rw [hns] at hrun
    injection hrun with hrun
    injection hrun with _ hr'
    rw [← hr'] at hr
    simp [ERR_NOSPACE] at hr

/-- Witness for C3: the 600-byte file, packed at sector 1. -/
theorem bfs16_mkfile_length_round_trip_witness :
    bfs16_mkfile floppy10 1 (openFile (List.replicate 600 7)) 2000
      = some (ent_set (storeBytes floppy10 (512 * 1) (List.replicate 600 7)) 2000 1 2 88 0, 2) ∧
    (List.replicate 600 7).length
      = (ent_sectors (ent_set (storeBytes floppy10 (512 * 1) (List.replicate 600 7)) 2000 1 2 88 0) 2000 - 1) * 512
        + ent_bytes_rem (ent_set (storeBytes floppy10 (512 * 1) (List.replicate 600 7)) 2000 1 2 88 0) 2000 := by
  have hrun : bfs16_mkfile floppy10 1 (openFile (List.replicate 600 7)) 2000
      = some (ent_set (storeBytes floppy10 (512 * 1) (List.replicate 600 7)) 2000 1 2 88 0, 2) := by
    have := bfs16_mkfile_fits floppy10 512 10 1 2000 (List.replicate 600 7)
      (by decide) (by decide) (by decide) (by decide)
      (by rw [List.length_replicate]; decide) (by decide)
    rw [List.length_replicate] at this
    exact this
  exact ⟨hrun, (bfs16_mkfile_length_round_trip floppy10 _ 512 10 1 2000 (List.replicate 600 7) 2
    (by decide) (by decide) (by decide) (by decide) (by decide)
    (Or.inr (by rw [List.length_replicate]; decide)) hrun (by decide)).1⟩


/-- C4, as stated, fails: in an image of 65537 sectors an empty file packed at
`start_sector = 65536` is recorded with `start = 0`, the 16-bit field
holding only the low 16 bits of the sector number. -/
theorem bfs16_mkfile_empty_start_truncated :
    hdr_n_sectors bigImage = 65537 ∧
    (bfs16_mkfile bigImage 65536 (openFile []) 2000).map
        (fun r => (r.2, ent_start r.1 2000)) = some (1, 0) := by
  constructor
  · decide
  · rfl

theorem mkfile_loop_empty (S s e fuel : Nat) (m : Mem) (hS : 0 < S)
    (hs : s < hdr_n_sectors m) :
    mkfile_loop S s e (fuel + 1) m s ⟨[], none, false, false⟩
      = some (ent_set (storeBytes m (sector_ptr m s) []) e s 1 0 0, 1) := by
  have hN := hdr_n_sectors_lt m
  have hq : (s + 1) % 4294967296 = s + 1 := Nat.mod_eq_of_lt (by omega)
  have hq2 : (s + 1 + 4294967296 - s) % 4294967296 = 1 := by
    rw [show s + 1 + 4294967296 - s = 1 + 4294967296 by omega, Nat.add_mod_right]
  simp only [mkfile_loop, fread, if_pos hs, List.length_nil, Nat.min_zero, List.take_nil,
    List.drop_nil, hS, decide_True, Bool.or_true, if_true, hq, hq2,
    if_neg (Nat.ne_of_lt hS), Nat.zero_min]
  rfl

/-- C4, amended: for every header and every `start_sector < n_sectors`, packing
an empty file returns 1 and records `sectors = 1`, `bytes_rem = 0`,
`flags = 0` and `start = start_sector mod 65536`, which is `start_sector`
whenever `start_sector <= 65535`. -/
theorem bfs16_mkfile_empty_file (m : Mem) (s e : Nat) (hs : s < hdr_n_sectors m) :
    ∃ m', bfs16_mkfile m s (openFile []) e = some (m', 1) ∧
      ent_sectors m' e = 1 ∧ ent_bytes_rem m' e = 0 ∧ ent_flags m' e = 0 ∧
      ent_start m' e = s % 65536 ∧ (s ≤ 65535 → ent_start m' e = s) := by
  have hN := hdr_n_sectors_lt m
  have hE : 0 < eff_sector_size m := by
    unfold eff_sector_size; split <;> omega
  have hrun : bfs16_mkfile m s (openFile []) e
      = some (ent_set (storeBytes m (sector_ptr m s) []) e s 1 0 0, 1) :=
    mkfile_loop_empty (eff_sector_size m) s e 4294967296 m hE hs
  refine ⟨_, hrun, ?_⟩
  obtain ⟨g1, g2, g3, g4⟩ := ent_get_set (storeBytes m (sector_ptr m s) []) e s 1 0 0
  exact ⟨g2, g3, g4, g1, fun h => by rw [g1, Nat.mod_eq_of_lt (by omega)]⟩

/-- Witness for C4: an empty file at sector 3 of a ten-sector image. -/
theorem bfs16_mkfile_empty_file_witness :
    ∃ m', bfs16_mkfile floppy10 3 (openFile []) 2000 = some (m', 1) ∧
      ent_sectors m' 2000 = 1 ∧ ent_bytes_rem m' 2000 = 0 ∧ ent_flags m' 2000 = 0 ∧
      ent_start m' 2000 = 3 := by
  obtain ⟨m', h, a, b, c, _, d⟩ := bfs16_mkfile_empty_file floppy10 3 2000 (by decide)
  exact ⟨m', h, a, b, c, d (by decide)⟩


/-- C9, as stated, fails: in a one-sector image a 513-byte file packed at
`start_sector = 0` overwrites the header with its own bytes 504..509
(`n_sectors = 2`, `sector_size = 0`), so the loop goes on, reads the last
byte into offset 0, and the call returns 2 instead of `ERR_NOSPACE`; the
entry's `sectors` field changes from 0 to 2. -/
theorem bfs16_mkfile_oversized_file_accepted :
    hdr_sector_size oneSector = 512 ∧ hdr_n_sectors oneSector = 1 ∧
    (1 - 0) * 512 < headerShapedFile.length ∧
    (bfs16_mkfile oneSector 0 (openFile headerShapedFile) 64).map
        (fun r => (r.2, ent_sectors r.1 64)) = some (2, 2) ∧
    ent_sectors oneSector 64 = 0 := by
  refine ⟨by decide, by decide, ?_, ?_, by decide⟩
  · set_option maxRecDepth 100000 in decide
  · set_option maxRecDepth 100000 in rfl

/-- C9, amended: when the sector size is non-zero, the image is at most 2^32
bytes, the sectors from `start_sector` on lie past the header and the output
entry's fields lie outside them, a file longer than
`(n_sectors - start_sector) * sector_size` makes `bfs16_mkfile` return
`ERR_NOSPACE` and leaves the entry's four fields as they were. -/
theorem bfs16_mkfile_disk_full (m : Mem) (S N s e : Nat) (data : List Nat)
    (h1 : hdr_sector_size m = S) (h2 : hdr_n_sectors m = N) (hS : S ≠ 0)
    (hNS : N * S ≤ 4294967296)
    (hbig : (N - s) * S < data.length)
    (hhdr : s < N → 512 ≤ S * s)
    (hent : s < N → e + 32 ≤ S * s ∨ S * N ≤ e + 24) :
    ∃ m', bfs16_mkfile m s (openFile data) e = some (m', ERR_NOSPACE) ∧
      ent_start m' e = ent_start m e ∧ ent_sectors m' e = ent_sectors m e ∧
      ent_bytes_rem m' e = ent_bytes_rem m e ∧ ent_flags m' e = ent_flags m e := by
  have hS' : 0 < S := Nat.pos_of_ne_zero hS
  refine ⟨_, bfs16_mkfile_nospace m S N s e data h1 h2 hS' hNS (Nat.le_of_lt hbig) hhdr, ?_⟩
  by_cases hs : s < N
  · have hlen : (data.take ((N - s) * S)).length = (N - s) * S := by
      rw [List.length_take]; omega
    have hend : S * s + (N - s) * S = S * N := by
      rw [Nat.mul_comm (N - s) S, ← Nat.mul_add]; congr 1; omega
    have hd := hent hs
    simp only [ent_start, ent_sectors, ent_bytes_rem, ent_flags]
    refine ⟨?_, ?_, ?_, ?_⟩ <;>
      exact load16_storeBytes m _ _ _ (by rw [hlen, hend]; omega)
  · have h0 : N - s = 0 := by omega
    rw [h0, Nat.zero_mul, List.take_zero, storeBytes_nil]
    exact ⟨rfl, rfl, rfl, rfl⟩

/-- Witness for C9: 600 bytes offered to the last sector of a ten-sector image. -/
theorem bfs16_mkfile_disk_full_witness :
    ∃ m', bfs16_mkfile floppy10 9 (openFile (List.replicate 600 7)) 1000
        = some (m', ERR_NOSPACE) ∧
      ent_start m' 1000 = 0 ∧ ent_sectors m' 1000 = 0 ∧
      ent_bytes_rem m' 1000 = 0 ∧ ent_flags m' 1000 = 0 := by
  obtain ⟨m', h, a, b, c, d⟩ :=
    bfs16_mkfile_disk_full floppy10 512 10 9 1000 (List.replicate 600 7)
      (by decide) (by decide) (by decide) (by decide)
      (by rw [List.length_replicate]; decide) (by decide) (by decide)
  exact ⟨m', h, a, b, c, d⟩

/-! ## The file packer on an arbitrary stream -/

theorem Frame_refl (lo : Nat) (e : Option Nat) (m : Mem) : Frame lo e m m :=
  fun _ _ _ => rfl

theorem Frame_trans {lo : Nat} {e : Option Nat} {m1 m2 m3 : Mem}
    (h12 : Frame lo e m1 m2) (h23 : Frame lo e m2 m3) : Frame lo e m1 m3 :=
  fun x hx he => (h23 x hx he).trans (h12 x hx he)

theorem Frame_mono {lo lo' : Nat} {e : Option Nat} {m m' : Mem}
    (h : Frame lo e m m') (hle : lo' ≤ lo) : Frame lo' e m m' :=
  fun x hx he => h x (by omega) he

theorem Frame_storeBytes (lo a : Nat) (e : Option Nat) (m : Mem) (bs : List Nat)
    (h : lo ≤ a) : Frame lo e m (storeBytes m a bs) := by
  intro x hx _
  simp only [Mkbfs.storeBytes]
  rw [if_neg (by omega)]

theorem Frame_ent_set (lo e a b c d : Nat) (m : Mem) :
    Frame lo (some e) m (ent_set m e a b c d) := by
  intro x _ he
  exact ent_set_other m e a b c d x (he e rfl)

theorem load16_congr (m m' : Mem) (a : Nat) (h0 : m' a = m a) (h1 : m' (a + 1) = m (a + 1)) :
    load16 m' a = load16 m a := by
  simp only [load16, h0, h1]

theorem load32_congr (m m' : Mem) (a : Nat) (h0 : m' a = m a) (h1 : m' (a + 1) = m (a + 1))
    (h2 : m' (a + 2) = m (a + 2)) (h3 : m' (a + 3) = m (a + 3)) :
    load32 m' a = load32 m a := by
  simp only [load32, h0, h1, h2, h3]

/-- A frame that starts past the header and spares an entry past the header
leaves the header's `sector_size` and `n_sectors` alone. -/
theorem Frame_hdr {lo : Nat} {e : Option Nat} {m m' : Mem} (h : Frame lo e m m')
    (hlo : 512 ≤ lo) (he : ∀ a, e = some a → 512 ≤ a + 24) :
    hdr_sector_size m' = hdr_sector_size m ∧ hdr_n_sectors m' = hdr_n_sectors m := by
  have key : ∀ x, x < 512 → m' x = m x := fun x hx =>
    h x (by omega) (fun a ha => Or.inl (by have := he a ha; omega))
  constructor
  · exact load16_congr m m' _ (key _ (by simp only [HDR]; omega)) (key _ (by simp only [HDR]; omega))
  · exact load32_congr m m' _ (key _ (by simp only [HDR]; omega)) (key _ (by simp only [HDR]; omega))
      (key _ (by simp only [HDR]; omega)) (key _ (by simp only [HDR]; omega))

theorem fread_mem (m : Mem) (buf n : Nat) (src : FILE) :
    ∃ k, (fread m buf n src).1 = storeBytes m buf (src.data.take k) := by
  unfold fread
  split
  · split
    · exact ⟨_, rfl⟩
    · exact ⟨_, rfl⟩
  · exact ⟨_, rfl⟩

theorem mkfile_loop_spec (S N s e : Nat) (hS : 0 < S) (hN : N ≤ 65535) (hS16 : S < 65536)
    (hhdr : 512 ≤ S * s) :
    ∀ (fuel : Nat) (m : Mem) (sec : Nat) (src : FILE) (m' : Mem) (r : Int),
      hdr_sector_size m = S → hdr_n_sectors m = N → s ≤ sec →
      mkfile_loop S s e fuel m sec src = some (m', r) →
      Frame (S * s) (some e) m m' ∧
      (0 ≤ r → (∃ k, sec ≤ k ∧ k < N ∧ r = ((k + 1 - s : Nat) : Int) ∧
          ent_sectors m' e = k + 1 - s) ∧
        ent_start m' e = s ∧ ent_flags m' e = 0) := by
  intro fuel
  induction fuel with
  | zero => intro m sec src m' r _ _ _ h; simp [mkfile_loop] at h
  | succ f ih =>
    intro m sec src m' r h1 h2 hsec hrun
    simp only [mkfile_loop, h2] at hrun
    by_cases hlt : sec < N
    · rw [if_pos hlt] at hrun
      have hle : S * s ≤ S * sec := Nat.mul_le_mul_left S hsec
      have hmul : S * sec < 4294967296 := by
        have : S * sec ≤ 65535 * 65535 := Nat.mul_le_mul (by omega) (by omega)
        omega
      have hptr : sector_ptr m sec = S * sec := by
        simp only [sector_ptr, h1, HDR, Nat.sub_self, Nat.zero_add, Nat.mod_eq_of_lt hmul]
      obtain ⟨k0, hk0⟩ := fread_mem m (sector_ptr m sec) S src
      generalize fread m (sector_ptr m sec) S src = res at hrun hk0
      obtain ⟨m1, br, src1⟩ := res
      simp only at hk0
      simp only at hrun
      have hfr1 : Frame (S * s) (some e) m m1 := by
        rw [hk0, hptr]; exact Frame_storeBytes _ _ _ _ _ hle
      have hq : (sec + 1) % 4294967296 = sec + 1 := Nat.mod_eq_of_lt (by omega)
      by_cases heof : src1.eof = true
      · rw [if_pos heof, hq] at hrun
        have hq2 : (sec + 1 + 4294967296 - s) % 4294967296 = sec + 1 - s := by
          rw [show sec + 1 + 4294967296 - s = (sec + 1 - s) + 4294967296 by omega,
            Nat.add_mod_right, Nat.mod_eq_of_lt (by omega)]
        rw [hq2] at hrun
        injection hrun with hrun
        injection hrun with hm hr
        subst hm
        refine ⟨Frame_trans hfr1 (Frame_ent_set _ _ _ _ _ _ _), fun _ => ?_⟩
        obtain ⟨g1, g2, _, g4⟩ := ent_get_set m1 e s (sec + 1 - s)
          (if br = S then 0 else br) 0
        refine ⟨⟨sec, Nat.le_refl _, hlt, ?_, ?_⟩, ?_, ?_⟩
        · rw [← hr, toS32_small _ (by omega)]
        · rw [g2, Nat.mod_eq_of_lt (by omega)]
        · rw [g1, Nat.mod_eq_of_lt (by omega)]
        · rw [g4]
      · rw [if_neg heof] at hrun
        by_cases herr : src1.err = true
        · rw [if_pos herr] at hrun
          injection hrun with hrun
          injection hrun with hm hr
          subst hm
          refine ⟨hfr1, fun h0 => ?_⟩
          rw [← hr] at h0
          simp [ ERR_FILEIO] at h0
        · rw [if_neg herr, hq] at hrun
          have hh := hdr_storeBytes m (S * sec) (src.data.take k0) (by omega)
          rw [← hptr, ← hk0] at hh
          obtain ⟨hf, hrest⟩ := ih m1 (sec + 1) src1 m' r (hh.1.trans h1) (hh.2.trans h2)
            (by omega) hrun
          refine ⟨Frame_trans hfr1 hf, fun h0 => ?_⟩
          obtain ⟨⟨k, hk1, hk2, hk3, hk4⟩, ha, hb⟩ := hrest h0
          exact ⟨⟨k, by omega, hk2, hk3, hk4⟩, ha, hb⟩
    · rw [if_neg hlt] at hrun
      injection hrun with hrun
      injection hrun with hm hr
      subst hm
      refine ⟨Frame_refl _ _ _, fun h0 => ?_⟩
      rw [← hr] at h0
      simp [ERR_NOSPACE] at h0

/-- The file packer on any stream, in an image of at most 65535 sectors, from a
sector past the header: it stores only at or above its first sector and in
the four fields of its entry; when it succeeds it has used at least one
sector, stayed inside the image and recorded its placement. -/
theorem bfs16_mkfile_spec (m m' : Mem) (S N s e : Nat) (src : FILE) (r : Int)
    (h1 : hdr_sector_size m = S) (h2 : hdr_n_sectors m = N) (hS : 0 < S) (hN : N ≤ 65535)
    (hhdr : 512 ≤ S * s)
    (hrun : bfs16_mkfile m s src e = some (m', r)) :
    Frame (S * s) (some e) m m' ∧
    (0 ≤ r → 1 ≤ r ∧ (s : Int) + r ≤ N ∧ ent_start m' e = s ∧
      (ent_sectors m' e : Int) = r ∧ ent_flags m' e = 0) := by
  have hS16 : S < 65536 := h1 ▸ hdr_sector_size_lt m
  simp only [bfs16_mkfile, eff_sector_size, h1, if_neg (Nat.pos_iff_ne_zero.mp hS)] at hrun
  obtain ⟨hf, hrest⟩ := mkfile_loop_spec S N s e hS hN hS16 hhdr _ m s src m' r h1 h2
    (Nat.le_refl _) hrun
  refine ⟨hf, fun h0 => ?_⟩
  obtain ⟨⟨k, hk1, hk2, hk3, hk4⟩, ha, hb⟩ := hrest h0
  refine ⟨by omega, by omega, ha, ?_, hb⟩
  rw [hk4, hk3]

theorem listed_counts (k n : Nat) :
    (n + 1) / k = n / k + (if (n + 1) % k = 0 then 1 else 0) := by
  rw [Nat.succ_div]
  congr 1
  by_cases h : (n + 1) % k = 0
  · rw [if_pos h, if_pos (Nat.dvd_of_mod_eq_zero h)]
  · rw [if_neg h, if_neg (fun hd => h (Nat.mod_eq_zero_of_dvd hd))]

/-- The listing pass. -/
theorem mkdir_list_spec (size S N k : Nat) (hk : S = 32 * k) (hk0 : 0 < k) (hN : N ≤ 65535) :
    ∀ (names : List (List Nat)) (m : Mem) (entry sector n : Nat) (m1 : Mem) (res : Listed),
      hdr_n_sectors m = N → 512 ≤ entry → sector ≤ N →
      mkdir_list size S names m entry sector n = .ok (m1, res) →
      (∀ x, x < entry → m1 x = m x) ∧
      (∀ sector' n', res = .done sector' n' →
        n' = n + (real_names names).length ∧
        sector' + n / k = sector + n' / k ∧ sector' ≤ N ∧
        (sector < sector' → sector' < N)) ∧
      (∀ code, res = .fail code → code < 0) := by
  intro names
  induction names with
  | nil =>
    intro m entry sector n m1 res _ _ hsec hrun
    simp only [mkdir_list] at hrun
    injection hrun with hrun
    injection hrun with hm hr
    subst hm; subst hr
    refine ⟨fun _ _ => rfl, ?_, ?_⟩
    · intro sector' n' h
      injection h with a b
      subst a; subst b
      simp [real_names, hsec]
    · intro code h; cases h
  | cons name rest ih =>
    intro m entry sector n m1 res h2 hent hsec hrun
    have hS : S / DIRENT_SIZE = k := by
      rw [hk, DIRENT_SIZE]; exact Nat.mul_div_cancel_left k (by norm_num)
    simp only [mkdir_list, hS] at hrun
    by_cases hdot : name = [46] ∨ name = [46, 46]
    · rw [if_pos hdot] at hrun
      have := ih m entry sector n m1 res h2 hent hsec hrun
      have hrn : real_names (name :: rest) = real_names rest := by
        simp only [real_names, List.filter_cons, hdot, not_true_eq_false, decide_False]
        rfl
      rw [hrn]
      exact this
    · rw [if_neg hdot] at hrun
      have hrn : (real_names (name :: rest)).length = (real_names rest).length + 1 := by
        simp only [real_names, List.filter_cons, hdot, not_false_eq_true, decide_True,
          if_true, List.length_cons]
      by_cases hlong : name.length > NAME_SIZE - 1
      · rw [if_pos hlong] at hrun
        injection hrun with hrun
        injection hrun with hm hr
        subst hm; subst hr
        refine ⟨fun _ _ => rfl, fun _ _ h => (by cases h), fun code h => ?_⟩
        injection h with h; subst h; simp [ERR_LONGNAME]
      · rw [if_neg hlong] at hrun
        by_cases hoob : size < entry + (name.length + 1)
        · rw [if_pos hoob] at hrun; cases hrun
        · rw [if_neg hoob, if_neg (Nat.pos_iff_ne_zero.mp hk0)] at hrun
          have hfr : ∀ x, x < entry → storeBytes m entry (name ++ [0]) x = m x := by
            intro x hx
            simp only [storeBytes]
            rw [if_neg (by omega)]
          have hh := hdr_storeBytes m entry (name ++ [0]) hent
          have hcnt := listed_counts k n
          by_cases hcross : (n + 1) % k = 0
          · rw [if_pos hcross] at hrun
            rw [if_pos hcross] at hcnt
            have hq : (sector + 1) % 4294967296 = sector + 1 := Nat.mod_eq_of_lt (by omega)
            rw [hq, hh.2, h2] at hrun
            by_cases hfull : sector + 1 ≥ N
            · rw [if_pos hfull] at hrun
              injection hrun with hrun
              injection hrun with hm hr
              subst hm; subst hr
              refine ⟨hfr, fun _ _ h => (by cases h), fun code h => ?_⟩
              injection h with h; subst h; simp [ERR_NOSPACE]
            · rw [if_neg hfull] at hrun
              obtain ⟨a, b, c⟩ := ih _ (entry + DIRENT_SIZE) (sector + 1) (n + 1) m1 res
                (hh.2.trans h2) (by simp only [DIRENT_SIZE]; omega) (by omega) hrun
              refine ⟨fun x hx => (a x (by omega)).trans (hfr x hx), ?_, c⟩
              intro sector' n' hres
              obtain ⟨b1, b2, b3, b4⟩ := b sector' n' hres
              refine ⟨by omega, by omega, b3, fun _ => ?_⟩
              by_cases hs : sector + 1 < sector'
              · exact b4 hs
              · have : sector' + (n + 1) / k = sector + 1 + n' / k := b2
                have hmono : (n + 1) / k ≤ n' / k := Nat.div_le_div_right (by omega)
                omega
          · rw [if_neg hcross] at hrun
            rw [if_neg hcross] at hcnt
            obtain ⟨a, b, c⟩ := ih _ (entry + DIRENT_SIZE) sector (n + 1) m1 res
              (hh.2.trans h2) (by simp only [DIRENT_SIZE]; omega) hsec hrun
            refine ⟨fun x hx => (a x (by omega)).trans (hfr x hx), ?_, c⟩
            intro sector' n' hres
            obtain ⟨b1, b2, b3, b4⟩ := b sector' n' hres
            exact ⟨by omega, by omega, b3, b4⟩

theorem ent_fields_congr (m m' : Mem) (e : Nat)
    (h : ∀ x, e + 24 ≤ x → x < e + 32 → m' x = m x) :
    ent_start m' e = ent_start m e ∧ ent_sectors m' e = ent_sectors m e ∧
    ent_bytes_rem m' e = ent_bytes_rem m e ∧ ent_flags m' e = ent_flags m e := by
  refine ⟨?_, ?_, ?_, ?_⟩ <;>
    exact load16_congr m m' _ (h _ (by omega) (by omega)) (h _ (by omega) (by omega))

theorem ent_copy_other (m : Mem) (dst src x : Nat) (h : x < dst + 24 ∨ dst + 32 ≤ x) :
    ent_copy m dst src x = m x := by
  unfold ent_copy
  rw [store16_other _ _ _ x (by omega), store16_other _ _ _ x (by omega),
    store16_other _ _ _ x (by omega), store16_other _ _ _ x (by omega)]

theorem load16_store16_same (m : Mem) (a v : Nat) :
    load16 (store16 m a v) a = v % 65536 := by
  simp [load16, store16]
  omega

theorem load16_store16_other (m : Mem) (a b v : Nat) (h : b + 2 ≤ a ∨ a + 2 ≤ b) :
    load16 (store16 m a v) b = load16 m b := by
  simp only [load16, store16]
  rw [if_neg (by omega), if_neg (by omega), if_neg (by omega), if_neg (by omega)]

theorem load16_lt (m : Mem) (a : Nat) : load16 m a < 65536 := by
  simp only [load16]; omega

theorem ent_copy_same (m : Mem) (dst src : Nat) (h : dst + 32 ≤ src + 24 ∨ src + 32 ≤ dst + 24) :
    SameFields (ent_copy m dst src) dst src ∧
    ent_start (ent_copy m dst src) dst = ent_start m src ∧
    ent_sectors (ent_copy m dst src) dst = ent_sectors m src ∧
    ent_bytes_rem (ent_copy m dst src) dst = ent_bytes_rem m src ∧
    ent_flags (ent_copy m dst src) dst = ent_flags m src := by
  have hsrc := ent_fields_congr m (ent_copy m dst src) src
    (fun x h1 h2 => ent_copy_other m dst src x (by omega))
  have key : ent_start (ent_copy m dst src) dst = ent_start m src ∧
      ent_sectors (ent_copy m dst src) dst = ent_sectors m src ∧
      ent_bytes_rem (ent_copy m dst src) dst = ent_bytes_rem m src ∧
      ent_flags (ent_copy m dst src) dst = ent_flags m src := by
    simp only [ent_copy, ent_start, ent_sectors, ent_bytes_rem, ent_flags]
    have o := fun (mm : Mem) (a b v : Nat) (hh : b + 2 ≤ a ∨ a + 2 ≤ b) =>
      load16_store16_other mm a b v hh
    have e1 : ∀ v, load16 (store16 m (dst + 24) v) (src + 26) = load16 m (src + 26) :=
      fun v => o _ _ _ _ (by omega)
    have e2 : ∀ v w, load16 (store16 (store16 m (dst + 24) v) (dst + 26) w) (src + 28)
        = load16 m (src + 28) :=
      fun v w => (o _ _ _ _ (by omega)).trans (o _ _ _ _ (by omega))
    have e3 : ∀ v w u, load16 (store16 (store16 (store16 m (dst + 24) v) (dst + 26) w)
        (dst + 28) u) (src + 30) = load16 m (src + 30) :=
      fun v w u => (o _ _ _ _ (by omega)).trans
        ((o _ _ _ _ (by omega)).trans (o _ _ _ _ (by omega)))
    rw [e1, e2, e3]
    refine ⟨?_, ?_, ?_, ?_⟩
    · rw [o _ _ _ _ (by omega), o _ _ _ _ (by omega), o _ _ _ _ (by omega),
        load16_store16_same, Nat.mod_eq_of_lt (load16_lt _ _)]
    · rw [o _ _ _ _ (by omega), o _ _ _ _ (by omega),
        load16_store16_same, Nat.mod_eq_of_lt (load16_lt _ _)]
    · rw [o _ _ _ _ (by omega), load16_store16_same, Nat.mod_eq_of_lt (load16_lt _ _)]
    · rw [load16_store16_same, Nat.mod_eq_of_lt (load16_lt _ _)]
  obtain ⟨k1, k2, k3, k4⟩ := key
  refine ⟨⟨?_, ?_, ?_, ?_⟩, k1, k2, k3, k4⟩
  · rw [k1, hsrc.1]
  · rw [k2, hsrc.2.1]
  · rw [k3, hsrc.2.2.1]
  · rw [k4, hsrc.2.2.2]

theorem SameFields_congr (m m' : Mem) (a b : Nat)
    (ha : ∀ x, a + 24 ≤ x → x < a + 32 → m' x = m x)
    (hb : ∀ x, b + 24 ≤ x → x < b + 32 → m' x = m x)
    (h : SameFields m a b) : SameFields m' a b := by
  obtain ⟨a1, a2, a3, a4⟩ := ent_fields_congr m m' a ha
  obtain ⟨b1, b2, b3, b4⟩ := ent_fields_congr m m' b hb
  obtain ⟨h1, h2, h3, h4⟩ := h
  exact ⟨by rw [a1, b1, h1], by rw [a2, b2, h2], by rw [a3, b3, h3], by rw [a4, b4, h4]⟩

theorem DirOK_congr (S : Nat) (m m' : Mem) (rec : Nat × Option Nat)
    (hd : ∀ x, S * rec.1 + 24 ≤ x → x < S * rec.1 + 32 → m' x = m x)
    (hp : ∀ a, rec.2 = some a → ∀ x, a + 24 ≤ x → x < a + 32 → m' x = m x)
    (h : DirOK S m rec) : DirOK S m' rec := by
  obtain ⟨h1, h2, h3⟩ := h
  obtain ⟨b1, _, _, b4⟩ := ent_fields_congr m m' (S * rec.1) hd
  exact ⟨by rw [b1, h1], by rw [b4, h2],
    fun a ha => SameFields_congr m m' a (S * rec.1) (hp a ha) hd (h3 a ha)⟩

theorem span_append (xs : List PackRec) (r : PackRec) :
    span (xs ++ [r]) = span xs + r.ret.toNat := by
  simp [span]

theorem Chained_append (r : PackRec) :
    ∀ (xs : List PackRec) (sec e : Nat), Chained sec e xs →
      r.start_sector = sec + span xs → r.entry = e + 32 * xs.length → 1 ≤ r.ret →
      Chained sec e (xs ++ [r]) := by
  intro xs
  induction xs with
  | nil =>
    intro sec e _ h1 h2 h3
    simp only [span, List.map_nil, List.sum_nil, Nat.add_zero, List.length_nil,
      Nat.mul_zero] at h1 h2
    exact ⟨h1, h2, h3, trivial⟩
  | cons x xs ih =>
    intro sec e hc h1 h2 h3
    obtain ⟨c1, c2, c3, c4⟩ := hc
    refine ⟨c1, c2, c3, ih _ _ c4 ?_ ?_ h3⟩
    · rw [h1]; simp only [span, List.map_cons, List.sum_cons]; omega
    · rw [h2]; simp only [List.length_cons]; omega

/-- One successful child call keeps the invariant of the second pass. -/
theorem GoodInv_step (S N s ls n i : Nat) (pe : Option Nat) (V : Prop)
    (real : List (List Nat)) (w : Walk) (m' : Mem)
    (ret : Int) (name : List Nat) (isd : Bool) (newdirs : List (Nat × Option Nat))
    (hname : V → real[i - 2]? = some name)
    (hpe : ∀ a, pe = some a → a + 32 ≤ S * s)
    (hfit : S * s + 32 * n ≤ S * (s + ls)) (hi : i < n) (hi2 : 2 ≤ i)
    (hN : N ≤ 65535)
    (hinv : GoodInv S N s ls pe V real i w)
    (hfr : Frame (S * w.sector) (some (S * s + 32 * i)) w.mem m')
    (hret : 1 ≤ ret) (hend : (w.sector : Int) + ret ≤ N)
    (hstart : ent_start m' (S * s + 32 * i) = w.sector)
    (hnew : ∀ rec ∈ newdirs, DirOK S m' rec ∧
      RecIn S (S * w.sector) (S * (w.sector + ret.toNat)) (some (S * s + 32 * i)) rec) :
    GoodInv S N s ls pe V real (i + 1)
      { mem := m'
        sector := (w.sector + ret.toNat) % 4294967296
        err := none
        kids := w.kids ++ [⟨name, isd, w.sector, S * s + 32 * i, ret⟩]
        dirs := w.dirs ++ newdirs } := by
  obtain ⟨g1, g2, g3, g0, g4, g5, g6, g7⟩ := hinv
  have hcur : S * (s + ls) ≤ S * w.sector := Nat.mul_le_mul_left S (by omega)
  have hq : (w.sector + ret.toNat) % 4294967296 = w.sector + ret.toNat :=
    Nat.mod_eq_of_lt (by omega)
  have hmono : S * w.sector ≤ S * (w.sector + ret.toNat) := Nat.mul_le_mul_left S (by omega)
  simp only [GoodInv, hq]
  refine ⟨?_, by omega, ?_, List.mem_append_left _ g0, ?_, ?_, ?_, ?_⟩
  rotate_right
  · intro hV
    rw [List.map_append, g7 hV, show i + 1 - 2 = (i - 2) + 1 by omega, List.take_succ,
      hname hV]
    rfl
  · rw [span_append]; simp only; omega
  · rw [List.length_append]; simp only [List.length_singleton]; omega
  · refine Chained_append _ _ _ _ g4 ?_ ?_ hret
    · simp only; omega
    · simp only; omega
  · intro r hr
    rcases List.mem_append.mp hr with h | h
    · obtain ⟨a, b, c⟩ := g5 r h
      refine ⟨?_, b, by omega⟩
      rw [← a]
      exact (ent_fields_congr w.mem m' r.entry (fun x h1 h2 =>
        hfr x (by omega) (fun a' ha' => by injection ha' with ha'; omega))).1
    · rw [List.mem_singleton] at h
      subst h
      exact ⟨hstart, by simp only; omega, by simp only; omega⟩
  · intro rec hr
    rcases List.mem_append.mp hr with h | h
    · obtain ⟨a, b1, b2⟩ := g6 rec h
      refine ⟨DirOK_congr S w.mem m' rec ?_ ?_ a, ?_, ?_⟩
      · intro x h1 h2
        refine hfr x ?_ (fun a' ha' => ?_)
        · rcases b1 with b | b
          · rw [b] at h1 h2; omega
          · omega
        · injection ha' with ha'
          rcases b1 with b | b
          · rw [b] at h1 h2; omega
          · omega
      · intro a' ha' x h1 h2
        have hcase := b2 a' ha'
        refine hfr x ?_ (fun a'' ha'' => ?_)
        · rcases hcase with c | c | c
          · have := hpe a' (c ▸ ha'); omega
          · omega
          · omega
        · injection ha'' with ha''
          rcases hcase with c | c | c
          · have := hpe a' (c ▸ ha'); omega
          · omega
          · omega
      · rcases b1 with b | b
        · exact Or.inl b
        · exact Or.inr ⟨b.1, by omega⟩
      · intro a' ha'
        rcases b2 a' ha' with c | c | c
        · exact Or.inl c
        · exact Or.inr (Or.inl ⟨c.1, by omega⟩)
        · exact Or.inr (Or.inr ⟨c.1, by omega⟩)
    · obtain ⟨a, b1, b2, b3⟩ := hnew rec h
      refine ⟨a, Or.inr ⟨by omega, b2⟩, ?_⟩
      intro a' ha'
      rcases b3 a' ha' with c | c
      · rw [ha'] at c
        injection c with c
        exact Or.inr (Or.inl ⟨by omega, by omega⟩)
      · exact Or.inr (Or.inr ⟨by omega, c.2⟩)

theorem FrameL_hdr {lb cb : Nat} {m m' : Mem} (h : FrameL lb cb m m') (hlb : 512 ≤ lb)
    (hcb : lb ≤ cb) :
    hdr_sector_size m' = hdr_sector_size m ∧ hdr_n_sectors m' = hdr_n_sectors m := by
  have key : ∀ x, x < 512 → m' x = m x := fun x hx => h x (by omega) (Or.inl (by omega))
  constructor
  · exact load16_congr m m' _ (key _ (by simp only [HDR]; omega)) (key _ (by simp only [HDR]; omega))
  · exact load32_congr m m' _ (key _ (by simp only [HDR]; omega)) (key _ (by simp only [HDR]; omega))
      (key _ (by simp only [HDR]; omega)) (key _ (by simp only [HDR]; omega))

/-- A child call of the second pass keeps what `FrameL` protects. -/
theorem FrameL_step {lb cb i cur : Nat} {m4 m m' : Mem} (h : FrameL lb cb m4 m)
    (hfr : Frame cur (some (lb + 32 * i)) m m') (hcur : cb ≤ cur) (hi : 2 ≤ i) :
    FrameL lb cb m4 m' := by
  intro x hx hc
  rw [← h x hx hc]
  refine hfr x (by omega) (fun a ha => ?_)
  injection ha with ha
  subst ha
  rcases hc with hc | hc
  · left; omega
  · by_contra hcon
    have h1 : lb + 32 * i + 24 ≤ x := by omega
    have h2 : x < lb + 32 * i + 32 := by omega
    have : (x - lb) % 32 = (x - lb - 32 * i) := by
      rw [show x - lb = (x - lb - 32 * i) + 32 * i by omega, Nat.add_mul_mod_self_left,
        Nat.mod_eq_of_lt (by omega)]
      omega
    omega

theorem listing_sectors_pos (k c : Nat) (hk : 0 < k) : 1 ≤ listing_sectors k c := by
  unfold listing_sectors
  exact (Nat.le_div_iff_mul_le hk).mpr (by omega)

/-- The second pass of `bfs16_mkdir`, for a directory whose listing of `n`
entries fits in its `ls` sectors: it keeps slots 0 and 1 and the names of the
listing, and, while no child fails, the invariant `GoodInv`. -/
theorem mkdir_children_spec (S N size k : Nat) (hk3 : 3 ≤ k) (hN : N ≤ 65535)
    (hS0 : 0 < S)
    (host : Host) (fd : Nat)
    (recurse : Mem → Nat → DIR → Option Nat → Option Nat → Except Fault Packed)
    (hrec : CallSpec S N k recurse) (s ls n : Nat) (pe : Option Nat) (m4 : Mem)
    (h4S : hdr_sector_size m4 = S) (h4N : hdr_n_sectors m4 = N) (hlb : 512 ≤ S * s)
    (hpe : ∀ a, pe = some a → a + 32 ≤ S * s)
    (hfit : S * s + 32 * n ≤ S * (s + ls)) (V : Prop) (real : List (List Nat))
    (hnames : V → ∀ (i : Nat) (mem : Mem) (name : List Nat), 2 ≤ i → i < n →
      FrameL (S * s) (S * (s + ls)) m4 mem →
      readCStr mem size size (S * s + 32 * i) = .ok name → real[i - 2]? = some name) :
    ∀ (count i : Nat) (w w' : Walk), i + count = n → 2 ≤ i → w.err = none →
      FrameL (S * s) (S * (s + ls)) m4 w.mem → GoodInv S N s ls pe V real i w →
      mkdir_children size host fd (S * s) recurse count (S * s + 32 * i) w = .ok w' →
      FrameL (S * s) (S * (s + ls)) m4 w'.mem ∧
      (w'.err = none → GoodInv S N s ls pe V real n w') ∧
      (∀ code, w'.err = some code → code < 0) := by
  intro count
  induction count with
  | zero =>
    intro i w w' hi _ herr hfl hinv hrun
    simp only [mkdir_children] at hrun
    injection hrun with hrun
    subst hrun
    have : i = n := by omega
    subst this
    exact ⟨hfl, fun _ => hinv, fun code hc => by rw [herr] at hc; cases hc⟩
  | succ c ih =>
    intro i w w' hi hi2 herr hfl hinv hrun
    have hcb : S * s ≤ S * (s + ls) := Nat.mul_le_mul_left S (by omega)
    have hh := FrameL_hdr hfl hlb hcb
    have hwS := hh.1.trans h4S
    have hwN := hh.2.trans h4N
    have hcur : S * (s + ls) ≤ S * w.sector := Nat.mul_le_mul_left S (by have := hinv.1; omega)
    have hwsec : w.sector ≤ N := hinv.2.1
    have hnext : S * s + 32 * i + DIRENT_SIZE = S * s + 32 * (i + 1) := by
      simp only [DIRENT_SIZE]; omega
    simp only [mkdir_children] at hrun
    split at hrun
    · cases hrun
    · rename_i name hname
      have hnm : V → real[i - 2]? = some name := fun hV =>
        hnames hV i w.mem name hi2 (by omega) hfl hname
      split at hrun
      · -- directory
        split at hrun
        · injection hrun with hrun
          subst hrun
          refine ⟨hfl, fun h => (by cases h), fun code hc => ?_⟩
          injection hc with hc; subst hc; simp [ ERR_FILEIO]
        · rename_i dir _
          split at hrun
          · cases hrun
          · rename_i p hp
            have hpost := hrec w.mem w.sector dir (some (S * s)) (some (S * s + 32 * i)) p
              hwS hwN (by omega) hwsec
              (fun a ha => by injection ha with ha; subst ha; omega) hp
            obtain ⟨pf, pg⟩ := hpost
            have hfl' := FrameL_step hfl pf hcur hi2
            split at hrun
            · rename_i hneg
              injection hrun with hrun
              subst hrun
              refine ⟨hfl', fun h => (by cases h), fun code hc => ?_⟩
              injection hc with hc; subst hc; exact hneg
            · rename_i hneg
              have h0 : 0 ≤ p.ret := by omega
              obtain ⟨q1, q2, q3, _, _, _, q7, _, _, _, _, q12, _⟩ := pg h0
              have hls := listing_sectors_pos k p.kids.length (by omega)
              rw [hnext] at hrun
              refine ih (i + 1) _ w' (by omega) (by omega) rfl hfl' ?_ hrun
              refine GoodInv_step S N s ls n i pe V real w p.mem p.ret name true p.dirs hnm
                hpe hfit
                (by omega) hi2 hN hinv pf (by omega) (by omega) ?_ ?_
              · rw [(q7 _ rfl).1, q3]
              · intro rec hr
                obtain ⟨d1, d2⟩ := q12 rec hr
                refine ⟨d1, ?_⟩
                have : p.ret.toNat = listing_sectors k p.kids.length + span p.kids := by
                  rw [q2]; exact Int.toNat_ofNat _
                rw [this, ← Nat.add_assoc]
                exact d2
      · -- file
        split at hrun
        · injection hrun with hrun
          subst hrun
          refine ⟨hfl, fun h => (by cases h), fun code hc => ?_⟩
          injection hc with hc; subst hc; simp [ ERR_FILEIO]
        · rename_i file _
          split at hrun
          · cases hrun
          · rename_i m1 adv hf
            obtain ⟨pf, pg⟩ := bfs16_mkfile_spec w.mem m1 S N w.sector (S * s + 32 * i) file adv
              hwS hwN hS0 hN (by omega) hf
            have hfl' := FrameL_step hfl pf hcur hi2
            split at hrun
            · rename_i hneg
              injection hrun with hrun
              subst hrun
              refine ⟨hfl', fun h => (by cases h), fun code hc => ?_⟩
              injection hc with hc; subst hc; exact hneg
            · rename_i hneg
              have h0 : 0 ≤ adv := by omega
              obtain ⟨q1, q2, q3, _, _⟩ := pg h0
              rw [hnext] at hrun
              refine ih (i + 1) _ w' (by omega) (by omega) rfl hfl' ?_ hrun
              have := GoodInv_step S N s ls n i pe V real w m1 adv name false [] hnm hpe hfit
                (by omega) hi2 hN hinv pf q1 q2 q3 (fun rec hr => by cases hr)
              rw [List.append_nil] at this
              exact this

theorem hdr_congr (m m' : Mem) (key : ∀ x, x < 512 → m' x = m x) :
    hdr_sector_size m' = hdr_sector_size m ∧ hdr_n_sectors m' = hdr_n_sectors m := by
  constructor
  · exact load16_congr m m' _ (key _ (by simp only [HDR]; omega)) (key _ (by simp only [HDR]; omega))
  · exact load32_congr m m' _ (key _ (by simp only [HDR]; omega)) (key _ (by simp only [HDR]; omega))
      (key _ (by simp only [HDR]; omega)) (key _ (by simp only [HDR]; omega))

theorem wrapS32_small (z : Int) (h0 : 0 ≤ z) (h1 : z < 2147483648) : wrapS32 z = z := by
  unfold wrapS32
  rw [Int.emod_eq_of_lt (by omega) (by omega)]
  omega

/-- Arithmetic of the listing footprint. -/
theorem listing_arith (k n : Nat) (hk : 0 < k) :
    ((n * 32 : Nat) : Int) - ((n / k * (32 * k) : Nat) : Int) = ((32 * (n % k) : Nat) : Int) ∧
    (n + k - 1) / k = n / k + (if n % k = 0 then 0 else 1) ∧
    n ≤ k * ((n + k - 1) / k) := by
  have h1 := Nat.div_add_mod n k
  have h2 := Nat.mod_lt n hk
  have e : n / k * (32 * k) = 32 * (k * (n / k)) := by ring
  have hceil : (n + k - 1) / k = n / k + (if n % k = 0 then 0 else 1) := by
    by_cases h : n % k = 0
    · rw [if_pos h]
      have : n + k - 1 = (k - 1) + k * (n / k) := by omega
      rw [this, Nat.add_mul_div_left _ _ hk, Nat.div_eq_of_lt (by omega)]
      omega
    · rw [if_neg h]
      have : n + k - 1 = (n % k - 1) + k * (n / k + 1) := by
        rw [Nat.mul_add]; omega
      rw [this, Nat.add_mul_div_left _ _ hk, Nat.div_eq_of_lt (by omega)]
      omega
  refine ⟨?_, hceil, ?_⟩
  · have hnat : n * 32 = n / k * (32 * k) + 32 * (n % k) := by rw [e]; omega
    rw [hnat]; push_cast; ring
  · rw [hceil, Nat.mul_add]
    by_cases h : n % k = 0
    · rw [if_pos h]; omega
    · rw [if_neg h]; omega

theorem backpatch_spec (size : Nat) (m m3 : Mem) (lb : Nat) (pe : Option Nat)
    (hpe : ∀ a, pe = some a → a + 32 ≤ lb)
    (h : backpatch size m lb pe = .ok m3) :
    (∀ x, (∀ a, pe = some a → x < a + 24 ∨ a + 32 ≤ x) → m3 x = m x) ∧
    (∀ a, pe = some a → SameFields m3 a lb) := by
  cases pe with
  | none =>
    simp only [backpatch] at h
    injection h with h
    subst h
    exact ⟨fun _ _ => rfl, fun a ha => by cases ha⟩
  | some a =>
    simp only [backpatch] at h
    split at h
    · cases h
    · injection h with h
      subst h
      have := hpe a rfl
      refine ⟨fun x hx => ent_copy_other m a lb x (hx a rfl), fun a' ha' => ?_⟩
      injection ha' with ha'
      subst ha'
      exact (ent_copy_same m a lb (by omega)).1

theorem fill_dotdot_spec (size : Nat) (m m4 : Mem) (lb : Nat) (parent : Option Nat)
    (h : fill_dotdot size m lb parent = .ok m4) :
    (∀ x, x < lb + 32 ∨ lb + 64 ≤ x → m4 x = m x) ∧ (parent = none → m4 = m) := by
  cases parent with
  | none =>
    simp only [fill_dotdot] at h
    injection h with h
    subst h
    exact ⟨fun _ _ => rfl, fun _ => rfl⟩
  | some q =>
    simp only [fill_dotdot] at h
    split at h
    · cases h
    · injection h with h
      subst h
      refine ⟨fun x hx => ?_, fun hq => by cases hq⟩
      rw [ent_copy_other _ _ _ _ (by simp only [DIRENT_SIZE]; omega)]
      simp only [storeBytes, DIRENT_SIZE, List.length_cons, List.length_nil]
      rw [if_neg (by omega)]

theorem dot_write_other (m : Mem) (lb a b c d x : Nat) (h : x < lb ∨ lb + 32 ≤ x) :
    ent_set (storeBytes m lb [46, 0]) lb a b c d x = m x := by
  rw [ent_set_other _ _ _ _ _ _ _ (by omega)]
  simp only [storeBytes, List.length_cons, List.length_nil]
  rw [if_neg (by omega)]

/-- The listing pass stores nothing below the slot it starts at. -/
theorem mkdir_list_frame (size S : Nat) :
    ∀ (names : List (List Nat)) (m : Mem) (entry sector n : Nat) (m1 : Mem) (res : Listed),
      mkdir_list size S names m entry sector n = .ok (m1, res) →
      ∀ x, x < entry → m1 x = m x := by
  intro names
  induction names with
  | nil =>
    intro m entry sector n m1 res hrun x _
    simp only [mkdir_list] at hrun
    injection hrun with hrun
    injection hrun with hm _
    rw [hm]
  | cons name rest ih =>
    intro m entry sector n m1 res hrun x hx
    simp only [mkdir_list] at hrun
    have hst : storeBytes m entry (name ++ [0]) x = m x := by
      simp only [storeBytes]
      rw [if_neg (by omega)]
    split at hrun
    · exact ih m entry sector n m1 res hrun x hx
    · split at hrun
      · injection hrun with hrun
        injection hrun with hm _
        rw [hm]
      · split at hrun
        · cases hrun
        · split at hrun
          · cases hrun
          · split at hrun
            · split at hrun
              · injection hrun with hrun
                injection hrun with hm _
                rw [← hm, hst]
              · rw [ih _ _ _ _ m1 res hrun x (by simp only [DIRENT_SIZE]; omega), hst]
            · rw [ih _ _ _ _ m1 res hrun x (by simp only [DIRENT_SIZE]; omega), hst]

/-- When the listing pass runs to the end, the slots hold the names it kept,
in the order `readdir` yielded them. -/
theorem mkdir_list_names (size S : Nat) :
    ∀ (names : List (List Nat)) (m : Mem) (entry sector n : Nat) (m1 : Mem)
      (sector' n' : Nat),
      mkdir_list size S names m entry sector n = .ok (m1, .done sector' n') →
      NamesStored size entry m1 (real_names names) := by
  intro names
  induction names with
  | nil =>
    intro m entry sector n m1 sector' n' _ j nm hj
    simp [real_names] at hj
  | cons name rest ih =>
    intro m entry sector n m1 sector' n' hrun
    have hrun0 := hrun
    simp only [mkdir_list] at hrun
    by_cases hdot : name = [46] ∨ name = [46, 46]
    · rw [if_pos hdot] at hrun
      have hrn : real_names (name :: rest) = real_names rest := by
        simp only [real_names, List.filter_cons, hdot, not_true_eq_false, decide_False]
        rfl
      rw [hrn]
      exact ih m entry sector n m1 sector' n' hrun
    · rw [if_neg hdot] at hrun
      have hrn : real_names (name :: rest) = name :: real_names rest := by
        simp only [real_names, List.filter_cons, hdot, not_false_eq_true, decide_True,
          if_true]
      rw [hrn]
      by_cases hlong : name.length > NAME_SIZE - 1
      · rw [if_pos hlong] at hrun
        injection hrun with hrun
        injection hrun with _ hr
        cases hr
      · rw [if_neg hlong] at hrun
        simp only [NAME_SIZE] at hlong
        by_cases hoob : size < entry + (name.length + 1)
        · rw [if_pos hoob] at hrun; cases hrun
        · rw [if_neg hoob] at hrun
          have hrest : ∃ sec2, mkdir_list size S rest (storeBytes m entry (name ++ [0]))
              (entry + DIRENT_SIZE) sec2 (n + 1) = .ok (m1, .done sector' n') := by
            split at hrun
            · cases hrun
            · split at hrun
              · split at hrun
                · injection hrun with hrun
                  injection hrun with _ hr
                  cases hr
                · exact ⟨_, hrun⟩
              · exact ⟨_, hrun⟩
          obtain ⟨sec2, hrest⟩ := hrest
          have hfr := mkdir_list_frame size S rest _ _ sec2 (n + 1) m1 _ hrest
          have hih := ih _ _ sec2 (n + 1) m1 sector' n' hrest
          simp only [DIRENT_SIZE] at hfr hih
          intro j nm hj
          cases j with
          | zero =>
            simp only [List.getElem?_cons_zero, Option.some.injEq] at hj
            subst hj
            refine ⟨by omega, by omega, fun t ht => ?_⟩
            rw [Nat.mul_zero, Nat.add_zero, hfr _ (by omega)]
            simp only [storeBytes, List.length_append, List.length_singleton]
            rw [if_pos (by omega), Nat.add_sub_cancel_left]
          | succ j =>
            simp only [List.getElem?_cons_succ] at hj
            obtain ⟨a, b, c⟩ := hih j nm hj
            refine ⟨a, by omega, fun t ht => ?_⟩
            rw [← c t ht]
            congr 1
            omega

/-- Reading back a stored name. -/
theorem readCStr_stored (m : Mem) (size : Nat) :
    ∀ (name : List Nat) (a fuel : Nat), (∀ b ∈ name, 0 < b ∧ b < 256) →
      (∀ t, t ≤ name.length → m (a + t) = (name ++ [0]).getD t 0) →
      a + name.length + 1 ≤ size → name.length < fuel →
      readCStr m size fuel a = .ok name := by
  intro name
  induction name with
  | nil =>
    intro a fuel _ hst hin hf
    obtain ⟨f, rfl⟩ : ∃ f, fuel = f + 1 := ⟨fuel - 1, by omega⟩
    have h0 := hst 0 (Nat.le_refl _)
    simp only [Nat.add_zero, List.nil_append, List.getD_cons_zero] at h0
    simp only [List.length_nil] at hin
    simp only [readCStr, load8, h0]
    rw [if_neg (by omega), if_pos trivial]
  | cons b bs ih =>
    intro a fuel hv hst hin hf
    obtain ⟨f, rfl⟩ : ∃ f, fuel = f + 1 := ⟨fuel - 1, by omega⟩
    simp only [List.length_cons] at hin hf
    have h0 := hst 0 (Nat.zero_le _)
    simp only [Nat.add_zero, List.cons_append, List.getD_cons_zero] at h0
    have hb := hv b (List.mem_cons_self _ _)
    have hrec := ih (a + 1) f (fun c hc => hv c (List.mem_cons_of_mem _ hc))
      (fun t ht => by
        have := hst (t + 1) (by simp only [List.length_cons]; omega)
        simp only [List.cons_append, List.getD_cons_succ] at this
        rw [← this]; congr 1; omega)
      (by omega) (by omega)
    simp only [readCStr, load8, h0, hrec]
    rw [if_neg (by omega), if_neg (by rw [Nat.mod_eq_of_lt hb.2]; omega),
      Nat.mod_eq_of_lt hb.2]

theorem ValidNames_real {names : List (List Nat)} (h : ValidNames names) :
    ValidNames (real_names names) :=
  fun nm hnm => h nm (List.mem_of_mem_filter hnm)

/-- Reading the name of slot `i` back during the second pass gives the name the
listing pass stored there. -/
theorem mkdir_names_readback (S size s ls n : Nat) (m1 m2 m3 m4 : Mem)
    (names : List (List Nat)) (pe : Option Nat)
    (hns : NamesStored size (S * s + 2 * 32) m1 (real_names names))
    (ln : n = 2 + (real_names names).length)
    (hfit : S * s + 32 * n ≤ S * (s + ls))
    (hpe : ∀ a, pe = some a → 512 ≤ a + 24 ∧ a + 32 ≤ S * s)
    (m2o : ∀ x, x < S * s ∨ S * s + 32 ≤ x → m2 x = m1 x)
    (m3o : ∀ x, (∀ a, pe = some a → x < a + 24 ∨ a + 32 ≤ x) → m3 x = m2 x)
    (m4o : ∀ x, x < S * s + 32 ∨ S * s + 64 ≤ x → m4 x = m3 x)
    (hV : ValidNames names) (i : Nat) (mem : Mem) (name : List Nat)
    (hi2 : 2 ≤ i) (hin : i < n) (hfl : FrameL (S * s) (S * (s + ls)) m4 mem)
    (hread : readCStr mem size size (S * s + 32 * i) = .ok name) :
    (real_names names)[i - 2]? = some name := by
  have hj : i - 2 < (real_names names).length := by omega
  have hget := List.getElem?_eq_getElem hj
  obtain ⟨a, b, c⟩ := hns (i - 2) _ hget
  have hrd := readCStr_stored mem size _ (S * s + 32 * i) size
    (ValidNames_real hV _ (List.getElem_mem _)) (fun t ht => by
      have hx : S * s + 32 * i + t = S * s + 2 * 32 + 32 * (i - 2) + t := by omega
      rw [hx, ← c t ht]
      rw [hfl _ (by omega) (Or.inr (by
        rw [show S * s + 2 * 32 + 32 * (i - 2) + t - S * s = t + 32 * i by omega,
          Nat.add_mul_mod_self_left, Nat.mod_eq_of_lt (by omega)]
        omega))]
      rw [m4o _ (by omega),
        m3o _ (fun a' ha' => Or.inr (by have := (hpe a' ha').2; omega)),
        m2o _ (by omega)])
    (by omega) (by omega)
  rw [hread] at hrd
  injection hrd with hrd
  rw [hget, hrd]

/-- The statement `Post` from the invariant the second pass ends with. -/
theorem mkdir_post_good (S N k s ls n : Nat) (m m1 m2 m3 m4 : Mem) (w : Walk) (dir : DIR)
    (parent pe : Option Nat) (hN : N ≤ 65535)
    (hlsdef : listing_sectors k (n - 2) = ls)
    (ln : n = 2 + (real_names dir.pending).length)
    (hfit : S * s + 32 * n ≤ S * (s + ls))
    (hpe : ∀ a, pe = some a → 512 ≤ a + 24 ∧ a + 32 ≤ S * s)
    (lf : ∀ x, x < S * s + 2 * 32 → m1 x = m x)
    (m2o : ∀ x, x < S * s ∨ S * s + 32 ≤ x → m2 x = m1 x)
    (m3o : ∀ x, (∀ a, pe = some a → x < a + 24 ∨ a + 32 ≤ x) → m3 x = m2 x)
    (m4n : parent = none → m4 = m3)
    (f1 : ent_start m2 (S * s) = s) (f2 : ent_sectors m2 (S * s) = ls)
    (f3 : ent_bytes_rem m2 (S * s) = 32 * (n % k)) (f4 : ent_flags m2 (S * s) = BFS_DIR)
    (dotf : ent_start m4 (S * s) = ent_start m2 (S * s) ∧
      ent_sectors m4 (S * s) = ent_sectors m2 (S * s) ∧
      ent_bytes_rem m4 (S * s) = ent_bytes_rem m2 (S * s) ∧
      ent_flags m4 (S * s) = ent_flags m2 (S * s))
    (same4 : ∀ a, pe = some a → SameFields m4 a (S * s))
    (wf : FrameL (S * s) (S * (s + ls)) m4 w.mem)
    (hframe : Frame (S * s) pe m w.mem)
    (hg : GoodInv S N s ls pe (ValidNames dir.pending) (real_names dir.pending) n w) :
    Post S N k m s dir parent pe
      ⟨w.mem, toS32 ((w.sector + 4294967296 - s) % 4294967296), w.kids, w.dirs⟩ := by
  refine ⟨hframe, fun _ => ?_⟩
  obtain ⟨g1, g2, g3, g0, g4, g5, g6, g7⟩ := hg
  have hlen : w.kids.length = n - 2 := by omega
  have hcur : S * (s + ls) ≤ S * w.sector := Nat.mul_le_mul_left S (by omega)
  have wdot := ent_fields_congr m4 w.mem (S * s) (fun x _ hx2 =>
    wf x (by omega) (Or.inl (by omega)))
  simp only [hlen, hlsdef, show n - 2 + 2 = n by omega]
  refine ⟨by omega, ?_, ?_, ?_, ?_, ?_, ?_, ?_, g4, fun r hr => (g5 r hr).1, g0, ?_,
    by omega, fun hV => ?_⟩
  rotate_right
  · rw [g7 hV]
    exact List.take_of_length_le (by omega)
  · rw [show (w.sector + 4294967296 - s) = (ls + span w.kids) + 4294967296 by omega,
      Nat.add_mod_right, Nat.mod_eq_of_lt (by omega), toS32_small _ (by omega)]
  · rw [wdot.1, dotf.1, f1]
  · rw [wdot.2.1, dotf.2.1, f2]
  · rw [wdot.2.2.1, dotf.2.2.1, f3]
  · rw [wdot.2.2.2, dotf.2.2.2, f4]
  · intro a ha
    exact SameFields_congr m4 w.mem a (S * s)
      (fun x _ hx2 => wf x (by have := (hpe a ha).2; omega)
        (Or.inl (by have := (hpe a ha).2; omega)))
      (fun x _ hx2 => wf x (by omega) (Or.inl (by omega))) (same4 a ha)
  · intro hpar x hx1 hx2
    rw [wf x (by omega) (Or.inl (by omega)), m4n hpar,
      m3o x (fun a ha => Or.inr (by have := (hpe a ha).2; omega)),
      m2o x (Or.inr hx1), lf x (by omega)]
  · intro rec hr
    obtain ⟨d1, d2, d3⟩ := g6 rec hr
    have hsec : s + ls + span w.kids = w.sector := g1
    rw [hsec]
    refine ⟨d1, ?_, ?_, ?_⟩
    · rcases d2 with d | d
      · rw [d]
      · omega
    · rcases d2 with d | d
      · rw [d]; omega
      · exact d.2
    · intro a ha
      rcases d3 a ha with c | c | c
      · exact Or.inl c
      · exact Or.inr ⟨by omega, by omega⟩
      · exact Or.inr ⟨by omega, c.2⟩

/-- Every call of `bfs16_mkdir`, at any depth, in an image whose sector size is
`32 * k` with `k >= 3`, of at most 65535 sectors, in a buffer of exactly the
image's size, satisfies `Post` when it is given a sector of the image past
the header and a parent slot below that sector. -/
theorem bfs16_mkdir_spec (S N size k : Nat) (hk : S = 32 * k) (hk3 : 3 ≤ k) (hN : N ≤ 65535)
    (hsize : size = N * S) (host : Host) :
    ∀ depth, CallSpec S N k (bfs16_mkdir size host depth) := by
  intro depth
  induction depth with
  | zero =>
    intro m s dir parent pe p _ _ _ _ _ hrun
    simp only [bfs16_mkdir] at hrun
    cases hrun
  | succ d ih =>
    intro m s dir parent pe p h1 h2 hlb hsN hpe hrun
    have hS0 : 0 < S := by omega
    have hk0 : 0 < k := by omega
    have hS16 : S < 65536 := h1 ▸ hdr_sector_size_lt m
    have hmul : S * s < 4294967296 := by
      have : S * s ≤ 65535 * 65535 := Nat.mul_le_mul (by omega) (by omega)
      omega
    have hptr : sector_ptr m s = S * s := by
      simp only [sector_ptr, h1, HDR, Nat.sub_self, Nat.zero_add, Nat.mod_eq_of_lt hmul]
    have heff : eff_sector_size m = S := by
      simp only [eff_sector_size, h1, if_neg (Nat.pos_iff_ne_zero.mp hS0)]
    simp only [bfs16_mkdir, hptr, heff] at hrun
    split at hrun
    · cases hrun
    · rename_i m1 code hlist
      injection hrun with hrun
      subst hrun
      obtain ⟨lf, _, lc⟩ := mkdir_list_spec size S N k hk hk0 hN dir.pending m _ s 2 m1 _
        h2 (by simp only [DIRENT_SIZE]; omega) hsN hlist
      refine ⟨fun x hx _ => lf x (by simp only [DIRENT_SIZE]; omega), fun h0 => ?_⟩
      have := lc code rfl
      simp only at h0
      omega
    · rename_i m1 sector0 n hlist
      obtain ⟨lf, ld, _⟩ := mkdir_list_spec size S N k hk hk0 hN dir.pending m _ s 2 m1 _
        h2 (by simp only [DIRENT_SIZE]; omega) hsN hlist
      simp only [DIRENT_SIZE] at lf hrun
      obtain ⟨ln, lsec, lsN, lcross⟩ := ld sector0 n rfl
      rw [Nat.div_eq_of_lt (by omega : 2 < k), Nat.add_zero] at lsec
      obtain ⟨ar1, ar2, ar3⟩ := listing_arith k n hk0
      have hmodlt := Nat.mod_lt n hk0
      have hn0 : (sector0 + 4294967296 - s) % 4294967296 = n / k := by
        rw [lsec, show s + n / k + 4294967296 - s = n / k + 4294967296 by omega,
          Nat.add_mod_right, Nat.mod_eq_of_lt (by omega)]
      have hbr : wrapS32 (((n * 32 : Nat) : Int) - ((n / k * S : Nat) : Int))
          = ((32 * (n % k) : Nat) : Int) := by
        rw [hk, ar1]
        exact wrapS32_small _ (by omega) (by omega)
      rw [hn0] at hrun
      simp only [hbr] at hrun
      have hite : ∀ (a b : Nat), (if ((32 * (n % k) : Nat) : Int) ≠ 0 then a else b)
          = if n % k = 0 then b else a := by
        intro a b
        by_cases h : n % k = 0
        · rw [if_pos h, if_neg (by omega)]
        · rw [if_neg h, if_pos (by omega)]
      simp only [hite] at hrun
      have hC : (((32 * (n % k) : Nat) : Int) % 65536).toNat = 32 * (n % k) := by
        omega
      have hls : listing_sectors k (n - 2) = (n + k - 1) / k := by
        unfold listing_sectors
        rw [show n - 2 + 2 = n by omega]
      have hA : (if n % k = 0 then n / k else (n / k + 1) % 4294967296)
          = listing_sectors k (n - 2) := by
        rw [hls, ar2]
        by_cases h : n % k = 0
        · rw [if_pos h, if_pos h]; omega
        · rw [if_neg h, if_neg h, Nat.mod_eq_of_lt (by omega)]
      have hB : (if n % k = 0 then sector0 else (sector0 + 1) % 4294967296)
          = s + listing_sectors k (n - 2) := by
        rw [hls, ar2, lsec]
        by_cases h : n % k = 0
        · rw [if_pos h, if_pos h]; omega
        · rw [if_neg h, if_neg h, Nat.mod_eq_of_lt (by omega)]; omega
      rw [hA, hB, hC] at hrun
      have hfit : S * s + 32 * n ≤ S * (s + listing_sectors k (n - 2)) := by
        rw [hls, Nat.mul_add, hk, Nat.mul_assoc 32 k ((n + k - 1) / k)]
        have := Nat.mul_le_mul_left 32 ar3
        omega
      have hls1 := listing_sectors_pos k (n - 2) hk0
      generalize hlsdef : listing_sectors k (n - 2) = ls at hrun hfit hls1 hA hB
      split at hrun
      · cases hrun
      · rename_i hsz
        have hsltN : s < N := by
          have : S * s < N * S := by omega
          rw [Nat.mul_comm N S] at this
          exact Nat.lt_of_mul_lt_mul_left this
        have hlsN : s + ls ≤ N := by
          rw [← hB]
          by_cases h : n % k = 0
          · rw [if_pos h]; exact lsN
          · rw [if_neg h, Nat.mod_eq_of_lt (by omega)]
            by_cases hc : s < sector0
            · have := lcross hc; omega
            · omega
        generalize hm2 : ent_set (storeBytes m1 (S * s) [46, 0]) (S * s) s ls (32 * (n % k))
          BFS_DIR = m2 at hrun
        have m2o : ∀ x, x < S * s ∨ S * s + 32 ≤ x → m2 x = m1 x := by
          intro x hx; rw [← hm2]; exact dot_write_other _ _ _ _ _ _ _ hx
        obtain ⟨f1, f2, f3, f4⟩ := ent_get_set (storeBytes m1 (S * s) [46, 0]) (S * s) s ls
          (32 * (n % k)) BFS_DIR
        rw [hm2] at f1 f2 f3 f4
        rw [Nat.mod_eq_of_lt (by omega)] at f1 f2 f3
        rw [Nat.mod_eq_of_lt (by simp only [BFS_DIR]; omega)] at f4
        split at hrun
        · cases hrun
        · rename_i m3 hbp
          obtain ⟨m3o, m3s⟩ := backpatch_spec size m2 m3 (S * s) pe (fun a ha => (hpe a ha).2) hbp
          split at hrun
          · cases hrun
          · rename_i m4 hdd
            obtain ⟨m4o, m4n⟩ := fill_dotdot_spec size m3 m4 (S * s) parent hdd
            clear hA hB hite hC ar1 ar2 hbr hn0 lcross
            have hcb : S * s ≤ S * (s + ls) := Nat.mul_le_mul_left S (by omega)
            have low : ∀ x, x < S * s → (∀ a, pe = some a → x < a + 24 ∨ a + 32 ≤ x) →
                m4 x = m x := by
              intro x hx hc
              rw [m4o x (by omega), m3o x hc, m2o x (by omega), lf x (by omega)]
            have h4 := hdr_congr m m4 (fun x hx => low x (by omega)
              (fun a ha => Or.inl (by have := (hpe a ha).1; omega)))
            have dotf := ent_fields_congr m2 m4 (S * s) (fun x hx1 hx2 => by
              rw [m4o x (by omega)]
              exact m3o x (fun a ha => Or.inr (by have := (hpe a ha).2; omega)))
            have same4 : ∀ a, pe = some a → SameFields m4 a (S * s) := fun a ha =>
              SameFields_congr m3 m4 a (S * s)
                (fun x _ hx2 => m4o x (by have := (hpe a ha).2; omega))
                (fun x _ hx2 => m4o x (by omega)) (m3s a ha)
            have hns := mkdir_list_names size S dir.pending m _ s 2 m1 sector0 n hlist
            simp only [DIRENT_SIZE] at hns
            have hnames : ValidNames dir.pending → ∀ (i : Nat) (mem : Mem) (name : List Nat),
                2 ≤ i → i < n → FrameL (S * s) (S * (s + ls)) m4 mem →
                readCStr mem size size (S * s + 32 * i) = .ok name →
                (real_names dir.pending)[i - 2]? = some name :=
              mkdir_names_readback S size s ls n m1 m2 m3 m4 dir.pending pe hns ln hfit hpe
                m2o m3o m4o
            have hinv0 : GoodInv S N s ls pe (ValidNames dir.pending) (real_names dir.pending) 2
                { mem := m4, sector := s + ls, err := none, kids := [], dirs := [(s, pe)] } := by
              refine ⟨by simp [span], hlsN, rfl, List.mem_singleton.mpr rfl, trivial,
                fun r hr => (by cases hr), fun rec hr => ?_, fun _ => by simp⟩
              rw [List.mem_singleton] at hr
              subst hr
              refine ⟨⟨?_, ?_, same4⟩, Or.inl rfl, fun a _ => Or.inl rfl⟩
              · simp only; rw [dotf.1, f1]
              · simp only; rw [dotf.2.2.2, f4]
            split at hrun
            · cases hrun
            · rename_i w hw
              obtain ⟨wf, wg, wc⟩ := mkdir_children_spec S N size k hk3 hN hS0 host dir.fd _
                (ih) s ls n pe m4 (h4.1.trans h1) (h4.2.trans h2) hlb (fun a ha => (hpe a ha).2)
                hfit (ValidNames dir.pending) (real_names dir.pending) hnames
                (n - 2) 2 _ w (by omega) (Nat.le_refl 2) rfl (fun _ _ _ => rfl) hinv0 hw
              have hframe : Frame (S * s) pe m w.mem := fun x hx hc => by
                rw [wf x (by omega) (Or.inl (by omega))]
                exact low x hx hc
              split at hrun
              · rename_i code hcode
                injection hrun with hrun
                subst hrun
                refine ⟨hframe, fun h0 => ?_⟩
                have := wc code hcode
                simp only at h0
                omega
              · rename_i hnone
                injection hrun with hrun
                subst hrun
                exact mkdir_post_good S N k s ls n m m1 m2 m3 m4 w dir parent pe hN hlsdef ln
                  hfit hpe lf m2o m3o m4n f1 f2 f3 f4 dotf same4 wf hframe (wg hnone)

theorem sector_ptr_eq (m : Mem) (S i : Nat) (h1 : hdr_sector_size m = S) (hi : i ≤ 65535) :
    sector_ptr m i = S * i := by
  have hS16 : S < 65536 := h1 ▸ hdr_sector_size_lt m
  have hmul : S * i < 4294967296 := by
    have : S * i ≤ 65535 * 65535 := Nat.mul_le_mul (by omega) hi
    omega
  simp only [sector_ptr, h1, HDR, Nat.sub_self, Nat.zero_add, Nat.mod_eq_of_lt hmul]

/-- The statement `Post` for a call of `bfs16_mkdir`, from hypotheses on the
sector size itself. -/
theorem bfs16_mkdir_post (S N size : Nat) (host : Host) (depth : Nat) (m : Mem) (s : Nat)
    (dir : DIR) (parent pe : Option Nat) (p : Packed)
    (h1 : hdr_sector_size m = S) (h2 : hdr_n_sectors m = N)
    (hS32 : S % 32 = 0) (hS96 : 96 ≤ S) (hN : N ≤ 65535) (hsize : size = N * S)
    (hlb : 512 ≤ S * s) (hs : s ≤ N)
    (hpe : ∀ a, pe = some a → 512 ≤ a + 24 ∧ a + 32 ≤ S * s)
    (hrun : bfs16_mkdir size host depth m s dir parent pe = .ok p) :
    Post S N (S / 32) m s dir parent pe p :=
  bfs16_mkdir_spec S N size (S / 32) (by omega) (by omega) hN hsize host depth m s dir parent pe p
    h1 h2 hlb hs hpe hrun

/-! ## Claims about the directory packer -/

/-- C5, as stated, fails: in an image of 65537 sectors (word size 16) an empty
root directory packed at `start_sector = 65536` succeeds, and its slot `.`
records `start = 0`, not 65536: the field is 16 bits wide. -/
theorem bfs16_mkdir_dot_start_truncated :
    hdr_word_size bigImage = 16 ∧
    (bfs16_mkdir (65537 * 512) emptyHost 1 bigImage 65536 ⟨0, []⟩ none none).toOption.map
        (fun p => (p.ret, p.dirs, ent_start p.mem (sector_ptr bigImage 65536)))
      = some (1, [(65536, none)], 0) := by
  constructor
  · decide
  · rfl

/-- C5, amended: when the sector size is a multiple of 32 and at least 96, the
image has at most 65535 sectors and fills its buffer, and the root is packed
at a sector of the image that starts past the header, then after a
successful root pack every directory that was packed (the root and each
directory beneath it, given by its `start_sector` and the slot naming it in
its parent) has, in the final image, a slot `.` that records its
`start_sector` and the flag `BFS_DIR`, and the slot naming it in its parent
holds the same four fields as its slot `.`. -/
theorem bfs16_mkdir_parent_child_agree (S N size : Nat) (host : Host) (depth : Nat) (m : Mem)
    (s : Nat) (dir : DIR) (p : Packed)
    (h1 : hdr_sector_size m = S) (h2 : hdr_n_sectors m = N)
    (hS32 : S % 32 = 0) (hS96 : 96 ≤ S) (hN : N ≤ 65535) (hsize : size = N * S)
    (hlb : 512 ≤ S * s) (hs : s < N)
    (hrun : bfs16_mkdir size host depth m s dir none none = .ok p) (hok : 0 ≤ p.ret) :
    (s, none) ∈ p.dirs ∧
    ∀ rec ∈ p.dirs,
      ent_start p.mem (sector_ptr m rec.1) = rec.1 ∧
      ent_flags p.mem (sector_ptr m rec.1) = BFS_DIR ∧
      ∀ a, rec.2 = some a → SameFields p.mem a (sector_ptr m rec.1) := by
  obtain ⟨_, hg⟩ := bfs16_mkdir_post S N size host depth m s dir none none p h1 h2 hS32 hS96 hN
    hsize hlb (by omega) (fun a ha => by cases ha) hrun
  obtain ⟨q1, _, _, _, _, _, _, _, _, _, q11, q12, _, _⟩ := hg hok
  refine ⟨q11, fun rec hr => ?_⟩
  obtain ⟨⟨d1, d2, d3⟩, r1, r2, _⟩ := q12 rec hr
  have hS0 : 0 < S := by omega
  have hle : S * (s + listing_sectors (S / 32) p.kids.length + span p.kids) ≤ S * N :=
    Nat.mul_le_mul_left S q1
  have hrec : rec.1 < N := by
    have : S * rec.1 < S * N := by omega
    exact Nat.lt_of_mul_lt_mul_left this
  rw [sector_ptr_eq m S rec.1 h1 (by omega)]
  exact ⟨d1, d2, d3⟩

/-- Witness for C5: the spec's example tree, packed from sector 1. -/
theorem bfs16_mkdir_parent_child_agree_witness :
    bfs16_mkdir 5120 demoHost 5 floppy10 1 demoRoot none none = .ok demoPacked ∧
    demoPacked.dirs = [(1, none), (2, some 576)] ∧
    ent_start demoPacked.mem (sector_ptr floppy10 2) = 2 ∧
    SameFields demoPacked.mem 576 (sector_ptr floppy10 2) := by
  have hrun : bfs16_mkdir 5120 demoHost 5 floppy10 1 demoRoot none none = .ok demoPacked := by
    set_option maxRecDepth 100000 in rfl
  refine ⟨hrun, by set_option maxRecDepth 100000 in rfl, ?_⟩
  have h := (bfs16_mkdir_parent_child_agree 512 10 5120 demoHost 5 floppy10 1 demoRoot _
    (by decide) (by decide) (by decide) (by decide) (by decide) (by decide) (by decide)
    (by decide) hrun (by set_option maxRecDepth 100000 in decide)).2 (2, some 576)
    (by set_option maxRecDepth 100000 in decide)
  exact ⟨h.1, h.2.2 576 rfl⟩

theorem listing_sectors_eq_ceil (S c : Nat) (hS32 : S % 32 = 0) (hS : 0 < S) :
    listing_sectors (S / 32) c = (32 * (c + 2) + S - 1) / S := by
  have hk : S = 32 * (S / 32) := by omega
  have hk0 : 0 < S / 32 := by omega
  generalize S / 32 = k at hk hk0
  subst hk
  unfold listing_sectors
  rw [← Nat.div_div_eq_div_mul]
  congr 1
  omega

/-- C6, as stated, fails: the directory `d` of `nestedHost`, which holds one
file, is packed at sector 2 and the call returns 2 (its listing and the
file), but the `sectors` field of the slot naming it in the root's array
(at 576) is 1. -/
theorem bfs16_mkdir_parent_sectors_not_aggregate :
    bfs16_mkdir 5120 nestedHost 5 floppy10 1 nestedRoot none none = .ok nestedPacked ∧
    nestedPacked.kids.map (fun r => (r.is_dir, r.start_sector, r.entry, r.ret))
      = [(true, 2, 576, 2)] ∧
    ent_sectors nestedPacked.mem 576 = 1 := by
  refine ⟨?_, ?_, ?_⟩
  · set_option maxRecDepth 100000 in rfl
  · set_option maxRecDepth 100000 in rfl
  · set_option maxRecDepth 100000 in rfl

/-- C6, amended: for a directory that is not the root (its slot in the parent's
array lies past the header and below its own first sector), packed
successfully under the conditions of C5, the `sectors` field of that slot
equals the `sectors` field of its own slot `.`, which is the number of
sectors of its own entry array, `ceil(32 * (c + 2) / S)` for its `c`
children; the value `bfs16_mkdir` returns is that number plus the sum of the
values returned for the children. -/
theorem bfs16_mkdir_parent_entry_sectors (S N size : Nat) (host : Host) (depth : Nat)
    (m : Mem) (s : Nat) (dir : DIR) (parent : Option Nat) (a : Nat) (p : Packed)
    (h1 : hdr_sector_size m = S) (h2 : hdr_n_sectors m = N)
    (hS32 : S % 32 = 0) (hS96 : 96 ≤ S) (hN : N ≤ 65535) (hsize : size = N * S)
    (hlb : 512 ≤ S * s) (hs : s < N) (ha1 : 512 ≤ a + 24) (ha2 : a + 32 ≤ S * s)
    (hrun : bfs16_mkdir size host depth m s dir parent (some a) = .ok p) (hok : 0 ≤ p.ret) :
    p.kids.length = (real_names dir.pending).length ∧
    ent_sectors p.mem a = ent_sectors p.mem (sector_ptr m s) ∧
    ent_sectors p.mem a = (32 * (p.kids.length + 2) + S - 1) / S ∧
    p.ret = (((32 * (p.kids.length + 2) + S - 1) / S + span p.kids : Nat) : Int) := by
  obtain ⟨_, hg⟩ := bfs16_mkdir_post S N size host depth m s dir parent (some a) p h1 h2 hS32
    hS96 hN hsize hlb (by omega)
    (fun a' ha' => by injection ha' with ha'; subst ha'; exact ⟨ha1, ha2⟩) hrun
  obtain ⟨_, q2, _, q4, _, _, q7, _, _, _, _, _, q13, _⟩ := hg hok
  rw [sector_ptr_eq m S s h1 (by omega), ← listing_sectors_eq_ceil S _ hS32 (by omega)]
  exact ⟨q13, (q7 a rfl).2.1, by rw [(q7 a rfl).2.1, q4], q2⟩

/-- Witness for C6: the directory `d` of `nestedHost`, packed at sector 2. -/
theorem bfs16_mkdir_parent_entry_sectors_witness :
    bfs16_mkdir 5120 nestedHost 5 floppy10 2 ⟨1, [[102]]⟩ (some 512) (some 576)
      = .ok innerPacked ∧
    innerPacked.ret = 2 ∧ ent_sectors innerPacked.mem 576 = 1 := by
  have hrun : bfs16_mkdir 5120 nestedHost 5 floppy10 2 ⟨1, [[102]]⟩ (some 512) (some 576)
      = .ok innerPacked := by
    set_option maxRecDepth 100000 in rfl
  have hlen : innerPacked.kids.length = 1 := by
    set_option maxRecDepth 100000 in rfl
  have h := bfs16_mkdir_parent_entry_sectors 512 10 5120 nestedHost 5 floppy10 2 ⟨1, [[102]]⟩
    (some 512) 576 innerPacked (by decide) (by decide) (by decide) (by decide) (by decide)
    (by decide) (by decide) (by decide) (by decide) (by decide) hrun
    (by set_option maxRecDepth 100000 in decide)
  refine ⟨hrun, by set_option maxRecDepth 100000 in rfl, ?_⟩
  rw [h.2.2.1, hlen]

/-- C7, as stated, fails: with 96-byte sectors (a multiple of 32, at least 96)
and 20 sectors, a root packed at `start_sector = 5` has its slot `.` on top
of the header, whose `sector_size` becomes the slot's `bytes_rem`, 32.  The
two files are then laid out in 32-byte steps from offset 224, the second
one runs over the listing, and the pack still succeeds (returning 14)
while the first child's recorded start ends up 65535, not 5 + 2 = 7. -/
theorem bfs16_mkdir_listing_over_header :
    hdr_sector_size image96 = 96 ∧ hdr_n_sectors image96 = 20 ∧
    (bfs16_mkdir 1920 twoFilesHost 5 image96 5 twoFilesRoot none none).toOption.map
        (fun p => (p.ret, p.kids.map (fun r => (r.entry, r.start_sector, r.ret)),
          ent_start p.mem 544))
      = some (14, [(544, 7, 1), (576, 8, 11)], 65535) := by
  refine ⟨by decide, by decide, ?_⟩
  set_option maxRecDepth 100000 in rfl

/-- C7, amended: when the sector size `S` is a multiple of 32 and at least 96,
the image has at most 65535 sectors and fills its buffer, the directory is
packed at a sector of the image that starts past the header, and the slot
naming it in its parent (if any) lies past the header and below that sector,
then after a successful `bfs16_mkdir` the second pass has made one call per
name `readdir` yielded (`.` and `..` apart), in that order (the names read
from the slots are those names when they are C strings); the first call
was given sector `start_sector + ceil(32 * (c + 2) / S)` and slot 2, each
later one the sector where the previous one ended and the next slot; each
child's slot records the sector the call was given; and `bfs16_mkdir`
returns the listing's sector count plus the sum of the children's returned
values. -/
theorem bfs16_mkdir_contiguous (S N size : Nat) (host : Host) (depth : Nat)
    (m : Mem) (s : Nat) (dir : DIR) (parent pe : Option Nat) (p : Packed)
    (h1 : hdr_sector_size m = S) (h2 : hdr_n_sectors m = N)
    (hS32 : S % 32 = 0) (hS96 : 96 ≤ S) (hN : N ≤ 65535) (hsize : size = N * S)
    (hlb : 512 ≤ S * s) (hs : s < N)
    (hpe : ∀ a, pe = some a → 512 ≤ a + 24 ∧ a + 32 ≤ S * s)
    (hrun : bfs16_mkdir size host depth m s dir parent pe = .ok p) (hok : 0 ≤ p.ret) :
    p.kids.length = (real_names dir.pending).length ∧
    (ValidNames dir.pending → p.kids.map (fun r => r.name) = real_names dir.pending) ∧
    Chained (s + (32 * (p.kids.length + 2) + S - 1) / S) (sector_ptr m s + 64) p.kids ∧
    (∀ r ∈ p.kids, ent_start p.mem r.entry = r.start_sector) ∧
    p.ret = (((32 * (p.kids.length + 2) + S - 1) / S + span p.kids : Nat) : Int) := by
  obtain ⟨_, hg⟩ := bfs16_mkdir_post S N size host depth m s dir parent pe p h1 h2 hS32
    hS96 hN hsize hlb (by omega) hpe hrun
  obtain ⟨_, q2, _, _, _, _, _, _, q9, q10, _, _, q13, q14⟩ := hg hok
  rw [sector_ptr_eq m S s h1 (by omega), ← listing_sectors_eq_ceil S _ hS32 (by omega)]
  exact ⟨q13, q14, q9, q10, q2⟩

/-- Witness for C7: the spec's example tree; the directory `d` is given sector 2
and the file `f` sector 3, and the pack returns 1 + 1 + 2. -/
theorem bfs16_mkdir_contiguous_witness :
    bfs16_mkdir 5120 demoHost 5 floppy10 1 demoRoot none none = .ok demoPacked ∧
    demoPacked.kids.map (fun r => (r.name, r.start_sector, r.entry, r.ret))
      = [([100], 2, 576, 1), ([102], 3, 608, 2)] ∧
    Chained (1 + (32 * (demoPacked.kids.length + 2) + 512 - 1) / 512)
      (sector_ptr floppy10 1 + 64) demoPacked.kids ∧
    demoPacked.ret = 4 := by
  have hrun : bfs16_mkdir 5120 demoHost 5 floppy10 1 demoRoot none none = .ok demoPacked := by
    set_option maxRecDepth 100000 in rfl
  have h := bfs16_mkdir_contiguous 512 10 5120 demoHost 5 floppy10 1 demoRoot none none
    demoPacked (by decide) (by decide) (by decide) (by decide) (by decide) (by decide)
    (by decide) (by decide) (fun a ha => by cases ha) hrun
    (by set_option maxRecDepth 100000 in decide)
  refine ⟨hrun, by set_option maxRecDepth 100000 in rfl, h.2.2.1, ?_⟩
  set_option maxRecDepth 100000 in rfl

/-- C8, as stated, fails: after the root of the spec's example tree is packed
from sector 1 of a zeroed image, slot 1 of the root's array (at 544) is not
named `..` (its first byte is 0, not 46) and its fields are all zero, while
slot `.` (at 512) holds start 1, sectors 1, flags `BFS_DIR`. -/
theorem bfs16_mkdir_root_dotdot_unwritten :
    bfs16_mkdir 5120 demoHost 5 floppy10 1 demoRoot none none = .ok demoPacked ∧
    0 ≤ demoPacked.ret ∧
    demoPacked.mem 544 = 0 ∧
    (ent_start demoPacked.mem 544, ent_sectors demoPacked.mem 544,
      ent_bytes_rem demoPacked.mem 544, ent_flags demoPacked.mem 544) = (0, 0, 0, 0) ∧
    (ent_start demoPacked.mem 512, ent_sectors demoPacked.mem 512,
      ent_bytes_rem demoPacked.mem 512, ent_flags demoPacked.mem 512) = (1, 1, 128, 1) := by
  refine ⟨?_, ?_, ?_, ?_, ?_⟩
  · set_option maxRecDepth 100000 in rfl
  · set_option maxRecDepth 100000 in decide
  · set_option maxRecDepth 100000 in rfl
  · set_option maxRecDepth 100000 in rfl
  · set_option maxRecDepth 100000 in rfl

/-- C8, amended: when `bfs16_mkdir` packs the root (parent and parent_entry both
absent) successfully under the conditions of C5, slot 1 of the root's entry
array is left exactly as it was before the call: none of its 32 bytes, name
or fields, is written.  (The slot is named `..` and filled only when a parent
is given.) -/
theorem bfs16_mkdir_root_slot1_untouched (S N size : Nat) (host : Host) (depth : Nat)
    (m : Mem) (s : Nat) (dir : DIR) (p : Packed)
    (h1 : hdr_sector_size m = S) (h2 : hdr_n_sectors m = N)
    (hS32 : S % 32 = 0) (hS96 : 96 ≤ S) (hN : N ≤ 65535) (hsize : size = N * S)
    (hlb : 512 ≤ S * s) (hs : s < N)
    (hrun : bfs16_mkdir size host depth m s dir none none = .ok p) (hok : 0 ≤ p.ret) :
    ∀ x, sector_ptr m s + 32 ≤ x → x < sector_ptr m s + 64 → p.mem x = m x := by
  obtain ⟨_, hg⟩ := bfs16_mkdir_post S N size host depth m s dir none none p h1 h2 hS32
    hS96 hN hsize hlb (by omega) (fun a ha => by cases ha) hrun
  obtain ⟨_, _, _, _, _, _, _, q8, _⟩ := hg hok
  rw [sector_ptr_eq m S s h1 (by omega)]
  exact q8 rfl

/-- Witness for C8: slot 1 of the root of the spec's example tree. -/
theorem bfs16_mkdir_root_slot1_untouched_witness :
    bfs16_mkdir 5120 demoHost 5 floppy10 1 demoRoot none none = .ok demoPacked ∧
    ∀ x, sector_ptr floppy10 1 + 32 ≤ x → x < sector_ptr floppy10 1 + 64 →
      demoPacked.mem x = floppy10 x := by
  have hrun : bfs16_mkdir 5120 demoHost 5 floppy10 1 demoRoot none none = .ok demoPacked := by
    set_option maxRecDepth 100000 in rfl
  exact ⟨hrun, bfs16_mkdir_root_slot1_untouched 512 10 5120 demoHost 5 floppy10 1 demoRoot
    demoPacked (by decide) (by decide) (by decide) (by decide) (by decide) (by decide)
    (by decide) (by decide) hrun (by set_option maxRecDepth 100000 in decide)⟩

theorem load32_store32 (m : Mem) (a v : Nat) :
    load32 (store32 m a v) a = v % 4294967296 := by
  simp only [load32, store32]
  simp
  omega

theorem load16_store16 (m : Mem) (a v : Nat) :
    load16 (store16 m a v) a = v % 65536 := by
  simp only [load16, store16]
  simp
  omega

/-- The header fields as `bfs_create` leaves them on success. -/
theorem bfs_create_fields (m : Mem) (size : Int) (S w : Nat)
    (h : (bfs_create m size S w).2 = SUCCESS) :
    hdr_word_size (bfs_create m size S w).1 = w % 256 ∧
    hdr_n_sectors (bfs_create m size S w).1 =
      Int.toNat (Int.emod (Int.tdiv size S) 4294967296) % 4294967296 ∧
    hdr_sector_size (bfs_create m size S w).1 = S % 65536 ∧
    hdr_mbr_magic (bfs_create m size S w).1 = 0xaa55 := by
  unfold bfs_create at h ⊢
  split_ifs at h ⊢ with h1 h2
  · simp [ERR_NODIVIS, SUCCESS] at h
  · simp [ERR_WORDSIZE, SUCCESS] at h
  · simp only [hdr_word_size, hdr_n_sectors, hdr_sector_size, hdr_mbr_magic, HDR]
    refine ⟨?_, ?_, ?_, ?_⟩
    · simp [load8, store16, store32, store8]
    · simp only [load32, store16, store32]
      simp
      omega
    · simp only [load16, store16]
      simp
      omega
    · simp only [load16, store16]
      simp

/-- C12, as stated, fails: `n_sectors` is a 32-bit unsigned field.  A size of
`2^32 * 512` bytes (a value of a 64-bit `long`) is divisible and gives
SUCCESS, but the stored count is 0, not `2^32`; a size of `-512` gives SUCCESS
and the stored count `2^32 - 1`, not `-1`. -/
theorem bfs_create_n_sectors_truncated :
    Int.tmod (4294967296 * 512) (512 : Nat) = 0 ∧
    (bfs_create zeroMem (4294967296 * 512) 512 16).2 = SUCCESS ∧
    hdr_n_sectors (bfs_create zeroMem (4294967296 * 512) 512 16).1 = 0 ∧
    Int.tdiv (4294967296 * 512) (512 : Nat) = 4294967296 ∧
    Int.tmod (-512) (512 : Nat) = 0 ∧
    (bfs_create zeroMem (-512) 512 16).2 = SUCCESS ∧
    hdr_n_sectors (bfs_create zeroMem (-512) 512 16).1 = 4294967295 ∧
    Int.tdiv (-512) (512 : Nat) = -1 := by
  refine ⟨by decide, by decide, ?_, by decide, by decide, by decide, ?_, by decide⟩
  · rfl
  · rfl

/-- C12, amended: for every buffer, every `total_size` from 0 up and every
non-zero `sector_size` with `total_size % sector_size == 0` and
`total_size / sector_size < 2^32`, `bfs_create` with word size 16 returns
SUCCESS and the header's stored `n_sectors` equals
`total_size / sector_size`. -/
theorem bfs_create_sector_count (m : Mem) (size : Int) (S : Nat)
    (hS : 0 < S) (h0 : 0 ≤ size) (hdiv : Int.tmod size S = 0)
    (hfit : Int.tdiv size S < 4294967296) :
    (bfs_create m size S 16).2 = SUCCESS ∧
    (hdr_n_sectors (bfs_create m size S 16).1 : Int) = Int.tdiv size S := by
  have hret : (bfs_create m size S 16).2 = SUCCESS := by
    unfold bfs_create
    rw [if_neg (by simpa using hdiv), if_neg (by simp)]
  refine ⟨hret, ?_⟩
  rw [(bfs_create_fields m size S 16 hret).2.1]
  have hq : 0 ≤ Int.tdiv size S := Int.tdiv_nonneg h0 (by positivity)
  have e1 : Int.emod (Int.tdiv size S) 4294967296 = Int.tdiv size S :=
    Int.emod_eq_of_lt hq hfit
  rw [e1]
  have e2 : ((Int.tdiv size S).toNat : Int) = Int.tdiv size S := Int.toNat_of_nonneg hq
  omega

theorem bfs_create_sector_count_witness :
    (bfs_create zeroMem 1474560 512 16).2 = SUCCESS ∧
    (hdr_n_sectors (bfs_create zeroMem 1474560 512 16).1 : Int) = Int.tdiv 1474560 (512 : Nat) :=
  bfs_create_sector_count zeroMem 1474560 512 (by decide) (by decide) (by decide) (by decide)

/-- C13: for every buffer, `total_size`, non-zero `sector_size` and
`word_size`, `bfs_create` returns ERR_NODIVIS exactly when
`total_size % sector_size != 0`, returns ERR_WORDSIZE exactly when the size is
divisible and the word size is neither 16 nor 32, and in both cases returns
the buffer as it was. -/
theorem bfs_create_failures (m : Mem) (size : Int) (S w : Nat) (_hS : 0 < S) :
    ((bfs_create m size S w).2 = ERR_NODIVIS ↔ Int.tmod size S ≠ 0) ∧
    ((bfs_create m size S w).2 = ERR_WORDSIZE ↔
      Int.tmod size S = 0 ∧ w ≠ 16 ∧ w ≠ 32) ∧
    ((bfs_create m size S w).2 = ERR_NODIVIS ∨ (bfs_create m size S w).2 = ERR_WORDSIZE →
      (bfs_create m size S w).1 = m) := by
  unfold bfs_create
  by_cases h1 : Int.tmod size S ≠ 0
  · rw [if_pos h1]
    simp [h1, ERR_NODIVIS, ERR_WORDSIZE]
  · rw [if_neg h1]
    by_cases h2 : w ≠ 16 ∧ w ≠ 32
    · rw [if_pos h2]
      have h1' : Int.tmod size S = 0 := not_not.mp h1
      simp [h1', h2, ERR_NODIVIS, ERR_WORDSIZE]
    · rw [if_neg h2]
      simp only [ERR_NODIVIS, ERR_WORDSIZE, SUCCESS]
      refine ⟨?_, ?_, ?_⟩
      · constructor
        · intro h; exact absurd h (by decide)
        · intro h; exact absurd h h1
      · constructor
        · intro h; exact absurd h (by decide)
        · intro h; exact absurd h.2 h2
      · rintro (h | h) <;> exact absurd h (by decide)

theorem bfs_create_failures_witness :
    ((bfs_create zeroMem 1000 512 16).2 = ERR_NODIVIS ↔ Int.tmod 1000 (512 : Nat) ≠ 0) ∧
    ((bfs_create zeroMem 1000 512 16).2 = ERR_WORDSIZE ↔
      Int.tmod 1000 (512 : Nat) = 0 ∧ 16 ≠ 16 ∧ 16 ≠ 32) ∧
    ((bfs_create zeroMem 1000 512 16).2 = ERR_NODIVIS ∨
        (bfs_create zeroMem 1000 512 16).2 = ERR_WORDSIZE →
      (bfs_create zeroMem 1000 512 16).1 = zeroMem) :=
  bfs_create_failures zeroMem 1000 512 16 (by decide)

/-- C14: `bfs_create` returns SUCCESS on the buffer of the driver
(1474560 bytes, 512-byte sectors, word size 16) and stores the word size, the
sector count, the sector size and the boot signature, but for every buffer
the three bytes of the field `bfs` (buffer bytes 500, 501 and 502) are after
the call what they were before it: the tag is never written, so two buffers
that differ there give two different tags. -/
theorem bfs_create_leaves_magic_tag_unwritten :
    (∀ m : Mem, (bfs_create m 1474560 512 16).2 = SUCCESS ∧
      hdr_word_size (bfs_create m 1474560 512 16).1 = 16 ∧
      hdr_n_sectors (bfs_create m 1474560 512 16).1 = 2880 ∧
      hdr_sector_size (bfs_create m 1474560 512 16).1 = 512 ∧
      hdr_mbr_magic (bfs_create m 1474560 512 16).1 = 0xaa55 ∧
      (bfs_create m 1474560 512 16).1 HDR = m HDR ∧
      (bfs_create m 1474560 512 16).1 (HDR + 1) = m (HDR + 1) ∧
      (bfs_create m 1474560 512 16).1 (HDR + 2) = m (HDR + 2)) ∧
    (bfs_create zeroMem 1474560 512 16).1 HDR = 0 ∧
    (bfs_create (storeBytes zeroMem HDR [66, 70, 83]) 1474560 512 16).1 HDR = 66 := by
  refine ⟨fun m => ?_, rfl, rfl⟩
  have hret : (bfs_create m 1474560 512 16).2 = SUCCESS := by
    unfold bfs_create
    rw [if_neg (by decide), if_neg (by decide)]
  obtain ⟨a, b, c, d⟩ := bfs_create_fields m 1474560 512 16 hret
  refine ⟨hret, a, ?_, c, d, ?_, ?_, ?_⟩
  · rw [b]; decide
  all_goals
    unfold bfs_create
    rw [if_neg (by decide), if_neg (by decide)]
    simp [store16, store32, store8, HDR]

/-- C15: the natural layout of `bfshdr_t` puts its fields at offsets 0, 3, 4,
8 and 10 and makes it 12 bytes long, so with the header at buffer offset 500
the signature field is bytes 510 and 511 and the header ends at byte 512; and
after every successful `bfs_create` byte 510 holds 0x55, byte 511 holds 0xAA,
and the field reads 0xAA55. -/
theorem bfs_create_boot_signature (m : Mem) (size : Int) (S w : Nat)
    (h : (bfs_create m size S w).2 = SUCCESS) :
    field_offsets 0 bfshdr_fields = [0, 3, 4, 8, 10] ∧
    struct_size bfshdr_fields = 12 ∧
    HDR + (field_offsets 0 bfshdr_fields).getD 4 0 = 510 ∧
    HDR + struct_size bfshdr_fields = 512 ∧
    (bfs_create m size S w).1 510 = 0x55 ∧
    (bfs_create m size S w).1 511 = 0xAA ∧
    hdr_mbr_magic (bfs_create m size S w).1 = 0xAA55 := by
  refine ⟨by decide, by decide, by decide, by decide, ?_, ?_,
    (bfs_create_fields m size S w h).2.2.2⟩
  all_goals
    unfold bfs_create at h ⊢
    split_ifs at h ⊢ with h1 h2
    · simp [ERR_NODIVIS, SUCCESS] at h
    · simp [ERR_WORDSIZE, SUCCESS] at h
    · simp [store16, HDR]

theorem bfs_create_boot_signature_witness :
    field_offsets 0 bfshdr_fields = [0, 3, 4, 8, 10] ∧
    struct_size bfshdr_fields = 12 ∧
    HDR + (field_offsets 0 bfshdr_fields).getD 4 0 = 510 ∧
    HDR + struct_size bfshdr_fields = 512 ∧
    (bfs_create zeroMem 1474560 512 16).1 510 = 0x55 ∧
    (bfs_create zeroMem 1474560 512 16).1 511 = 0xAA ∧
    hdr_mbr_magic (bfs_create zeroMem 1474560 512 16).1 = 0xAA55 :=
  bfs_create_boot_signature zeroMem 1474560 512 16 (by decide)

/-- C19, as stated, fails: `bfs_create` accepts a size of `2^33` bytes with
512-byte sectors (`2^24` sectors), and for the sector index `2^23`, below
`n_sectors`, the 32-bit product `512 * 2^23` wraps to 0, so `sector_ptr`
denotes offset 0 and not `2^23 * 512`. -/
theorem sector_ptr_wraps_on_large_image :
    (bfs_create zeroMem 8589934592 512 16).2 = SUCCESS ∧
    hdr_n_sectors (bfs_create zeroMem 8589934592 512 16).1 = 16777216 ∧
    8388608 < hdr_n_sectors (bfs_create zeroMem 8589934592 512 16).1 ∧
    sector_ptr (bfs_create zeroMem 8589934592 512 16).1 8388608 = 0 ∧
    sector_ptr (bfs_create zeroMem 8589934592 512 16).1 8388608 ≠ 8388608 * 512 := by
  refine ⟨by decide, rfl, by decide, rfl, by decide⟩

/-- C19, amended: for every header produced by a successful `bfs_create` with
a `total_size` between 0 and `2^32` and a non-zero `sector_size`, and every
sector index `i < n_sectors`, the product `sector_size * i` is below `2^32`
and `sector_ptr(header, i)` is buffer offset `i * sector_size`. -/
theorem sector_ptr_addresses_sector (m : Mem) (size : Int) (S w i : Nat)
    (hS : 0 < S) (hS16 : S < 65536) (h0 : 0 ≤ size) (hmax : size ≤ 4294967296)
    (h : (bfs_create m size S w).2 = SUCCESS)
    (hi : i < hdr_n_sectors (bfs_create m size S w).1) :
    hdr_sector_size (bfs_create m size S w).1 * i < 4294967296 ∧
    sector_ptr (bfs_create m size S w).1 i = i * S ∧
    sector_ptr (bfs_create m size S w).1 0 = 0 ∧
    sector_ptr (bfs_create m size S w).1 0 + 500 = HDR := by
  obtain ⟨-, b, c, -⟩ := bfs_create_fields m size S w h
  rw [b] at hi
  have hc : hdr_sector_size (bfs_create m size S w).1 = S := by
    rw [c]; exact Nat.mod_eq_of_lt hS16
  obtain ⟨n, rfl⟩ := Int.eq_ofNat_of_zero_le h0
  rw [← Int.ofNat_tdiv] at hi
  have hn : n ≤ 4294967296 := by exact_mod_cast hmax
  have hqn : n / S ≤ 4294967296 := (Nat.div_le_self n S).trans hn
  have e1 : Int.emod ((n / S : Nat) : Int) 4294967296 = ((n / S % 4294967296 : Nat) : Int) := by
    show ((n / S : Nat) : Int) % 4294967296 = _
    norm_cast
  rw [e1, Int.toNat_ofNat, Nat.mod_mod] at hi
  have hi2 : i < n / S := lt_of_lt_of_le hi (Nat.mod_le _ _)
  have hmul : S * i < 4294967296 := by
    have h1 : S * (i + 1) ≤ S * (n / S) := Nat.mul_le_mul_left S hi2
    have h2 : S * (n / S) ≤ n := Nat.mul_div_le n S
    have h3 : S * (i + 1) = S * i + S := by ring
    omega
  have hptr : ∀ j, S * j < 4294967296 → sector_ptr (bfs_create m (n : Int) S w).1 j = j * S := by
    intro j hj
    unfold sector_ptr
    rw [hc, Nat.mod_eq_of_lt hj, Nat.mul_comm]
    simp [HDR]
  refine ⟨by rw [hc]; exact hmul, hptr i hmul, ?_, ?_⟩
  · rw [hptr 0 (by omega)]; omega
  · rw [hptr 0 (by omega)]; simp [HDR]

theorem sector_ptr_addresses_sector_witness :
    hdr_sector_size (bfs_create zeroMem 1474560 512 16).1 * 2879 < 4294967296 ∧
    sector_ptr (bfs_create zeroMem 1474560 512 16).1 2879 = 2879 * 512 ∧
    sector_ptr (bfs_create zeroMem 1474560 512 16).1 0 = 0 ∧
    sector_ptr (bfs_create zeroMem 1474560 512 16).1 0 + 500 = HDR :=
  sector_ptr_addresses_sector zeroMem 1474560 512 16 2879 (by decide) (by decide) (by decide)
    (by decide) (by decide) (by decide)

/-- C16: for every header whose word size is not 16, `bfs_mkdir` returns
ERR_WORDSIZE with the image as it was and no call made, whatever the host and
the directory stream are; for word size 16 it returns what `bfs16_mkdir`
returns on the same arguments. -/
theorem bfs_mkdir_dispatch (size : Nat) (host : Host) (depth : Nat) (m : Mem) (s : Nat)
    (dir : DIR) (parent pe : Option Nat) :
    (hdr_word_size m ≠ 16 → ∀ (host2 : Host) (dir2 : DIR),
      bfs_mkdir size host2 depth m s dir2 parent pe = .ok ⟨m, ERR_WORDSIZE, [], []⟩) ∧
    (hdr_word_size m = 16 →
      bfs_mkdir size host depth m s dir parent pe =
        bfs16_mkdir size host depth m s dir parent pe) := by
  constructor
  · intro h host2 dir2
    unfold bfs_mkdir
    rw [if_neg h]
  · intro h
    unfold bfs_mkdir
    rw [if_pos h]

theorem bfs_mkdir_dispatch_witness :
    (bfs_create zeroMem (10 * 512) 512 32).2 = SUCCESS ∧
    hdr_word_size floppy10w32 = 32 ∧
    bfs_mkdir 5120 demoHost 5 floppy10w32 1 demoRoot none none =
      .ok ⟨floppy10w32, ERR_WORDSIZE, [], []⟩ ∧
    hdr_word_size floppy10 = 16 ∧
    bfs_mkdir 5120 demoHost 5 floppy10 1 demoRoot none none =
      bfs16_mkdir 5120 demoHost 5 floppy10 1 demoRoot none none :=
  ⟨by decide, by decide,
    (bfs_mkdir_dispatch 5120 emptyHost 5 floppy10w32 1 demoRoot none none).1 (by decide)
      demoHost demoRoot,
    by decide,
    (bfs_mkdir_dispatch 5120 demoHost 5 floppy10 1 demoRoot none none).2 (by decide)⟩

/-! ## The threshold of the file packer -/

/-- C20, as stated, fails: packed at sector 0 of a ten-sector image, a
513-byte file whose first sector puts `n_sectors = 1` in the header's place is
refused with ERR_NOSPACE although 513 is below `(10 - 0) * 512`. -/
theorem bfs16_mkfile_short_file_refused :
    hdr_sector_size floppy10 = 512 ∧ hdr_n_sectors floppy10 = 10 ∧
    shrinkingFile.length = 513 ∧
    ¬ ((10 - 0) * 512 ≤ shrinkingFile.length) ∧
    (bfs16_mkfile floppy10 0 (openFile shrinkingFile) 2000).map (fun r => r.2)
      = some ERR_NOSPACE := by
  refine ⟨by decide, by decide, ?_, ?_, ?_⟩
  · set_option maxRecDepth 100000 in rfl
  · set_option maxRecDepth 100000 in decide
  · set_option maxRecDepth 100000 in rfl

/-- C20, amended: for every header with non-zero sector_size `S` and
`n_sectors * S ≤ 2^32`, every start_sector whose sectors up to the end of the
image lie past the header (`S * start_sector ≥ 512` when
`start_sector < n_sectors`) and every host file of length `L` read without
I/O error, `bfs16_mkfile` returns, and what it returns is ERR_NOSPACE if and
only if `L ≥ (n_sectors - start_sector) * S` (the difference taken as 0 when
`start_sector ≥ n_sectors`). -/
theorem bfs16_mkfile_exact_fit_threshold (m : Mem) (S N s e : Nat) (data : List Nat)
    (h1 : hdr_sector_size m = S) (h2 : hdr_n_sectors m = N) (hS : 0 < S)
    (hNS : N * S ≤ 4294967296) (hhdr : s < N → 512 ≤ S * s) :
    ∃ m' r, bfs16_mkfile m s (openFile data) e = some (m', r) ∧
      (r = ERR_NOSPACE ↔ (N - s) * S ≤ data.length) := by
  by_cases hbig : (N - s) * S ≤ data.length
  · exact ⟨_, _, bfs16_mkfile_nospace m S N s e data h1 h2 hS hNS hbig hhdr,
      iff_of_true rfl hbig⟩
  · have hlt : data.length < (N - s) * S := not_le.mp hbig
    have hq : data.length / S < N - s := (Nat.div_lt_iff_lt_mul hS).mpr hlt
    have hsN : s < N := Nat.lt_of_sub_pos (Nat.zero_lt_of_lt hq)
    have hh := hhdr hsN
    have hfit : s + data.length / S < N := by
      generalize data.length / S = q at hq
      omega
    refine ⟨_, _, bfs16_mkfile_fits m S N s e data h1 h2 hS hNS hfit hh,
      iff_of_false ?_ hbig⟩
    generalize data.length / S = q at hq hfit
    have hs1 : 1 ≤ s := by
      rcases Nat.eq_zero_or_pos s with h | h
      · subst h; simp at hh
      · exact h
    have hN : N ≤ 4294967296 := le_trans (Nat.le_mul_of_pos_right N hS) hNS
    have hmod : (q + 1) % 4294967296 = q + 1 := Nat.mod_eq_of_lt (by omega)
    unfold toS32
    rw [hmod]
    intro hr
    rcases Nat.lt_or_ge S 2 with hS2 | hS2
    · have hS1 : S = 1 := by omega
      subst hS1
      simp only [ERR_NOSPACE] at hr
      split_ifs at hr
      all_goals omega
    · have hN2 : N * 2 ≤ N * S := Nat.mul_le_mul_left N hS2
      simp only [ERR_NOSPACE] at hr
      split_ifs at hr
      all_goals omega

theorem bfs16_mkfile_exact_fit_threshold_witness :
    ∃ m' r, bfs16_mkfile floppy10 9 (openFile (List.replicate 512 7)) 1000 = some (m', r) ∧
      (r = ERR_NOSPACE ↔ (10 - 9) * 512 ≤ (List.replicate 512 7).length) :=
  bfs16_mkfile_exact_fit_threshold floppy10 512 10 9 1000 (List.replicate 512 7)
    (by decide) (by decide) (by decide) (by decide) (by decide)

/-! ## The end of the image -/

/-- C17: in a two-sector image (sector_size 512, word size 16) the root
packed at sector 1, below `n_sectors`, with one empty subdirectory, packs that
subdirectory at sector 2 = `n_sectors` and stores its slot `.` at byte 1024,
the end of the image: in a buffer of exactly 1024 bytes the store leaves the
buffer; in a longer buffer the call succeeds, returns 2, so that
`start_sector + r = 3 > n_sectors`, and bytes 1024 and 1048 (sector 2) have
changed. -/
theorem bfs16_mkdir_writes_past_last_sector :
    hdr_sector_size twoSector = 512 ∧ hdr_word_size twoSector = 16 ∧
    hdr_n_sectors twoSector = 2 ∧ 1 < hdr_n_sectors twoSector ∧
    bfs16_mkdir 1024 oneDirHost 5 twoSector 1 oneDirRoot none none = .error .oob ∧
    bfs_mkdir 1024 oneDirHost 5 twoSector 1 oneDirRoot none none = .error .oob ∧
    bfs16_mkdir 2048 oneDirHost 5 twoSector 1 oneDirRoot none none = .ok overrunPacked ∧
    overrunPacked.ret = 2 ∧ ¬ (1 + overrunPacked.ret ≤ hdr_n_sectors twoSector) ∧
    overrunPacked.dirs = [(1, none), (2, some 576)] ∧
    twoSector 1024 = 0 ∧ overrunPacked.mem 1024 = 46 ∧
    ent_start twoSector 1024 = 0 ∧ ent_start overrunPacked.mem 1024 = 2 ∧
    hdr_n_sectors overrunPacked.mem * 512 ≤ 1024 := by
  refine ⟨by decide, by decide, by decide, by decide, ?_, ?_, ?_, ?_, ?_, ?_, ?_, ?_, ?_, ?_, ?_⟩
  all_goals first
    | (set_option maxRecDepth 100000 in rfl)
    | (set_option maxRecDepth 100000 in decide)

/-! ## The second pass stops at the first failure -/

/-- The function `bfs16_mkdir` is `mkdir_start` followed by the second pass. -/
theorem bfs16_mkdir_unfold (size : Nat) (host : Host) (depth : Nat) (m : Mem) (s : Nat)
    (dir : DIR) (parent pe : Option Nat) :
    bfs16_mkdir size host (depth + 1) m s dir parent pe =
      match mkdir_start size m s dir parent pe with
      | .error f => .error f
      | .ok (.inl (m1, code)) => .ok ⟨m1, code, [], []⟩
      | .ok (.inr (w0, n)) =>
        match mkdir_children size host dir.fd (sector_ptr m s) (bfs16_mkdir size host depth)
            (n - 2) (sector_ptr m s + 2 * DIRENT_SIZE) w0 with
        | .error f => .error f
        | .ok w =>
          match w.err with
          | some code => .ok ⟨w.mem, code, w.kids, w.dirs⟩
          | none =>
            .ok ⟨w.mem, toS32 ((w.sector + 4294967296 - s) % 4294967296), w.kids, w.dirs⟩ := by
  rw [bfs16_mkdir]
  unfold mkdir_start
  simp only []
  generalize mkdir_list size (eff_sector_size m) dir.pending m
    (sector_ptr m s + 2 * DIRENT_SIZE) s 2 = r
  rcases r with f | ⟨m1, (⟨sec, n⟩ | code)⟩
  · rfl
  · simp only []
    by_cases hsz : size < sector_ptr m s + DIRENT_SIZE
    · simp only [if_pos hsz]
    · simp only [if_neg hsz]
      generalize backpatch size _ (sector_ptr m s) pe = r3
      rcases r3 with f | m3
      · rfl
      · simp only []
        generalize fill_dotdot size m3 (sector_ptr m s) parent = r4
        rcases r4 with f | m4
        · rfl
        · rfl
  · rfl

/-- A round of the second pass whose call gives a negative value ends the
pass with that value as the error code and the memory the call left. -/
theorem mkdir_children_fail (size : Nat) (host : Host) (fd start : Nat)
    (recurse : Mem → Nat → DIR → Option Nat → Option Nat → Except Fault Packed)
    (count entry : Nat) (w : Walk) (mk : Mem) (e : Int)
    (hcall : child_call size host fd start recurse entry w = .ok (mk, e)) (he : e < 0) :
    mkdir_children size host fd start recurse (count + 1) entry w =
      .ok { w with mem := mk, err := some e } := by
  simp only [mkdir_children]
  unfold child_call at hcall
  generalize readCStr w.mem size size entry = rn at hcall ⊢
  rcases rn with f | name
  · cases hcall
  · simp only [] at hcall ⊢
    by_cases hd : host.isdir name = true
    · simp only [hd, if_true] at hcall ⊢
      generalize host.opendirat fd name = od at hcall ⊢
      rcases od with _ | dir
      · simp only [] at hcall ⊢
        injection hcall with hcall
        injection hcall with ha hb
        subst ha; subst hb
        rfl
      · simp only [] at hcall ⊢
        generalize recurse w.mem w.sector dir (some start) (some entry) = rp at hcall ⊢
        rcases rp with f | p
        · cases hcall
        · simp only [] at hcall ⊢
          injection hcall with hcall
          injection hcall with ha hb
          subst ha; subst hb
          rw [if_pos he]
    · have hd' : host.isdir name = false := by simpa using hd
      simp only [hd', Bool.false_eq_true, if_false] at hcall ⊢
      generalize host.fopenat fd name = ofile at hcall ⊢
      rcases ofile with _ | file
      · simp only [] at hcall ⊢
        injection hcall with hcall
        injection hcall with ha hb
        subst ha; subst hb
        rfl
      · simp only [] at hcall ⊢
        generalize bfs16_mkfile w.mem w.sector file entry = rf at hcall ⊢
        rcases rf with _ | ⟨m1, adv⟩
        · cases hcall
        · simp only [] at hcall ⊢
          injection hcall with hcall
          injection hcall with ha hb
          subst ha; subst hb
          rw [if_pos he]

/-- A second pass of `j + c` rounds whose first `j` rounds succeed goes on
from the state those `j` rounds reach, at slot `j`; that state records `j`
more calls. -/
theorem mkdir_children_prefix (size : Nat) (host : Host) (fd start : Nat)
    (recurse : Mem → Nat → DIR → Option Nat → Option Nat → Except Fault Packed) (c : Nat) :
    ∀ (j entry : Nat) (w wj : Walk),
      mkdir_children size host fd start recurse j entry w = .ok wj → wj.err = none →
      mkdir_children size host fd start recurse (j + c) entry w =
        mkdir_children size host fd start recurse c (entry + DIRENT_SIZE * j) wj ∧
      wj.kids.length = w.kids.length + j := by
  intro j
  induction j with
  | zero =>
    intro entry w wj h _
    simp only [mkdir_children] at h
    injection h with h
    subst h
    simp
  | succ j ih =>
    intro entry w wj h hok
    have hnext : entry + DIRENT_SIZE * (j + 1) = entry + DIRENT_SIZE + DIRENT_SIZE * j := by
      simp only [DIRENT_SIZE]; omega
    rw [Nat.add_right_comm j 1 c, hnext]
    simp only [mkdir_children] at h ⊢
    generalize readCStr w.mem size size entry = rn at h ⊢
    rcases rn with f | name
    · cases h
    · simp only [] at h ⊢
      by_cases hd : host.isdir name = true
      · simp only [hd, if_true] at h ⊢
        generalize host.opendirat fd name = od at h ⊢
        rcases od with _ | dir
        · simp only [] at h
          injection h with h
          subst h
          cases hok
        · simp only [] at h ⊢
          generalize recurse w.mem w.sector dir (some start) (some entry) = rp at h ⊢
          rcases rp with f | p
          · cases h
          · simp only [] at h ⊢
            by_cases hneg : p.ret < 0
            · rw [if_pos hneg] at h
              injection h with h
              subst h
              cases hok
            · rw [if_neg hneg] at h ⊢
              obtain ⟨a, b⟩ := ih _ _ wj h hok
              refine ⟨a, ?_⟩
              rw [b]
              simp only [List.length_append, List.length_singleton]
              omega
      · have hd' : host.isdir name = false := by simpa using hd
        simp only [hd', Bool.false_eq_true, if_false] at h ⊢
        generalize host.fopenat fd name = ofile at h ⊢
        rcases ofile with _ | file
        · simp only [] at h
          injection h with h
          subst h
          cases hok
        · simp only [] at h ⊢
          generalize bfs16_mkfile w.mem w.sector file entry = rf at h ⊢
          rcases rf with _ | ⟨m1, adv⟩
          · cases h
          · simp only [] at h ⊢
            by_cases hneg : adv < 0
            · rw [if_pos hneg] at h
              injection h with h
              subst h
              cases hok
            · rw [if_neg hneg] at h ⊢
              obtain ⟨a, b⟩ := ih _ _ wj h hok
              refine ⟨a, ?_⟩
              rw [b]
              simp only [List.length_append, List.length_singleton]
              omega

/-- The state in which a second pass starts has no call recorded yet. -/
theorem mkdir_start_kids (size : Nat) (m : Mem) (s : Nat) (dir : DIR)
    (parent pe : Option Nat) (w0 : Walk) (n : Nat)
    (h0 : mkdir_start size m s dir parent pe = .ok (.inr (w0, n))) :
    w0.kids = [] ∧ w0.err = none ∧ w0.dirs = [(s, pe)] := by
  unfold mkdir_start at h0
  simp only [] at h0
  generalize mkdir_list size (eff_sector_size m) dir.pending m
    (sector_ptr m s + 2 * DIRENT_SIZE) s 2 = r at h0
  rcases r with f | ⟨m1, (⟨sec, n1⟩ | code)⟩
  · cases h0
  · simp only [] at h0
    by_cases hsz : size < sector_ptr m s + DIRENT_SIZE
    · simp only [if_pos hsz] at h0
      cases h0
    · simp only [if_neg hsz] at h0
      generalize backpatch size _ (sector_ptr m s) pe = r3 at h0
      rcases r3 with f | m3
      · cases h0
      · simp only [] at h0
        generalize fill_dotdot size m3 (sector_ptr m s) parent = r4 at h0
        rcases r4 with f | m4
        · cases h0
        · simp only [] at h0
          injection h0 with h0
          injection h0 with h0
          injection h0 with h0 h1
          subst h0
          exact ⟨rfl, rfl, rfl⟩
  · cases h0

/-- C11: for every directory whose listing pass completed with `n` entries, if
the calls for its first `j` children succeed (the second pass run for `j`
rounds reaches `wj` without an error code) and the call for the next child
gives a negative value `e` and leaves memory `mk`, then `bfs16_mkdir` returns
exactly `e`; the image it leaves is `mk`, byte for byte what the failing
call left, so no field of a later slot and no sector is written after it;
and the calls it made are those for the first `j` children only. -/
theorem bfs16_mkdir_fail_fast (size : Nat) (host : Host) (depth : Nat) (m : Mem) (s : Nat)
    (dir : DIR) (parent pe : Option Nat) (w0 wj : Walk) (n j : Nat) (mk : Mem) (e : Int)
    (h0 : mkdir_start size m s dir parent pe = .ok (.inr (w0, n)))
    (hj : j < n - 2)
    (hpre : mkdir_children size host dir.fd (sector_ptr m s) (bfs16_mkdir size host depth) j
      (sector_ptr m s + 2 * DIRENT_SIZE) w0 = .ok wj)
    (hok : wj.err = none)
    (hcall : child_call size host dir.fd (sector_ptr m s) (bfs16_mkdir size host depth)
      (sector_ptr m s + 2 * DIRENT_SIZE + DIRENT_SIZE * j) wj = .ok (mk, e))
    (he : e < 0) :
    ∃ p, bfs16_mkdir size host (depth + 1) m s dir parent pe = .ok p ∧
      p.ret = e ∧ p.mem = mk ∧ p.kids = wj.kids ∧ p.kids.length = j := by
  obtain ⟨c, hc⟩ : ∃ c, n - 2 = j + (c + 1) := ⟨n - 2 - j - 1, by omega⟩
  obtain ⟨hrun, hlen⟩ := mkdir_children_prefix size host dir.fd (sector_ptr m s)
    (bfs16_mkdir size host depth) (c + 1) j _ w0 wj hpre hok
  rw [mkdir_children_fail size host dir.fd (sector_ptr m s) (bfs16_mkdir size host depth)
    c _ wj mk e hcall he] at hrun
  rw [(mkdir_start_kids size m s dir parent pe w0 n h0).1] at hlen
  refine ⟨⟨mk, e, wj.kids, wj.dirs⟩, ?_, rfl, rfl, rfl, by simpa using hlen⟩
  rw [bfs16_mkdir_unfold, h0]
  simp only []
  rw [hc, hrun]

theorem bfs16_mkdir_fail_fast_witness :
    ∃ p, bfs16_mkdir 5120 failHost 5 floppy10 1 failRoot none none = .ok p ∧
      p.ret = ERR_LONGNAME ∧ p.mem = failMem ∧ p.kids = failBefore.kids ∧
      p.kids.length = 1 :=
  bfs16_mkdir_fail_fast 5120 failHost 4 floppy10 1 failRoot none none failStart failBefore
    5 1 failMem ERR_LONGNAME
    (by set_option maxRecDepth 100000 in rfl) (by decide)
    (by set_option maxRecDepth 100000 in rfl) (by set_option maxRecDepth 100000 in rfl)
    (by set_option maxRecDepth 100000 in rfl) (by decide)

/-! ## The footprint of a listing -/

/-- What a completed listing pass counted: one entry for each name kept, and
one sector for each multiple of the sector's capacity among the counts it
went through (in 32-bit arithmetic). -/
theorem mkdir_list_counts (size S : Nat) :
    ∀ (names : List (List Nat)) (m : Mem) (entry sector n : Nat) (m1 : Mem)
      (sector' n' : Nat), sector < 4294967296 →
      mkdir_list size S names m entry sector n = .ok (m1, .done sector' n') →
      n' = n + (real_names names).length ∧ sector' < 4294967296 ∧
      (sector' + n / (S / 32)) % 4294967296 = (sector + n' / (S / 32)) % 4294967296 := by
  intro names
  induction names with
  | nil =>
    intro m entry sector n m1 sector' n' hs hrun
    simp only [mkdir_list] at hrun
    injection hrun with hrun
    injection hrun with _ hr
    injection hr with ha hb
    subst ha; subst hb
    simp [real_names, hs]
  | cons name rest ih =>
    intro m entry sector n m1 sector' n' hs hrun
    simp only [mkdir_list] at hrun
    split at hrun
    · rename_i hdot
      obtain ⟨a, b, c⟩ := ih m entry sector n m1 sector' n' hs hrun
      refine ⟨?_, b, c⟩
      rw [a]
      have hc : ¬ (¬name = [46] ∧ ¬name = [46, 46]) := by tauto
      simp [real_names, List.filter_cons, hc]
    · rename_i hdot
      have hreal : (real_names (name :: rest)).length = (real_names rest).length + 1 := by
        have hc : ¬name = [46] ∧ ¬name = [46, 46] := by tauto
        simp [real_names, List.filter_cons, hc]
      split at hrun
      · injection hrun with hrun
        injection hrun with _ hr
        cases hr
      · split at hrun
        · cases hrun
        · split at hrun
          · cases hrun
          · have hc := listed_counts (S / 32) n
            simp only [DIRENT_SIZE] at hrun
            split at hrun
            · rename_i hz
              rw [if_pos hz] at hc
              split at hrun
              · injection hrun with hrun
                injection hrun with _ hr
                cases hr
              · obtain ⟨a, b, c⟩ := ih _ _ _ _ m1 sector' n'
                  (Nat.mod_lt _ (by norm_num)) hrun
                refine ⟨by omega, b, ?_⟩
                rw [hc] at c
                omega
            · rename_i hz
              rw [if_neg hz] at hc
              obtain ⟨a, b, c⟩ := ih _ _ _ _ m1 sector' n' hs hrun
              refine ⟨by omega, b, ?_⟩
              rw [hc] at c
              simpa using c

/-- The back-patch changes only the four fields of the parent's slot. -/
theorem backpatch_other (size : Nat) (m m3 : Mem) (lb : Nat) (pe : Option Nat)
    (h : backpatch size m lb pe = .ok m3) :
    ∀ x, (∀ a, pe = some a → x < a + 24 ∨ a + 32 ≤ x) → m3 x = m x := by
  intro x hx
  cases pe with
  | none =>
    simp only [backpatch] at h
    injection h with h
    rw [h]
  | some a =>
    simp only [backpatch] at h
    split at h
    · cases h
    · injection h with h
      rw [← h]
      exact ent_copy_other m a lb x (hx a rfl)

/-- C18, as stated, fails: with 64-byte sectors a directory with one child
records `sectors = 1` and `bytes_rem = 96` in slot `.`, where
`ceil(32 * 3 / 64) = 2` and `(32 * 3) mod 64 = 32`; the three entry records
(96 bytes from byte 512) do not fit in the one recorded sector, and the
child's content goes to sector 9 (byte 576), over the third record. -/
theorem bfs16_mkdir_small_sector_footprint :
    hdr_sector_size image64 = 64 ∧
    (real_names oneFileRoot.pending).length = 1 ∧
    bfs16_mkdir 1280 oneFileHost 5 image64 8 oneFileRoot none none = .ok smallSectorPacked ∧
    smallSectorPacked.ret = 2 ∧
    ent_sectors smallSectorPacked.mem (64 * 8) = 1 ∧ (32 * (1 + 2) + 64 - 1) / 64 = 2 ∧
    ent_bytes_rem smallSectorPacked.mem (64 * 8) = 96 ∧ (32 * (1 + 2)) % 64 = 32 ∧
    ¬ (32 * (1 + 2) ≤ ent_sectors smallSectorPacked.mem (64 * 8) * 64) ∧
    smallSectorPacked.kids = [⟨[97], false, 9, 576, 1⟩] ∧
    64 * 9 < 64 * 8 + 32 * (1 + 2) ∧
    smallSectorPacked.mem 576 = 1 := by
  refine ⟨by decide, by decide, ?_, ?_, ?_, by decide, ?_, by decide, ?_, ?_, by decide, ?_⟩
  all_goals first
    | (set_option maxRecDepth 100000 in rfl)
    | (set_option maxRecDepth 100000 in decide)

/-- C18, amended: for every sector_size `S` that is a multiple of 32 and at
least 96, every start_sector whose first sector lies past the header
(`S * start_sector ≥ 512`) and every directory with `c` children whose
listing pass completes (without a store outside the buffer), where
`ceil(32*(c+2)/S)` fits the 16-bit field, the byte offset of the sector after
the listing is below `2^32`, the parent's slot does not overlap slot `.` and
its four fields do not overlap the header, `bfs16_mkdir` has recorded in slot
`.`, when its second pass starts, `sectors = ceil(32*(c+2)/S)` and
`bytes_rem = (32*(c+2)) mod S`; the `c+2` records, written from byte
`S * start_sector`, fit in the recorded sectors; the header still holds the
sector size `S`; and the second pass starts at sector `start_sector + sectors`,
whose address, as `sector_ptr` computes it from the header at that moment,
is `S * (start_sector + sectors)`, at or after the end of the last record. -/
theorem bfs16_mkdir_listing_footprint (size : Nat) (host : Host) (depth : Nat) (m : Mem)
    (s : Nat) (dir : DIR) (parent pe : Option Nat) (w0 : Walk) (n S c : Nat)
    (h1 : hdr_sector_size m = S) (hS32 : S % 32 = 0) (hS96 : 96 ≤ S)
    (hlb : 512 ≤ S * s)
    (hc : (real_names dir.pending).length = c)
    (hnw : S * (s + (32 * (c + 2) + S - 1) / S) < 4294967296)
    (h0 : mkdir_start size m s dir parent pe = .ok (.inr (w0, n)))
    (hpe : ∀ a, pe = some a →
      (a + 32 ≤ S * s ∨ S * s + 32 ≤ a) ∧ (a + 32 ≤ 500 ∨ 512 ≤ a + 24))
    (hfit : (32 * (c + 2) + S - 1) / S ≤ 65535) :
    n = c + 2 ∧
    sector_ptr m s = S * s ∧
    hdr_sector_size w0.mem = S ∧
    ent_sectors w0.mem (S * s) = (32 * (c + 2) + S - 1) / S ∧
    ent_bytes_rem w0.mem (S * s) = (32 * (c + 2)) % S ∧
    32 * (c + 2) ≤ ent_sectors w0.mem (S * s) * S ∧
    w0.sector = s + ent_sectors w0.mem (S * s) ∧
    sector_ptr w0.mem w0.sector = S * (s + ent_sectors w0.mem (S * s)) ∧
    sector_ptr m s + 32 * (c + 2) ≤ sector_ptr w0.mem w0.sector ∧
    bfs16_mkdir size host (depth + 1) m s dir parent pe =
      (match mkdir_children size host dir.fd (S * s) (bfs16_mkdir size host depth)
          c (S * s + 2 * DIRENT_SIZE) w0 with
        | .error f => .error f
        | .ok w =>
          match w.err with
          | some code => .ok ⟨w.mem, code, w.kids, w.dirs⟩
          | none =>
            .ok ⟨w.mem, toS32 ((w.sector + 4294967296 - s) % 4294967296), w.kids, w.dirs⟩) := by
  have hS0 : 0 < S := by omega
  have hS16 : S < 65536 := h1 ▸ hdr_sector_size_lt m
  obtain ⟨k, hk⟩ : ∃ k, S = 32 * k := ⟨S / 32, by omega⟩
  have hk3 : 3 ≤ k := by omega
  have hk0 : 0 < k := by omega
  have hdivk : S / 32 = k := by omega
  have heff : eff_sector_size m = S := by
    simp only [eff_sector_size, h1, if_neg (Nat.pos_iff_ne_zero.mp hS0)]
  have hceil := listing_sectors_eq_ceil S c hS32 hS0
  rw [hdivk] at hceil
  rw [← hceil] at hfit hnw ⊢
  have hsum : s + listing_sectors k c ≤ S * (s + listing_sectors k c) :=
    Nat.le_mul_of_pos_left _ hS0
  have hs : s < 4294967296 := by omega
  have hmul : S * s < 4294967296 :=
    lt_of_le_of_lt (Nat.mul_le_mul_left S (Nat.le_add_right s _)) hnw
  have hptr : sector_ptr m s = S * s := by
    simp only [sector_ptr, h1, HDR, Nat.sub_self, Nat.zero_add, Nat.mod_eq_of_lt hmul]
  rw [hptr]
  have hunf := bfs16_mkdir_unfold size host depth m s dir parent pe
  rw [h0] at hunf
  simp only [] at hunf
  unfold mkdir_start at h0
  simp only [heff, hptr] at h0
  rw [hptr] at hunf
  have hm4S : ∀ m4 : Mem, m4 508 = m 508 → m4 509 = m 509 → hdr_sector_size m4 = S := by
    intro m4 e1 e2
    rw [← h1]
    simp only [hdr_sector_size, HDR]
    exact load16_congr m m4 508 e1 e2
  have hsp : ∀ (m4 : Mem) (i : Nat), hdr_sector_size m4 = S → S * i < 4294967296 →
      sector_ptr m4 i = S * i := by
    intro m4 i e hi
    simp only [sector_ptr, e, HDR, Nat.sub_self, Nat.zero_add, Nat.mod_eq_of_lt hi]
  clear hptr hmul
  generalize hlbdef : S * s = lb at h0 hpe hunf hlb ⊢
  generalize hl : mkdir_list size S dir.pending m (lb + 2 * DIRENT_SIZE) s 2 = r at h0
  rcases r with f | ⟨m1, (⟨sec, n1⟩ | code)⟩
  · cases h0
  · obtain ⟨ln, lsec_lt, lsec⟩ := mkdir_list_counts size S _ _ _ _ _ _ _ _ hs hl
    rw [hdivk, Nat.div_eq_of_lt (by omega : 2 < k), Nat.add_zero,
      Nat.mod_eq_of_lt lsec_lt] at lsec
    rw [hc] at ln
    subst ln
    simp only [] at h0
    obtain ⟨ar1, ar2, ar3⟩ := listing_arith k (2 + c) hk0
    have hmodlt := Nat.mod_lt (2 + c) hk0
    have hls : listing_sectors k c = (2 + c + k - 1) / k := by
      unfold listing_sectors
      rw [show c + 2 = 2 + c by omega]
    rw [hls] at hfit hnw hsum ⊢
    rw [ar2] at hfit hnw hsum ⊢
    have hq : (2 + c) / k ≤ 65535 := by omega
    have hn0 : (sec + 4294967296 - s) % 4294967296 = (2 + c) / k := by
      rw [lsec]
      generalize (2 + c) / k = q at hq
      omega
    have hbr : wrapS32 ((((2 + c) * 32 : Nat) : Int) - (((2 + c) / k * S : Nat) : Int))
        = ((32 * ((2 + c) % k) : Nat) : Int) := by
      rw [hk, ar1]
      exact wrapS32_small _ (by omega) (by omega)
    simp only [DIRENT_SIZE] at h0
    rw [hn0] at h0
    simp only [hbr] at h0
    have hite : ∀ (a b : Nat), (if ((32 * ((2 + c) % k) : Nat) : Int) ≠ 0 then a else b)
        = if (2 + c) % k = 0 then b else a := by
      intro a b
      by_cases h : (2 + c) % k = 0
      · rw [if_pos h, if_neg (by omega)]
      · rw [if_neg h, if_pos (by omega)]
    simp only [hite] at h0
    have hC : (((32 * ((2 + c) % k) : Nat) : Int) % 65536).toNat = 32 * ((2 + c) % k) := by
      omega
    rw [hC] at h0
    have hA : (if (2 + c) % k = 0 then (2 + c) / k else ((2 + c) / k + 1) % 4294967296)
        = (2 + c) / k + (if (2 + c) % k = 0 then 0 else 1) := by
      by_cases h : (2 + c) % k = 0
      · rw [if_pos h, if_pos h]; omega
      · rw [if_neg h, if_neg h, Nat.mod_eq_of_lt (by omega)]
    have hB : (if (2 + c) % k = 0 then sec else (sec + 1) % 4294967296)
        = (s + ((2 + c) / k + (if (2 + c) % k = 0 then 0 else 1))) % 4294967296 := by
      rw [lsec]
      generalize (2 + c) / k = q at hq
      by_cases h : (2 + c) % k = 0
      · rw [if_pos h, if_pos h]; omega
      · rw [if_neg h, if_neg h]; omega
    rw [hA, hB] at h0
    generalize hlsdef : (2 + c) / k + (if (2 + c) % k = 0 then 0 else 1) = ls at h0 hfit hnw hsum hA hB ⊢
    have hrec : 32 * (c + 2) ≤ ls * S := by
      rw [hk, ← hlsdef, ← ar2]
      have := Nat.mul_le_mul_left 32 ar3
      calc 32 * (c + 2) = 32 * (2 + c) := by ring
        _ ≤ 32 * (k * ((2 + c + k - 1) / k)) := this
        _ = (2 + c + k - 1) / k * (32 * k) := by ring
    have hmodS : (32 * (c + 2)) % S = 32 * ((2 + c) % k) := by
      rw [hk, Nat.mul_mod_mul_left, show c + 2 = 2 + c by omega]
    clear hA hB hite hC ar1 ar2 hbr hn0
    by_cases hsz : size < lb + 32
    · rw [if_pos hsz] at h0
      cases h0
    · rw [if_neg hsz] at h0
      generalize hm2 : ent_set (storeBytes m1 lb [46, 0]) lb s ls (32 * ((2 + c) % k))
        BFS_DIR = m2 at h0
      obtain ⟨-, f2, f3, -⟩ := ent_get_set (storeBytes m1 lb [46, 0]) lb s ls
        (32 * ((2 + c) % k)) BFS_DIR
      rw [hm2] at f2 f3
      rw [Nat.mod_eq_of_lt (by omega)] at f2 f3
      generalize hbp : backpatch size m2 lb pe = r3 at h0
      rcases r3 with f | m3
      · cases h0
      · simp only [] at h0
        generalize hdd : fill_dotdot size m3 lb parent = r4 at h0
        rcases r4 with f | m4
        · cases h0
        · simp only [] at h0
          injection h0 with h0
          injection h0 with h0
          injection h0 with hw hn
          subst hw
          have m3o := backpatch_other size m2 m3 lb pe hbp
          obtain ⟨m4o, -⟩ := fill_dotdot_spec size m3 m4 lb parent hdd
          have hfields := ent_fields_congr m2 m4 lb (fun x hx1 hx2 => by
            rw [m4o x (by omega)]
            exact m3o x (fun a ha => by have := hpe a ha; omega))
          have lf := mkdir_list_frame size S _ _ _ _ _ _ _ hl
          simp only [DIRENT_SIZE] at lf
          have low : ∀ x, 500 ≤ x → x < 512 → m4 x = m x := by
            intro x hx1 hx2
            rw [m4o x (by omega), m3o x (fun a ha => by have := hpe a ha; omega),
              ← hm2, dot_write_other _ _ _ _ _ _ _ (by omega), lf x (by omega)]
          have h4S := hm4S m4 (low 508 (by omega) (by omega)) (low 509 (by omega) (by omega))
          have hsl : (s + ls) % 4294967296 = s + ls := Nat.mod_eq_of_lt (by omega)
          simp only []
          rw [hfields.2.1, hfields.2.2.1, f2, f3, hmodS, hsl, hsp m4 (s + ls) h4S hnw]
          have hexp : S * (s + ls) = lb + ls * S := by
            rw [← hlbdef]; ring
          refine ⟨by omega, trivial, h4S, rfl, rfl, hrec, rfl, rfl, by omega, ?_⟩
          refine hunf.trans ?_
          rw [← hn, show 2 + c - 2 = c by omega, hsl]
  · cases h0


theorem bfs16_mkdir_listing_footprint_witness :
    sector_ptr floppy10 1 = 512 * 1 ∧
    hdr_sector_size fourteenStart.mem = 512 ∧
    ent_sectors fourteenStart.mem (512 * 1) = (32 * (14 + 2) + 512 - 1) / 512 ∧
    ent_bytes_rem fourteenStart.mem (512 * 1) = (32 * (14 + 2)) % 512 ∧
    32 * (14 + 2) ≤ ent_sectors fourteenStart.mem (512 * 1) * 512 ∧
    fourteenStart.sector = 1 + ent_sectors fourteenStart.mem (512 * 1) ∧
    sector_ptr fourteenStart.mem fourteenStart.sector
      = 512 * (1 + ent_sectors fourteenStart.mem (512 * 1)) ∧
    sector_ptr floppy10 1 + 32 * (14 + 2)
      ≤ sector_ptr fourteenStart.mem fourteenStart.sector := by
  obtain ⟨_, a, b, c, d, e, f, g, h, _⟩ :=
    bfs16_mkdir_listing_footprint 5120 emptyHost 0 floppy10 1 fourteenRoot none none
      fourteenStart 16 512 14 (by decide) (by decide) (by decide) (by decide) (by decide)
      (by decide) (by set_option maxRecDepth 100000 in rfl) (fun a h => by cases h)
      (by decide)
  exact ⟨a, b, c, d, e, f, g, h⟩

/-- A listing that starts in the header's sector: with 96-byte sectors and
start_sector 5, slot `.` lies at byte 480 and its `bytes_rem` field is the
header's `sector_size`; once slot `.` is written the header says 32, and
sector 7, where the second pass starts, is at byte 224, before the listing. -/
theorem mkdir_start_listing_over_header :
    hdr_sector_size image96 = 96 ∧ sector_ptr image96 5 = 480 ∧
    mkdir_start 1920 image96 5 twoFilesRoot none none = .ok (.inr (overlapStart, 4)) ∧
    ent_sectors overlapStart.mem 480 = 2 ∧ ent_bytes_rem overlapStart.mem 480 = 32 ∧
    hdr_sector_size overlapStart.mem = 32 ∧ overlapStart.sector = 7 ∧
    sector_ptr overlapStart.mem overlapStart.sector = 224 := by
  refine ⟨by decide, by decide, ?_, ?_, ?_, ?_, ?_, ?_⟩
  all_goals (set_option maxRecDepth 100000 in rfl)

end Mkbfs
